import Mathlib

/-!
Verification of the tabular comparison engine (`comparison/normalization.py`,
`comparison/similarity.py`, `comparison/csv_compare.py`) against its
specification.

Modelling conventions:
* Raw cells are Lean `String`s.  The Python value `None` behaves, for every
  operation used by the engine (`is_empty`, `normalize_text`, `parse_bool`,
  `parse_decimal`, `canonical_scalar`, `value_similarity`), exactly like the
  empty string, so `None` is collapsed into `""`.
* Python `float` arithmetic is modelled exactly over `ℚ`.
* Python's arbitrary-precision `Decimal` is modelled exactly (sign, coefficient,
  exponent); the default-context rounding to 28 significant digits that
  `Decimal.normalize` would apply to longer coefficients is not modelled.
* Python's whitespace stripping is modelled over the ASCII whitespace
  characters; `str.lower` is modelled by `Char.toLower` (ASCII).
* Recursions that Python expresses as loops are written with explicit fuel
  where Lean's structural recursion needs it; the fuel chosen always suffices,
  which is proved where it matters.
-/

/-! ### Python string primitives -/

def isPySpace (c : Char) : Bool :=
  c = ' ' || c = '\t' || c = '\n' || c = '\r' || c = Char.ofNat 11 || c = Char.ofNat 12

/-- Remove trailing characters satisfying `isPySpace`. -/
def dropTrailing (l : List Char) : List Char :=
  (l.reverse.dropWhile isPySpace).reverse

/-- Python `str.strip()` on the character list. -/
def stripList (l : List Char) : List Char :=
  dropTrailing (l.dropWhile isPySpace)

/-- Python `str.strip()`. -/
def pyStrip (s : String) : String := String.mk (stripList s.data)

/-- Python `str.lower()` (ASCII). -/
def pyLower (s : String) : String := String.mk (s.data.map Char.toLower)

/-! ### normalization.py -/

/-- `normalization.is_empty`: a cell is empty iff it strips to nothing. -/
def is_empty (s : String) : Bool := (stripList s.data).isEmpty

/-- `normalization.normalize_text`. -/
def normalize_text (s : String) : String := pyStrip s

/-- `normalization.parse_bool`. -/
def parse_bool (s : String) : Option Bool :=
  let t := pyLower (pyStrip s)
  if t = "true" || t = "1" || t = "yes" || t = "y" then some true
  else if t = "false" || t = "0" || t = "no" || t = "n" then some false
  else none

/-- Value of a digit string, most significant first. -/
def digitsVal (l : List Char) : Nat :=
  l.foldl (fun a c => 10 * a + (c.toNat - 48)) 0

/-- A parsed Python `Decimal`: value is `(-1)^sign * coeff / 10^exp`.
`sign` is kept separately so that negative zero round-trips as in Python. -/
structure PyDecimal where
  sign : Bool
  coeff : Nat
  exp : Nat
deriving DecidableEq

/-- Body of the numeric regex `\d+\.?\d*|\.\d+` together with the exact
decimal value `Decimal(s)` would produce: coefficient and exponent. -/
def parseDecBody (l : List Char) : Option (Nat × Nat) :=
  if l.head? = some '.' then
    if l.tail ≠ [] && l.tail.all Char.isDigit then some (digitsVal l.tail, l.tail.length)
    else none
  else
    let d1 := l.takeWhile Char.isDigit
    let r := l.dropWhile Char.isDigit
    if d1 = [] then none
    else if r = [] then some (digitsVal d1, 0)
    else if r.head? = some '.' then
      if r.tail.all Char.isDigit then some (digitsVal (d1 ++ r.tail), r.tail.length) else none
    else none

/-- `normalization.parse_decimal`: trim, test the regex
`^[+-]?(\d+\.?\d*|\.\d+)$`, and build the exact decimal. -/
def parse_decimal (s : String) : Option PyDecimal :=
  let t := stripList s.data
  if t.head? = some '+' then (parseDecBody t.tail).map (fun p => ⟨false, p.1, p.2⟩)
  else if t.head? = some '-' then (parseDecBody t.tail).map (fun p => ⟨true, p.1, p.2⟩)
  else (parseDecBody t).map (fun p => ⟨false, p.1, p.2⟩)

def digitChar (d : Nat) : Char := Char.ofNat (48 + d)

/-- Decimal digits of `n`, most significant first (fuelled loop). -/
def natDigitsAux : Nat → Nat → List Char → List Char
  | 0, _, acc => acc
  | fuel + 1, n, acc =>
      if n < 10 then digitChar n :: acc
      else natDigitsAux fuel (n / 10) (digitChar (n % 10) :: acc)

def natDigits (n : Nat) : List Char := natDigitsAux (n + 1) n []

/-- `Decimal.normalize`: strip trailing zeros of the fractional part.
A zero coefficient strips down to exponent `0`, as in Python. -/
def stripTrailingZerosNat : Nat → Nat → Nat × Nat
  | c, 0 => (c, 0)
  | c, e + 1 => if c % 10 = 0 then stripTrailingZerosNat (c / 10) e else (c, e + 1)

def padLeftZeros (l : List Char) (n : Nat) : List Char :=
  List.replicate (n - l.length) '0' ++ l

/-- Unsigned fixed-point notation of a coefficient/exponent pair. -/
def decBody (c e : Nat) : List Char :=
  if e = 0 then natDigits c
  else
    let ds := padLeftZeros (natDigits c) (e + 1)
    ds.take (ds.length - e) ++ '.' :: ds.drop (ds.length - e)

/-- `format(d.normalize(), "f")`: fixed-point notation of the normalized
decimal, with the sign kept even on zero. -/
def decFixedString (d : PyDecimal) : List Char :=
  let p := stripTrailingZerosNat d.coeff d.exp
  if d.sign then '-' :: decBody p.1 p.2 else decBody p.1 p.2

/-- `normalization.canonical_scalar`. -/
def canonical_scalar (s : String) : String :=
  if is_empty s then ""
  else
    match parse_bool s with
    | some b => if b then "true" else "false"
    | none =>
        match parse_decimal s with
        | some d => String.mk (decFixedString d)
        | none => normalize_text s

example : canonical_scalar "0" = "false" := by decide
example : canonical_scalar " no " = "false" := by decide
example : canonical_scalar "0.0" = "0" := by decide
example : canonical_scalar "1.50" = "1.5" := by decide
example : canonical_scalar "100" = "100" := by decide
example : canonical_scalar "+.5" = "0.5" := by decide
example : canonical_scalar "-0.00" = "-0" := by decide
example : canonical_scalar " Text " = "Text" := by decide

/-! ### Stripping lemmas -/

theorem dropWhile_head_false {p : α → Bool} {l : List α} {c : α} {t : List α}
    (h : l.dropWhile p = c :: t) : p c = false := by
  induction l with
  | nil => simp at h
  | cons a as ih =>
      rw [List.dropWhile_cons] at h
      by_cases ha : p a
      · exact ih (by simpa [ha] using h)
      · simp [ha] at h
        simp [← h.1, ha]

theorem dropWhile_idem {p : α → Bool} (l : List α) :
    (l.dropWhile p).dropWhile p = l.dropWhile p := by
  cases h : l.dropWhile p with
  | nil => simp
  | cons c t => rw [List.dropWhile_cons, dropWhile_head_false h]; simp

theorem dropTrailing_idem (l : List Char) : dropTrailing (dropTrailing l) = dropTrailing l := by
  simp [dropTrailing, dropWhile_idem]

theorem dropTrailing_isPrefixOf (l : List Char) : dropTrailing l <+: l := by
  have h1 : (l.reverse.dropWhile isPySpace) <:+ l.reverse := List.dropWhile_suffix _
  have h2 := (@List.reverse_suffix _ (l.reverse.dropWhile isPySpace).reverse l).mp
  simp only [List.reverse_reverse] at h2
  exact h2 h1

theorem dropWhile_of_prefix_dropWhile {p : α → Bool} {l w : List α}
    (hw : w <+: l.dropWhile p) : w.dropWhile p = w := by
  cases hww : w with
  | nil => simp
  | cons c t =>
      obtain ⟨r, hr⟩ := hw
      rw [hww] at hr
      have : p c = false := dropWhile_head_false (l := l) (c := c) (t := t ++ r) (by rw [← hr]; simp)
      rw [List.dropWhile_cons, this]
      simp

theorem stripList_idem (l : List Char) : stripList (stripList l) = stripList l := by
  unfold stripList
  rw [dropWhile_of_prefix_dropWhile (dropTrailing_isPrefixOf _), dropTrailing_idem]

theorem dropWhile_eq_self_of_all {p : α → Bool} {l : List α}
    (h : ∀ c ∈ l, p c = false) : l.dropWhile p = l := by
  cases l with
  | nil => simp
  | cons c t => rw [List.dropWhile_cons, h c (by simp)]; simp

theorem stripList_eq_self_of_all {l : List Char}
    (h : ∀ c ∈ l, isPySpace c = false) : stripList l = l := by
  unfold stripList dropTrailing
  rw [dropWhile_eq_self_of_all h, dropWhile_eq_self_of_all (by simpa using h),
    List.reverse_reverse]

/-! ### Digit string lemmas -/

/-- Specification twin of `natDigits` (well-founded recursion, for proofs). -/
def natDigitsSpec (n : Nat) : List Char :=
  if h : n < 10 then [digitChar n] else natDigitsSpec (n / 10) ++ [digitChar (n % 10)]
termination_by n
decreasing_by exact Nat.div_lt_self (by omega) (by omega)

theorem natDigitsAux_eq_spec :
    ∀ (fuel n : Nat) (acc : List Char), n < fuel →
      natDigitsAux fuel n acc = natDigitsSpec n ++ acc := by
  intro fuel
  induction fuel with
  | zero => omega
  | succ f ih =>
      intro n acc h
      rw [natDigitsAux, natDigitsSpec]
      by_cases hn : n < 10
      · simp [hn]
      · have hlt : n / 10 < f := by
          have := Nat.div_lt_self (n := n) (by omega) (k := 10) (by omega)
          omega
        simp only [hn, if_false, dif_neg, not_false_iff]
        rw [ih _ _ hlt, List.append_assoc, List.singleton_append]

theorem natDigits_eq_spec (n : Nat) : natDigits n = natDigitsSpec n := by
  rw [natDigits, natDigitsAux_eq_spec _ _ _ (by omega), List.append_nil]

theorem digitChar_isDigit {d : Nat} (h : d < 10) : (digitChar d).isDigit = true := by
  interval_cases d <;> decide

theorem digitChar_toNat {d : Nat} (h : d < 10) : (digitChar d).toNat = 48 + d := by
  interval_cases d <;> decide

theorem natDigitsSpec_ne_nil (n : Nat) : natDigitsSpec n ≠ [] := by
  rw [natDigitsSpec]
  split <;> simp

theorem natDigitsSpec_all_digit (n : Nat) : ∀ c ∈ natDigitsSpec n, c.isDigit = true := by
  induction n using Nat.strong_induction_on with
  | _ n ih =>
      rw [natDigitsSpec]
      split
      · next h => simpa using digitChar_isDigit h
      · next h =>
          intro c hc
          rcases List.mem_append.mp hc with h1 | h1
          · exact ih (n / 10) (Nat.div_lt_self (by omega) (by omega)) c h1
          · simp at h1
            rw [h1]
            exact digitChar_isDigit (Nat.mod_lt _ (by omega))

theorem digitsVal_from (a : Nat) (l : List Char) :
    l.foldl (fun a c => 10 * a + (c.toNat - 48)) a = a * 10 ^ l.length + digitsVal l := by
  induction l generalizing a with
  | nil => simp [digitsVal]
  | cons c t ih =>
      simp only [List.foldl_cons, digitsVal]
      rw [ih, ih (10 * 0 + (c.toNat - 48))]
      ring_nf
      simp [List.length_cons, pow_succ]
      ring

theorem digitsVal_append_singleton (l : List Char) (c : Char) :
    digitsVal (l ++ [c]) = 10 * digitsVal l + (c.toNat - 48) := by
  unfold digitsVal
  rw [List.foldl_append]
  simp

theorem digitsVal_natDigitsSpec (n : Nat) : digitsVal (natDigitsSpec n) = n := by
  induction n using Nat.strong_induction_on with
  | _ n ih =>
      rw [natDigitsSpec]
      split
      · next h =>
          show digitsVal [digitChar n] = n
          simp [digitsVal, digitChar_toNat h]
      · next h =>
          rw [digitsVal_append_singleton, ih (n / 10) (Nat.div_lt_self (by omega) (by omega)),
            digitChar_toNat (Nat.mod_lt _ (by omega))]
          omega

theorem digitsVal_replicate_zero (k : Nat) (l : List Char) :
    digitsVal (List.replicate k '0' ++ l) = digitsVal l := by
  unfold digitsVal
  rw [List.foldl_append]
  have : List.foldl (fun a c => 10 * a + (c.toNat - 48)) 0 (List.replicate k '0') = 0 := by
    induction k with
    | zero => simp
    | succ m ihm => simpa [List.replicate_succ]
  rw [this]

theorem stripTrailingZerosNat_spec (c e : Nat) :
    ((stripTrailingZerosNat c e).2 = 0 ∨ (stripTrailingZerosNat c e).1 % 10 ≠ 0) ∧
      stripTrailingZerosNat (stripTrailingZerosNat c e).1 (stripTrailingZerosNat c e).2 =
        stripTrailingZerosNat c e := by
  induction e generalizing c with
  | zero => simp [stripTrailingZerosNat]
  | succ m ih =>
      rw [stripTrailingZerosNat]
      by_cases h : c % 10 = 0
      · simpa [h] using ih (c / 10)
      · simp only [h, if_neg, if_false]
        refine ⟨Or.inr h, ?_⟩
        rw [stripTrailingZerosNat, if_neg h]

/-! ### Character class lemmas -/

theorem isDigit_toNat {c : Char} (h : c.isDigit = true) : 48 ≤ c.toNat ∧ c.toNat ≤ 57 := by
  simp [Char.isDigit] at h
  exact ⟨h.1, h.2⟩

theorem isPySpace_false_of_ge {c : Char} (h : 45 ≤ c.toNat) : isPySpace c = false := by
  simp only [isPySpace, Bool.or_eq_false_iff]
  refine ⟨⟨⟨⟨⟨?_, ?_⟩, ?_⟩, ?_⟩, ?_⟩, ?_⟩ <;>
    · simp only [decide_eq_false_iff_not]
      intro he
      subst he
      revert h
      decide

theorem toLower_eq_self_of_lt {c : Char} (h : c.toNat < 65) : c.toLower = c := by
  unfold Char.toLower
  have hn : ¬ (c.toNat ≥ 65 ∧ c.toNat ≤ 90) := by omega
  simp [hn]

/-! ### takeWhile and dropWhile helpers -/

theorem takeWhile_eq_self_of_all {p : α → Bool} {l : List α}
    (h : ∀ c ∈ l, p c = true) : l.takeWhile p = l := by
  induction l with
  | nil => simp
  | cons c t ih =>
      rw [List.takeWhile_cons, h c (by simp)]
      simp only [if_true]
      rw [ih (fun c hc => h c (by simp [hc]))]

theorem dropWhile_eq_nil_of_all {p : α → Bool} {l : List α}
    (h : ∀ c ∈ l, p c = true) : l.dropWhile p = [] := by
  induction l with
  | nil => simp
  | cons c t ih =>
      rw [List.dropWhile_cons, h c (by simp)]
      simp only [if_true]
      exact ih (fun c hc => h c (by simp [hc]))

theorem takeWhile_append_all {p : α → Bool} {u v : List α}
    (h : ∀ c ∈ u, p c = true) : (u ++ v).takeWhile p = u ++ v.takeWhile p := by
  induction u with
  | nil => simp
  | cons c t ih =>
      rw [List.cons_append, List.takeWhile_cons, h c (by simp)]
      simp only [if_true, List.cons_append]
      rw [ih (fun c hc => h c (by simp [hc]))]

theorem dropWhile_append_all {p : α → Bool} {u v : List α}
    (h : ∀ c ∈ u, p c = true) : (u ++ v).dropWhile p = v.dropWhile p := by
  induction u with
  | nil => simp
  | cons c t ih =>
      rw [List.cons_append, List.dropWhile_cons, h c (by simp)]
      simp only [if_true]
      exact ih (fun c hc => h c (by simp [hc]))

/-! ### decBody and decFixedString lemmas -/

theorem natDigits_range (n : Nat) : ∀ c ∈ natDigits n, 48 ≤ c.toNat ∧ c.toNat ≤ 57 := by
  rw [natDigits_eq_spec]
  exact fun c hc => isDigit_toNat (natDigitsSpec_all_digit n c hc)

theorem padLeftZeros_range {l : List Char} {k : Nat}
    (h : ∀ c ∈ l, 48 ≤ c.toNat ∧ c.toNat ≤ 57) :
    ∀ c ∈ padLeftZeros l k, 48 ≤ c.toNat ∧ c.toNat ≤ 57 := by
  intro c hc
  rcases List.mem_append.mp hc with h1 | h1
  · rw [List.eq_of_mem_replicate h1]
    decide
  · exact h c h1

theorem padLeftZeros_length (l : List Char) (k : Nat) :
    (padLeftZeros l k).length = max k l.length := by
  simp [padLeftZeros]
  omega

theorem decBody_digits_dot (c e : Nat) :
    ∀ ch ∈ decBody c e, (48 ≤ ch.toNat ∧ ch.toNat ≤ 57) ∨ ch = '.' := by
  intro ch hch
  unfold decBody at hch
  split at hch
  · exact Or.inl (natDigits_range c ch hch)
  · rcases List.mem_append.mp hch with h1 | h1
    · exact Or.inl (padLeftZeros_range (natDigits_range c) ch (List.mem_of_mem_take h1))
    · rcases List.mem_cons.mp h1 with h2 | h2
      · exact Or.inr h2
      · exact Or.inl (padLeftZeros_range (natDigits_range c) ch (List.mem_of_mem_drop h2))

theorem decBody_range (c e : Nat) :
    ∀ ch ∈ decBody c e, 46 ≤ ch.toNat ∧ ch.toNat ≤ 57 := by
  intro ch hch
  rcases decBody_digits_dot c e ch hch with h | h
  · omega
  · rw [h]
    decide

theorem decBody_of_pos {c e : Nat} (he : e ≠ 0) :
    decBody c e =
      (padLeftZeros (natDigits c) (e + 1)).take
          ((padLeftZeros (natDigits c) (e + 1)).length - e) ++
        '.' :: (padLeftZeros (natDigits c) (e + 1)).drop
          ((padLeftZeros (natDigits c) (e + 1)).length - e) := by
  unfold decBody
  rw [if_neg he]

theorem decBody_head (c e : Nat) :
    ∃ c₀ t, decBody c e = c₀ :: t ∧ 48 ≤ c₀.toNat ∧ c₀.toNat ≤ 57 := by
  by_cases he : e = 0
  · subst he
    have hb : decBody c 0 = natDigits c := by
      unfold decBody
      rw [if_pos rfl]
    obtain ⟨c₀, t, h⟩ := List.exists_cons_of_ne_nil
      (natDigits_eq_spec c ▸ natDigitsSpec_ne_nil c)
    exact ⟨c₀, t, by rw [hb, h], natDigits_range c c₀ (by rw [h]; simp)⟩
  · set ds := padLeftZeros (natDigits c) (e + 1) with hds
    have hdl : e + 1 ≤ ds.length := by
      rw [hds, padLeftZeros_length]
      omega
    obtain ⟨d₀, ds', hds'⟩ : ∃ d₀ ds', ds = d₀ :: ds' := by
      cases hc : ds with
      | nil => rw [hc] at hdl; simp at hdl
      | cons a b => exact ⟨a, b, rfl⟩
    obtain ⟨k, hk'⟩ : ∃ k, ds.length - e = k + 1 := ⟨ds.length - e - 1, by omega⟩
    have heq : decBody c e = d₀ :: (ds'.take k ++ '.' :: ds.drop (k + 1)) := by
      rw [decBody_of_pos he, ← hds, hk', hds', List.take_cons, List.cons_append, ← hds']
      · simp
      · omega
    exact ⟨d₀, _, heq, padLeftZeros_range (natDigits_range c) d₀ (by rw [← hds, hds']; simp)⟩

theorem decBody_ne_nil (c e : Nat) : decBody c e ≠ [] := by
  obtain ⟨c₀, t, h, _⟩ := decBody_head c e
  simp [h]

theorem parseDecBody_decBody (c e : Nat) : parseDecBody (decBody c e) = some (c, e) := by
  by_cases he : e = 0
  · subst he
    have hall : ∀ ch ∈ decBody c 0, Char.isDigit ch = true := by
      intro ch hch
      rcases decBody_digits_dot c 0 ch hch with h | h
      · simp [Char.isDigit]
        exact h
      · exfalso
        unfold decBody at hch
        simp only [if_pos rfl] at hch
        have := natDigits_range c ch hch
        rw [h] at this
        revert this
        decide
    obtain ⟨c₀, t, hcons, hc₀⟩ := decBody_head c 0
    have hne : (decBody c 0).head? ≠ some '.' := by
      rw [hcons]
      simp only [List.head?_cons, ne_eq, Option.some_inj]
      intro h
      rw [h] at hc₀
      revert hc₀
      decide
    unfold parseDecBody
    rw [if_neg hne]
    simp only
    rw [takeWhile_eq_self_of_all hall, dropWhile_eq_nil_of_all hall]
    rw [if_neg (decBody_ne_nil c 0), if_pos rfl]
    have hb0 : decBody c 0 = natDigits c := by
      unfold decBody
      rw [if_pos rfl]
    rw [hb0, natDigits_eq_spec, digitsVal_natDigitsSpec]
  · have hbody := decBody_of_pos (c := c) he
    set ds := padLeftZeros (natDigits c) (e + 1) with hds
    set k := ds.length - e with hk
    have hdl : e + 1 ≤ ds.length := by
      rw [hds, padLeftZeros_length]
      omega
    have hk1 : 1 ≤ k := by omega
    have hdsall : ∀ ch ∈ ds, Char.isDigit ch = true := by
      intro ch hch
      have := padLeftZeros_range (natDigits_range c) ch (hds ▸ hch)
      simp [Char.isDigit]
      exact this
    have hipall : ∀ ch ∈ ds.take k, Char.isDigit ch = true :=
      fun ch hch => hdsall ch (List.mem_of_mem_take hch)
    have hfpall : ∀ ch ∈ ds.drop k, Char.isDigit ch = true :=
      fun ch hch => hdsall ch (List.mem_of_mem_drop hch)
    have hipne : ds.take k ≠ [] := by
      have : (ds.take k).length = min k ds.length := List.length_take _ _
      intro hnil
      rw [hnil] at this
      simp at this
      omega
    obtain ⟨i₀, ip', hip⟩ : ∃ i₀ ip', ds.take k = i₀ :: ip' := by
      cases hc : ds.take k with
      | nil => exact absurd hc hipne
      | cons a b => exact ⟨a, b, rfl⟩
    have hd₀ : Char.isDigit i₀ = true := hipall i₀ (by rw [hip]; simp)
    have hne : (decBody c e).head? ≠ some '.' := by
      rw [hbody, hip]
      simp only [List.cons_append, List.head?_cons, ne_eq, Option.some_inj]
      intro h
      rw [h] at hd₀
      revert hd₀
      decide
    have hdotd : Char.isDigit '.' = false := by decide
    unfold parseDecBody
    rw [if_neg hne]
    simp only
    rw [hbody, takeWhile_append_all hipall, dropWhile_append_all hipall,
      List.takeWhile_cons, List.dropWhile_cons, hdotd]
    simp only [Bool.false_eq_true, if_false, List.append_nil]
    rw [if_neg hipne, if_neg (by simp), if_pos (by simp)]
    have hall2 : (('.' :: ds.drop k).tail).all Char.isDigit = true := by
      simp only [List.tail_cons]
      exact List.all_eq_true.mpr hfpall
    rw [if_pos hall2]
    simp only [List.tail_cons]
    have hval : digitsVal (ds.take k ++ ds.drop k) = c := by
      rw [List.take_append_drop, hds]
      unfold padLeftZeros
      rw [digitsVal_replicate_zero, natDigits_eq_spec, digitsVal_natDigitsSpec]
    have hlen : (ds.drop k).length = e := by
      rw [List.length_drop]
      omega
    rw [hval, hlen]

theorem decFixedString_cons (d : PyDecimal) :
    ∃ c₀ r, decFixedString d = c₀ :: r ∧ 45 ≤ c₀.toNat ∧ c₀.toNat ≤ 57 := by
  unfold decFixedString
  cases hs : d.sign
  · simp only [Bool.false_eq_true, if_false]
    obtain ⟨c₀, t, h, hb⟩ := decBody_head (stripTrailingZerosNat d.coeff d.exp).1
      (stripTrailingZerosNat d.coeff d.exp).2
    exact ⟨c₀, t, h, by omega, hb.2⟩
  · simp only [if_true]
    exact ⟨'-', _, rfl, by decide, by decide⟩

theorem decFixedString_range (d : PyDecimal) :
    ∀ ch ∈ decFixedString d, 45 ≤ ch.toNat ∧ ch.toNat ≤ 57 := by
  intro ch hch
  unfold decFixedString at hch
  have hrange := decBody_range (stripTrailingZerosNat d.coeff d.exp).1
    (stripTrailingZerosNat d.coeff d.exp).2
  cases hs : d.sign
  · rw [hs] at hch
    simp only [Bool.false_eq_true, if_false] at hch
    have := hrange ch hch
    omega
  · rw [hs] at hch
    simp only [if_true] at hch
    rcases List.mem_cons.mp hch with h | h
    · rw [h]; decide
    · have := hrange ch h
      omega

theorem stripList_decFixed (d : PyDecimal) :
    stripList (decFixedString d) = decFixedString d :=
  stripList_eq_self_of_all
    (fun c hc => isPySpace_false_of_ge (decFixedString_range d c hc).1)

theorem parse_decimal_decFixed (d : PyDecimal) :
    parse_decimal (String.mk (decFixedString d)) =
      some ⟨d.sign, (stripTrailingZerosNat d.coeff d.exp).1,
        (stripTrailingZerosNat d.coeff d.exp).2⟩ := by
  have hdata : (String.mk (decFixedString d)).data = decFixedString d := rfl
  unfold parse_decimal
  rw [hdata, stripList_decFixed]
  cases hs : d.sign
  · have hfix : decFixedString d =
        decBody (stripTrailingZerosNat d.coeff d.exp).1
          (stripTrailingZerosNat d.coeff d.exp).2 := by
      unfold decFixedString
      rw [hs]
      simp
    obtain ⟨c₀, t, hcons, hge, hle⟩ := decBody_head (stripTrailingZerosNat d.coeff d.exp).1
      (stripTrailingZerosNat d.coeff d.exp).2
    rw [hfix, hcons]
    have hp : ¬ ((c₀ :: t).head? = some '+') := by
      simp only [List.head?_cons, Option.some_inj]
      intro h
      rw [h] at hge
      revert hge
      decide
    have hm : ¬ ((c₀ :: t).head? = some '-') := by
      simp only [List.head?_cons, Option.some_inj]
      intro h
      rw [h] at hge
      revert hge
      decide
    rw [if_neg hp, if_neg hm, ← hcons, parseDecBody_decBody]
    simp
  · have hfix : decFixedString d =
        '-' :: decBody (stripTrailingZerosNat d.coeff d.exp).1
          (stripTrailingZerosNat d.coeff d.exp).2 := by
      unfold decFixedString
      rw [hs]
      simp
    rw [hfix]
    have hp : ¬ ((('-' :: decBody (stripTrailingZerosNat d.coeff d.exp).1
        (stripTrailingZerosNat d.coeff d.exp).2).head?) = some '+') := by
      simp only [List.head?_cons, Option.some_inj]
      decide
    rw [if_neg hp, if_pos (by simp), List.tail_cons, parseDecBody_decBody]
    simp

theorem decFixed_idem (d : PyDecimal) :
    decFixedString
        ⟨d.sign, (stripTrailingZerosNat d.coeff d.exp).1,
          (stripTrailingZerosNat d.coeff d.exp).2⟩ =
      decFixedString d := by
  unfold decFixedString
  simp only
  rw [(stripTrailingZerosNat_spec d.coeff d.exp).2]

theorem ne_mk_of_first {l : List Char} {c₀ : Char} {r : List Char}
    (hl : l = c₀ :: r) (hle : c₀.toNat ≤ 57) {s : String} {c₁ : Char} {r₁ : List Char}
    (hs : s.data = c₁ :: r₁) (hge : 65 ≤ c₁.toNat) : String.mk l ≠ s := by
  intro he
  have hd : l = s.data := by rw [← he]
  rw [hl, hs] at hd
  have : c₀ = c₁ := (List.cons.injEq _ _ _ _ ▸ hd).1
  rw [this] at hle
  omega

theorem parse_bool_decFixed (d : PyDecimal)
    (h0 : String.mk (decFixedString d) ≠ "0") (h1 : String.mk (decFixedString d) ≠ "1") :
    parse_bool (String.mk (decFixedString d)) = none := by
  obtain ⟨c₀, r, hcons, hge, hle⟩ := decFixedString_cons d
  have hstrip : pyStrip (String.mk (decFixedString d)) = String.mk (decFixedString d) := by
    unfold pyStrip
    rw [show (String.mk (decFixedString d)).data = decFixedString d from rfl,
      stripList_decFixed]
  have hlower : pyLower (String.mk (decFixedString d)) = String.mk (decFixedString d) := by
    unfold pyLower
    rw [show (String.mk (decFixedString d)).data = decFixedString d from rfl]
    congr 1
    have hmap : List.map Char.toLower (decFixedString d) = List.map id (decFixedString d) :=
      List.map_congr_left
        (fun c hc => toLower_eq_self_of_lt (by have := decFixedString_range d c hc; omega))
    rw [hmap, List.map_id]
  unfold parse_bool
  rw [hstrip, hlower]
  rw [if_neg, if_neg]
  · simp only [Bool.or_eq_true, not_or, decide_eq_true_eq]
    refine ⟨⟨⟨?_, h0⟩, ?_⟩, ?_⟩
    · exact ne_mk_of_first hcons hle (s := "false") rfl (by decide)
    · exact ne_mk_of_first hcons hle (s := "no") rfl (by decide)
    · exact ne_mk_of_first hcons hle (s := "n") rfl (by decide)
  · simp only [Bool.or_eq_true, not_or, decide_eq_true_eq]
    refine ⟨⟨⟨?_, h1⟩, ?_⟩, ?_⟩
    · exact ne_mk_of_first hcons hle (s := "true") rfl (by decide)
    · exact ne_mk_of_first hcons hle (s := "yes") rfl (by decide)
    · exact ne_mk_of_first hcons hle (s := "y") rfl (by decide)

theorem is_empty_decFixed (d : PyDecimal) :
    is_empty (String.mk (decFixedString d)) = false := by
  obtain ⟨c₀, r, hcons, _, _⟩ := decFixedString_cons d
  unfold is_empty
  rw [show (String.mk (decFixedString d)).data = decFixedString d from rfl,
    stripList_decFixed, hcons]
  rfl

theorem canonical_scalar_decFixed (d : PyDecimal)
    (h0 : String.mk (decFixedString d) ≠ "0") (h1 : String.mk (decFixedString d) ≠ "1") :
    canonical_scalar (String.mk (decFixedString d)) = String.mk (decFixedString d) := by
  unfold canonical_scalar
  rw [is_empty_decFixed, parse_bool_decFixed d h0 h1, parse_decimal_decFixed]
  simp only [Bool.false_eq_true, if_false]
  exact congrArg String.mk (decFixed_idem d)

/-! ### Idempotence of stripping through the normalizer -/

theorem pyStrip_normalize (s : String) : pyStrip (normalize_text s) = pyStrip s := by
  unfold normalize_text pyStrip
  rw [show (String.mk (stripList s.data)).data = stripList s.data from rfl, stripList_idem]

theorem parse_bool_normalize (s : String) :
    parse_bool (normalize_text s) = parse_bool s := by
  unfold parse_bool
  rw [pyStrip_normalize]

theorem parse_decimal_normalize (s : String) :
    parse_decimal (normalize_text s) = parse_decimal s := by
  unfold parse_decimal
  rw [show (normalize_text s).data = stripList s.data from rfl, stripList_idem]

theorem is_empty_normalize (s : String) : is_empty (normalize_text s) = is_empty s := by
  unfold is_empty
  rw [show (normalize_text s).data = stripList s.data from rfl, stripList_idem]

theorem normalize_text_idem (s : String) :
    normalize_text (normalize_text s) = normalize_text s := by
  unfold normalize_text pyStrip
  rw [show (String.mk (stripList s.data)).data = stripList s.data from rfl, stripList_idem]

/-! ### Claims C1, C8, C9 -/

/-- C1, counterexample: `canonical_scalar` is not idempotent on the code as
written: `canonical_scalar "0.0" = "0"`, but `canonical_scalar "0" = "false"`,
because the boolean parse runs before the decimal parse. -/
theorem c1_canonical_scalar_not_idempotent :
    canonical_scalar (canonical_scalar "0.0") ≠ canonical_scalar "0.0" := by decide

/-- C1, amended: `canonical_scalar` is idempotent on every raw cell whose
canonical form is not the string `"0"` or `"1"` (the only canonical outputs
that re-parse as booleans). -/
theorem c1_canonical_scalar_idempotent (s : String)
    (h0 : canonical_scalar s ≠ "0") (h1 : canonical_scalar s ≠ "1") :
    canonical_scalar (canonical_scalar s) = canonical_scalar s := by
  by_cases he : is_empty s = true
  · have hs : canonical_scalar s = "" := by
      unfold canonical_scalar
      rw [if_pos he]
    rw [hs]
    decide
  · cases hb : parse_bool s with
    | some b =>
        have hs : canonical_scalar s = if b then "true" else "false" := by
          unfold canonical_scalar
          rw [if_neg he, hb]
        cases b
        · simp only [Bool.false_eq_true, if_false] at hs
          rw [hs]
          decide
        · simp only [if_true] at hs
          rw [hs]
          decide
    | none =>
        cases hd : parse_decimal s with
        | some d =>
            have hs : canonical_scalar s = String.mk (decFixedString d) := by
              unfold canonical_scalar
              rw [if_neg he, hb, hd]
            rw [hs] at h0 h1 ⊢
            exact canonical_scalar_decFixed d h0 h1
        | none =>
            have hs : canonical_scalar s = normalize_text s := by
              unfold canonical_scalar
              rw [if_neg he, hb, hd]
            rw [hs]
            unfold canonical_scalar
            rw [is_empty_normalize, parse_bool_normalize, parse_decimal_normalize, hb, hd,
              if_neg he, normalize_text_idem]

/-- C1 witness: the amended idempotence at the concrete cell `"2.50"`. -/
theorem c1_witness : canonical_scalar (canonical_scalar "2.50") = canonical_scalar "2.50" :=
  c1_canonical_scalar_idempotent "2.50" (by decide) (by decide)

/-- C8: because `parse_bool` runs before `parse_decimal`,
`canonical_scalar "0" = "false"`, which equals `canonical_scalar "no"` but
differs from `canonical_scalar "0.0"`. -/
theorem c8_zero_canonicalizes_as_bool :
    canonical_scalar "0" = "false" ∧ canonical_scalar "0" = canonical_scalar "no" ∧
      canonical_scalar "0" ≠ canonical_scalar "0.0" := by decide

/-- C9: the canonical scalar of a raw cell is empty exactly when the raw cell
is empty, so the row aligner's empty-key test on the canonical value agrees
with raw-cell emptiness. -/
theorem c9_canonical_scalar_empty_iff (s : String) :
    canonical_scalar s = "" ↔ is_empty s = true := by
  constructor
  · intro h
    by_contra he
    cases hb : parse_bool s with
    | some b =>
        have hs : canonical_scalar s = if b then "true" else "false" := by
          unfold canonical_scalar
          rw [if_neg he, hb]
        rw [hs] at h
        cases b <;> simp at h
    | none =>
        cases hd : parse_decimal s with
        | some d =>
            have hs : canonical_scalar s = String.mk (decFixedString d) := by
              unfold canonical_scalar
              rw [if_neg he, hb, hd]
            rw [hs] at h
            obtain ⟨c₀, r, hcons, _, _⟩ := decFixedString_cons d
            have : decFixedString d = ("" : String).data := congrArg String.data h
            rw [hcons] at this
            simp at this
        | none =>
            have hs : canonical_scalar s = normalize_text s := by
              unfold canonical_scalar
              rw [if_neg he, hb, hd]
            rw [hs] at h
            have hnil : stripList s.data = [] := by
              have := congrArg String.data h
              exact this
            apply he
            unfold is_empty
            rw [hnil]
            rfl
  · intro h
    unfold canonical_scalar
    rw [if_pos h]

/-! ### similarity.py: Levenshtein distance -/

/-- The exact rational value of a parsed decimal. -/
def decVal (d : PyDecimal) : ℚ :=
  (if d.sign then -1 else 1) * d.coeff / 10 ^ d.exp

/-- Inner loop of `similarity.levenshtein_distance`: one DP row.  `last` is the
entry of the current row to the left of the one being computed; the first two
list arguments walk in lockstep over the remaining characters of `b` and the
previous row. -/
def levRowAux (ca : Char) : List Char → List Nat → Nat → List Nat
  | cb :: bs, p0 :: p1 :: ps, last =>
      let d := min (min (last + 1) (p1 + 1)) (p0 + (if ca = cb then 0 else 1))
      d :: levRowAux ca bs (p1 :: ps) d
  | _, _, _ => []

/-- Two-row dynamic program of `similarity.levenshtein_distance`. -/
def levDP (la lb : List Char) : Nat :=
  ((la.foldl
      (fun (acc : List Nat × Nat) ca =>
        ((acc.2 + 1) :: levRowAux ca lb acc.1 (acc.2 + 1), acc.2 + 1))
      (List.range (lb.length + 1), 0)).1).getLastD 0

/-- `similarity.levenshtein_distance`: early equality exit, swap so the first
argument is the longer string, empty-string exit, then the two-row DP. -/
def levenshtein_distance (a b : String) : Nat :=
  if a = b then 0
  else
    let p := if a.length < b.length then (b, a) else (a, b)
    if p.2.length = 0 then p.1.length
    else levDP p.1.data p.2.data

/-- The classical recursive definition of unit-cost edit distance. -/
def levClassical : List Char → List Char → Nat
  | [], b => b.length
  | a, [] => a.length
  | x :: xs, y :: ys =>
      min (min (levClassical xs (y :: ys) + 1) (levClassical (x :: xs) ys + 1))
          (levClassical xs ys + (if x = y then 0 else 1))
termination_by a b => a.length + b.length

/-- `similarity.normalized_levenshtein_similarity` (the Python locals `dist`
and `denom` are inlined). -/
def normalized_levenshtein_similarity (a b : String) : ℚ :=
  if a = b then 1
  else if a = "" && b = "" then 1
  else if a = "" || b = "" then 0
  else if max a.length b.length = 0 then 1
  else max 0 (1 - (levenshtein_distance a b : ℚ) / (max a.length b.length : Nat))

/-- `similarity.value_similarity`, with float arithmetic modelled over `ℚ`
(the Python locals `a_norm` and `b_norm` are inlined). -/
def value_similarity (a b : String) : ℚ :=
  if is_empty a && is_empty b then 1
  else if is_empty a || is_empty b then 0
  else if normalize_text a = normalize_text b then 1
  else
    match parse_bool (normalize_text a), parse_bool (normalize_text b) with
    | some x, some y => if x = y then 1 else 0
    | _, _ =>
        match parse_decimal (normalize_text a), parse_decimal (normalize_text b) with
        | some x, some y =>
            if decVal x = decVal y then 1
            else
              max 0 (1 - |decVal x - decVal y| / max (max |decVal x| |decVal y|) 1)
        | _, _ => normalized_levenshtein_similarity (normalize_text a) (normalize_text b)

example : levDP "kitten".data "sitting".data = 3 := by decide
example : levDP "ab".data "ab".data = 0 := by decide
example : levDP "abc".data "b".data = 2 := by decide
example : levenshtein_distance "flaw" "lawn" = 2 := by decide

/-! ### Basic recurrences of the classical edit distance -/

theorem levClassical_nil_left (b : List Char) : levClassical [] b = b.length := by
  rw [levClassical]

theorem levClassical_nil_right (a : List Char) : levClassical a [] = a.length := by
  cases a with
  | nil => rw [levClassical]
  | cons x xs =>
      rw [levClassical]
      intro h
      cases h

theorem levClassical_cons_cons (x y : Char) (xs ys : List Char) :
    levClassical (x :: xs) (y :: ys) =
      min (min (levClassical xs (y :: ys) + 1) (levClassical (x :: xs) ys + 1))
        (levClassical xs ys + (if x = y then 0 else 1)) := by
  rw [levClassical]

theorem levClassical_cons_left_le (x : Char) (a b : List Char) :
    levClassical (x :: a) b ≤ levClassical a b + 1 := by
  cases b with
  | nil => rw [levClassical_nil_right, levClassical_nil_right]; simp
  | cons y ys =>
      rw [levClassical_cons_cons]
      exact le_trans (Nat.min_le_left _ _) (Nat.min_le_left _ _)

theorem levClassical_cons_right_le (y : Char) (a b : List Char) :
    levClassical a (y :: b) ≤ levClassical a b + 1 := by
  cases a with
  | nil => rw [levClassical_nil_left, levClassical_nil_left]; simp
  | cons x xs =>
      rw [levClassical_cons_cons]
      exact le_trans (Nat.min_le_left _ _) (Nat.min_le_right _ _)

theorem levClassical_self (a : List Char) : levClassical a a = 0 := by
  induction a with
  | nil => rw [levClassical_nil_left]; rfl
  | cons x xs ih =>
      rw [levClassical_cons_cons]
      simp only [eq_self_iff_true, if_true, ih, Nat.add_zero]
      omega

/-! ### Edit scripts -/

inductive EditOp where
  | del (c : Char)
  | ins (c : Char)
  | sub (a b : Char)

def opCost : EditOp → Nat
  | .del _ => 1
  | .ins _ => 1
  | .sub a b => if a = b then 0 else 1

def scriptCost (s : List EditOp) : Nat := (s.map opCost).sum

/-- `IsEdit a b s` holds when the script `s` transforms `a` into `b`. -/
inductive IsEdit : List Char → List Char → List EditOp → Prop where
  | nil : IsEdit [] [] []
  | del (x : Char) {xs b s} : IsEdit xs b s → IsEdit (x :: xs) b (.del x :: s)
  | ins (y : Char) {a ys s} : IsEdit a ys s → IsEdit a (y :: ys) (.ins y :: s)
  | sub (x y : Char) {xs ys s} : IsEdit xs ys s → IsEdit (x :: xs) (y :: ys) (.sub x y :: s)

theorem scriptCost_cons (op : EditOp) (s : List EditOp) :
    scriptCost (op :: s) = opCost op + scriptCost s := by
  simp [scriptCost]

theorem levClassical_le_scriptCost {a b : List Char} {s : List EditOp}
    (h : IsEdit a b s) : levClassical a b ≤ scriptCost s := by
  induction h with
  | nil => rw [levClassical_nil_left]; simp [scriptCost]
  | del x h ih =>
      rw [scriptCost_cons]
      calc levClassical _ _ ≤ levClassical _ _ + 1 := levClassical_cons_left_le _ _ _
        _ ≤ _ := by simp [opCost]; omega
  | ins y h ih =>
      rw [scriptCost_cons]
      calc levClassical _ _ ≤ levClassical _ _ + 1 := levClassical_cons_right_le _ _ _
        _ ≤ _ := by simp [opCost]; omega
  | @sub x y xs ys s' h ih =>
      rw [scriptCost_cons, levClassical_cons_cons]
      have hmin := Nat.min_le_right
        (min (levClassical xs (y :: ys) + 1) (levClassical (x :: xs) ys + 1))
        (levClassical xs ys + (if x = y then 0 else 1))
      simp only [opCost]
      omega

theorem isEdit_ins_all (b : List Char) : IsEdit [] b (b.map .ins) := by
  induction b with
  | nil => exact .nil
  | cons y ys ih => exact .ins y ih

theorem isEdit_del_all (a : List Char) : IsEdit a [] (a.map .del) := by
  induction a with
  | nil => exact .nil
  | cons x xs ih => exact .del x ih

theorem scriptCost_ins_all (b : List Char) : scriptCost (b.map .ins) = b.length := by
  induction b with
  | nil => rfl
  | cons y ys ih =>
      rw [List.map_cons, scriptCost_cons, ih]
      simp only [opCost, List.length_cons]
      omega

theorem scriptCost_del_all (a : List Char) : scriptCost (a.map .del) = a.length := by
  induction a with
  | nil => rfl
  | cons x xs ih =>
      rw [List.map_cons, scriptCost_cons, ih]
      simp only [opCost, List.length_cons]
      omega

theorem levScript_exists :
    ∀ (n : Nat) (a b : List Char), a.length + b.length ≤ n →
      ∃ s, IsEdit a b s ∧ scriptCost s = levClassical a b := by
  intro n
  induction n with
  | zero =>
      intro a b h
      have ha : a = [] := by cases a <;> simp_all
      have hb : b = [] := by cases b <;> simp_all
      subst ha hb
      exact ⟨[], .nil, by rw [levClassical_nil_left]; rfl⟩
  | succ n ih =>
      intro a b h
      cases a with
      | nil =>
          exact ⟨b.map .ins, isEdit_ins_all b, by rw [scriptCost_ins_all, levClassical_nil_left]⟩
      | cons x xs =>
          cases b with
          | nil =>
              exact ⟨(x :: xs).map .del, isEdit_del_all _,
                by rw [scriptCost_del_all, levClassical_nil_right]⟩
          | cons y ys =>
              simp only [List.length_cons] at h
              obtain ⟨s₁, hs₁, hc₁⟩ := ih xs (y :: ys) (by simp only [List.length_cons]; omega)
              obtain ⟨s₂, hs₂, hc₂⟩ := ih (x :: xs) ys (by simp only [List.length_cons]; omega)
              obtain ⟨s₃, hs₃, hc₃⟩ := ih xs ys (by omega)
              rw [levClassical_cons_cons]
              rcases show
                  min (min (levClassical xs (y :: ys) + 1) (levClassical (x :: xs) ys + 1))
                      (levClassical xs ys + (if x = y then 0 else 1)) =
                    levClassical xs (y :: ys) + 1 ∨
                  min (min (levClassical xs (y :: ys) + 1) (levClassical (x :: xs) ys + 1))
                      (levClassical xs ys + (if x = y then 0 else 1)) =
                    levClassical (x :: xs) ys + 1 ∨
                  min (min (levClassical xs (y :: ys) + 1) (levClassical (x :: xs) ys + 1))
                      (levClassical xs ys + (if x = y then 0 else 1)) =
                    levClassical xs ys + (if x = y then 0 else 1) by omega
                with hm | hm | hm
              · exact ⟨.del x :: s₁, .del x hs₁, by rw [scriptCost_cons, hc₁, hm, opCost]; omega⟩
              · exact ⟨.ins y :: s₂, .ins y hs₂, by rw [scriptCost_cons, hc₂, hm, opCost]; omega⟩
              · exact ⟨.sub x y :: s₃, .sub x y hs₃,
                  by rw [scriptCost_cons, hc₃, hm, opCost]; omega⟩

theorem isEdit_snoc_del {u v : List Char} {s : List EditOp} (x : Char)
    (h : IsEdit u v s) : IsEdit (u ++ [x]) v (s ++ [.del x]) := by
  induction h with
  | nil => exact .del x .nil
  | del y h ih => exact .del y ih
  | ins y h ih => exact .ins y ih
  | sub a b h ih => exact .sub a b ih

theorem isEdit_snoc_ins {u v : List Char} {s : List EditOp} (y : Char)
    (h : IsEdit u v s) : IsEdit u (v ++ [y]) (s ++ [.ins y]) := by
  induction h with
  | nil => exact .ins y .nil
  | del a h ih => exact .del a ih
  | ins a h ih => exact .ins a ih
  | sub a b h ih => exact .sub a b ih

theorem isEdit_snoc_sub {u v : List Char} {s : List EditOp} (x y : Char)
    (h : IsEdit u v s) : IsEdit (u ++ [x]) (v ++ [y]) (s ++ [.sub x y]) := by
  induction h with
  | nil => exact .sub x y .nil
  | del a h ih => exact .del a ih
  | ins a h ih => exact .ins a ih
  | sub a b h ih => exact .sub a b ih

theorem isEdit_reverse {a b : List Char} {s : List EditOp}
    (h : IsEdit a b s) : IsEdit a.reverse b.reverse s.reverse := by
  induction h with
  | nil => exact .nil
  | del x h ih => simpa [List.reverse_cons] using isEdit_snoc_del x ih
  | ins y h ih => simpa [List.reverse_cons] using isEdit_snoc_ins y ih
  | sub x y h ih => simpa [List.reverse_cons] using isEdit_snoc_sub x y ih

theorem scriptCost_reverse (s : List EditOp) : scriptCost s.reverse = scriptCost s := by
  simp [scriptCost, List.sum_reverse]

def opTranspose : EditOp → EditOp
  | .del c => .ins c
  | .ins c => .del c
  | .sub a b => .sub b a

theorem isEdit_transpose {a b : List Char} {s : List EditOp}
    (h : IsEdit a b s) : IsEdit b a (s.map opTranspose) := by
  induction h with
  | nil => exact .nil
  | del x h ih => exact .ins x ih
  | ins y h ih => exact .del y ih
  | sub x y h ih => exact .sub y x ih

theorem scriptCost_transpose (s : List EditOp) :
    scriptCost (s.map opTranspose) = scriptCost s := by
  induction s with
  | nil => rfl
  | cons op t ih =>
      rw [List.map_cons, scriptCost_cons, scriptCost_cons, ih]
      congr 1
      cases op with
      | del c => rfl
      | ins c => rfl
      | sub a b =>
          simp only [opTranspose, opCost]
          by_cases h : a = b
          · simp [h]
          · rw [if_neg h, if_neg (fun hba => h hba.symm)]

theorem levClassical_reverse (a b : List Char) :
    levClassical a.reverse b.reverse = levClassical a b := by
  have key : ∀ u v : List Char, levClassical u.reverse v.reverse ≤ levClassical u v := by
    intro u v
    obtain ⟨s, hs, hc⟩ := levScript_exists (u.length + v.length) u v le_rfl
    calc levClassical u.reverse v.reverse ≤ scriptCost s.reverse :=
          levClassical_le_scriptCost (isEdit_reverse hs)
      _ = levClassical u v := by rw [scriptCost_reverse, hc]
  refine le_antisymm (key a b) ?_
  have := key a.reverse b.reverse
  simpa using this

theorem levClassical_comm (a b : List Char) : levClassical a b = levClassical b a := by
  have key : ∀ u v : List Char, levClassical v u ≤ levClassical u v := by
    intro u v
    obtain ⟨s, hs, hc⟩ := levScript_exists (u.length + v.length) u v le_rfl
    calc levClassical v u ≤ scriptCost (s.map opTranspose) :=
          levClassical_le_scriptCost (isEdit_transpose hs)
      _ = levClassical u v := by rw [scriptCost_transpose, hc]
  exact le_antisymm (key b a) (key a b)

/-! ### The two-row DP computes the classical distance -/

/-- Row `i` of the DP, from entry `j₀` on: entry `j` holds the classical
distance between the reversed processed prefix of `a` and the reversed
processed prefix of `b` (split as `w` = processed part of the row, reversed,
and `bs` = remaining characters of `b`). -/
def specTail (u w : List Char) (bs : List Char) : List Nat :=
  (List.range (bs.length + 1)).map (fun j => levClassical u ((bs.take j).reverse ++ w))

theorem specTail_nil (u w : List Char) : specTail u w [] = [levClassical u w] := by
  simp [specTail]

theorem specTail_cons (u w : List Char) (cb : Char) (bs : List Char) :
    specTail u w (cb :: bs) = levClassical u w :: specTail u (cb :: w) bs := by
  unfold specTail
  rw [show (cb :: bs).length + 1 = (bs.length + 1) + 1 from rfl, List.range_succ_eq_map]
  rw [List.map_cons, List.map_map]
  simp

theorem specTail_shape (u w : List Char) (bs : List Char) :
    ∃ t, specTail u w bs = levClassical u w :: t := by
  cases bs with
  | nil => exact ⟨[], specTail_nil u w⟩
  | cons cb bs' => exact ⟨_, specTail_cons u w cb bs'⟩

theorem levRowAux_spec (ca : Char) :
    ∀ (bs u w : List Char) (last : Nat), last = levClassical (ca :: u) w →
      levRowAux ca bs (specTail u w bs) last =
        (List.range bs.length).map
          (fun j => levClassical (ca :: u) ((bs.take (j + 1)).reverse ++ w)) := by
  intro bs
  induction bs with
  | nil =>
      intro u w last hlast
      rw [specTail_nil]
      rfl
  | cons cb bs' ih =>
      intro u w last hlast
      rw [specTail_cons]
      obtain ⟨t, ht⟩ := specTail_shape u (cb :: w) bs'
      rw [ht]
      show (min (min (last + 1) (levClassical u (cb :: w) + 1))
          (levClassical u w + (if ca = cb then 0 else 1))) ::
        levRowAux ca bs' (levClassical u (cb :: w) :: t)
          (min (min (last + 1) (levClassical u (cb :: w) + 1))
            (levClassical u w + (if ca = cb then 0 else 1))) = _
      have hd : min (min (last + 1) (levClassical u (cb :: w) + 1))
          (levClassical u w + (if ca = cb then 0 else 1)) =
          levClassical (ca :: u) (cb :: w) := by
        rw [levClassical_cons_cons, hlast]
        omega
      rw [hd, ← ht, ih u (cb :: w) _ rfl]
      rw [show (cb :: bs').length = bs'.length + 1 from rfl, List.range_succ_eq_map]
      rw [List.map_cons, List.map_map]
      simp

theorem levDP_fold_spec (lb : List Char) :
    ∀ (rest done : List Char),
      rest.foldl
          (fun (acc : List Nat × Nat) ca =>
            ((acc.2 + 1) :: levRowAux ca lb acc.1 (acc.2 + 1), acc.2 + 1))
          (specTail done.reverse [] lb, done.length) =
        (specTail (done ++ rest).reverse [] lb, (done ++ rest).length) := by
  intro rest
  induction rest with
  | nil =>
      intro done
      simp
  | cons ca rest' ih =>
      intro done
      rw [List.foldl_cons]
      have hlast : done.length + 1 = levClassical (ca :: done.reverse) [] := by
        rw [levClassical_nil_right]
        simp
      have hrow : (done.length + 1) :: levRowAux ca lb (specTail done.reverse [] lb)
          (done.length + 1) = specTail (ca :: done.reverse) [] lb := by
        rw [levRowAux_spec ca lb done.reverse [] (done.length + 1) hlast]
        unfold specTail
        rw [List.range_succ_eq_map, List.map_cons, List.map_map]
        have hhead : levClassical (ca :: done.reverse) ((lb.take 0).reverse ++ []) =
            done.length + 1 := by
          rw [show ((lb.take 0).reverse ++ [] : List Char) = [] by simp, ← hlast]
        rw [hhead]
        simp
      have hstep : ((done.length + 1) :: levRowAux ca lb (specTail done.reverse [] lb)
            (done.length + 1), done.length + 1) =
          (specTail (done ++ [ca]).reverse [] lb, (done ++ [ca]).length) := by
        rw [hrow]
        simp
      show List.foldl _ ((done.length + 1) :: levRowAux ca lb (specTail done.reverse [] lb)
        (done.length + 1), done.length + 1) rest' = _
      rw [hstep, ih (done ++ [ca]), List.append_assoc, List.singleton_append]

theorem specTail_start (lb : List Char) : specTail [] [] lb = List.range (lb.length + 1) := by
  unfold specTail
  have h : ∀ j ∈ List.range (lb.length + 1),
      levClassical [] ((lb.take j).reverse ++ []) = j := by
    intro j hj
    rw [levClassical_nil_left]
    have := List.mem_range.mp hj
    simp [List.length_take]
    omega
  calc (List.range (lb.length + 1)).map (fun j => levClassical [] ((lb.take j).reverse ++ []))
      = (List.range (lb.length + 1)).map id := List.map_congr_left h
    _ = List.range (lb.length + 1) := List.map_id _

theorem specTail_getLastD (u lb : List Char) :
    (specTail u [] lb).getLastD 0 = levClassical u lb.reverse := by
  unfold specTail
  rw [List.range_succ, List.map_append, List.map_cons, List.map_nil]
  rw [List.getLastD_concat]
  simp [List.take_length]

theorem levDP_eq_classical (la lb : List Char) : levDP la lb = levClassical la lb := by
  unfold levDP
  have h0 : ((List.range (lb.length + 1), 0) : List Nat × Nat) =
      (specTail (([] : List Char)).reverse [] lb, ([] : List Char).length) := by
    rw [List.reverse_nil, specTail_start]
    rfl
  rw [h0, levDP_fold_spec lb la []]
  simp only [List.nil_append]
  rw [specTail_getLastD, levClassical_reverse]

theorem levenshtein_distance_eq (a b : String) :
    levenshtein_distance a b = levClassical a.data b.data := by
  have hlen : ∀ s : String, s.length = s.data.length := fun s => rfl
  have hnil : ∀ s : String, s.length = 0 → s.data = [] := by
    intro s h
    rw [hlen] at h
    exact List.length_eq_zero.mp h
  unfold levenshtein_distance
  by_cases hab : a = b
  · rw [if_pos hab, hab, levClassical_self]
  · rw [if_neg hab]
    by_cases hlt : a.length < b.length
    · simp only [if_pos hlt]
      by_cases hz : a.length = 0
      · rw [if_pos (by simpa using hz), hnil a hz, levClassical_nil_left, hlen]
      · rw [if_neg (by simpa using hz), levDP_eq_classical, levClassical_comm]
    · simp only [if_neg hlt]
      by_cases hz : b.length = 0
      · rw [if_pos (by simpa using hz), hnil b hz, levClassical_nil_right, hlen]
      · rw [if_neg (by simpa using hz), levDP_eq_classical]

/-! ### Claim C7 -/

theorem is_empty_iff_normalize (s : String) : is_empty s = true ↔ normalize_text s = "" := by
  unfold is_empty normalize_text pyStrip
  rw [List.isEmpty_iff]
  constructor
  · intro h
    rw [h]
  · intro h
    have := congrArg String.data h
    exact this

theorem length_pos_of_ne_empty {s : String} (h : s ≠ "") : 0 < s.length := by
  have hd : s.data ≠ [] := by
    intro hnil
    apply h
    apply String.ext
    rw [hnil]
  have : s.length = s.data.length := rfl
  rw [this]
  exact List.length_pos.mpr hd

theorem levenshtein_distance_left_empty (b : String) (hb : b ≠ "") :
    levenshtein_distance "" b = b.length := by
  unfold levenshtein_distance
  rw [if_neg (fun h => hb h.symm)]
  have hlt : ("" : String).length < b.length := length_pos_of_ne_empty hb
  simp only [if_pos hlt]
  rw [if_pos (show ("" : String).length = 0 from rfl)]

theorem levenshtein_distance_right_empty (a : String) (ha : a ≠ "") :
    levenshtein_distance a "" = a.length := by
  unfold levenshtein_distance
  rw [if_neg ha]
  have hlt : ¬ a.length < ("" : String).length := by
    intro h
    have h0 : ("" : String).length = 0 := rfl
    omega
  simp only [if_neg hlt]
  rw [if_pos (show ("" : String).length = 0 from rfl)]

/-- C7: the two-row dynamic-programming `levenshtein_distance` coincides with
the classical recursive edit distance on all string pairs, and on every pair of
raw cells that do not both parse as booleans nor both parse as decimals,
`value_similarity` returns the normalized edit-distance similarity
`max 0 (1 - lev(a, b) / max(|a|, |b|))` of the trimmed cells. -/
theorem c7_value_similarity_is_levenshtein :
    (∀ a b : String, levenshtein_distance a b = levClassical a.data b.data) ∧
    (∀ a b : String,
      ¬((parse_bool a).isSome ∧ (parse_bool b).isSome) →
      ¬((parse_decimal a).isSome ∧ (parse_decimal b).isSome) →
      value_similarity a b =
        max 0 (1 - (levenshtein_distance (normalize_text a) (normalize_text b) : ℚ) /
          ((max (normalize_text a).length (normalize_text b).length : Nat) : ℚ))) := by
  constructor
  · exact levenshtein_distance_eq
  · intro a b hpb hpd
    by_cases hea : is_empty a = true
    · by_cases heb : is_empty b = true
      · have han := (is_empty_iff_normalize a).mp hea
        have hbn := (is_empty_iff_normalize b).mp heb
        have hvs : value_similarity a b = 1 := by
          unfold value_similarity
          rw [hea, heb]
          rfl
        have hl : levenshtein_distance "" "" = 0 := by
          unfold levenshtein_distance
          rw [if_pos rfl]
        rw [hvs, han, hbn, hl]
        norm_num
      · have han := (is_empty_iff_normalize a).mp hea
        have hbn : normalize_text b ≠ "" := fun h => heb ((is_empty_iff_normalize b).mpr h)
        have heb' : is_empty b = false := Bool.eq_false_iff.mpr heb
        have hvs : value_similarity a b = 0 := by
          unfold value_similarity
          rw [hea, heb']
          rfl
        rw [hvs, han, levenshtein_distance_left_empty _ hbn]
        have hpos : 0 < ((normalize_text b).length : ℚ) := by
          exact_mod_cast length_pos_of_ne_empty hbn
        have hmax : max ("" : String).length (normalize_text b).length =
            (normalize_text b).length := by
          have h0 : ("" : String).length = 0 := rfl
          omega
        rw [hmax, div_self (by linarith)]
        norm_num
    · by_cases heb : is_empty b = true
      · have hbn := (is_empty_iff_normalize b).mp heb
        have han : normalize_text a ≠ "" := fun h => hea ((is_empty_iff_normalize a).mpr h)
        have hea' : is_empty a = false := Bool.eq_false_iff.mpr hea
        have hvs : value_similarity a b = 0 := by
          unfold value_similarity
          rw [heb, hea']
          rfl
        rw [hvs, hbn, levenshtein_distance_right_empty _ han]
        have hpos : 0 < ((normalize_text a).length : ℚ) := by
          exact_mod_cast length_pos_of_ne_empty han
        have hmax : max (normalize_text a).length ("" : String).length =
            (normalize_text a).length := by
          have h0 : ("" : String).length = 0 := rfl
          omega
        rw [hmax, div_self (by linarith)]
        norm_num
      · have hea' : is_empty a = false := Bool.eq_false_iff.mpr hea
        have heb' : is_empty b = false := Bool.eq_false_iff.mpr heb
        have han : normalize_text a ≠ "" := fun h => hea ((is_empty_iff_normalize a).mpr h)
        have hbn : normalize_text b ≠ "" := fun h => heb ((is_empty_iff_normalize b).mpr h)
        unfold value_similarity
        rw [hea', heb']
        simp only [Bool.and_self, Bool.or_self, Bool.false_eq_true, if_false]
        by_cases heq : normalize_text a = normalize_text b
        · rw [if_pos heq, heq]
          have hl : levenshtein_distance (normalize_text b) (normalize_text b) = 0 := by
            unfold levenshtein_distance
            rw [if_pos rfl]
          rw [hl]
          norm_num
        · rw [if_neg heq]
          rw [← parse_bool_normalize a, ← parse_bool_normalize b] at hpb
          rw [← parse_decimal_normalize a, ← parse_decimal_normalize b] at hpd
          have hnls : normalized_levenshtein_similarity (normalize_text a) (normalize_text b) =
              max 0 (1 - (levenshtein_distance (normalize_text a) (normalize_text b) : ℚ) /
                ((max (normalize_text a).length (normalize_text b).length : Nat) : ℚ)) := by
            unfold normalized_levenshtein_similarity
            rw [if_neg heq]
            rw [show (decide (normalize_text a = "") && decide (normalize_text b = "")) = false
              from by simp [han]]
            rw [show (decide (normalize_text a = "") || decide (normalize_text b = "")) = false
              from by simp [han, hbn]]
            simp only [Bool.false_eq_true, if_false]
            rw [if_neg (show ¬ (max (normalize_text a).length (normalize_text b).length = 0)
              from by have := length_pos_of_ne_empty han; omega)]
          cases hpa : parse_bool (normalize_text a) with
          | some x =>
              cases hpb2 : parse_bool (normalize_text b) with
              | some y =>
                  exfalso
                  exact hpb ⟨by rw [hpa]; rfl, by rw [hpb2]; rfl⟩
              | none =>
                  cases hda : parse_decimal (normalize_text a) with
                  | some u =>
                      cases hdb : parse_decimal (normalize_text b) with
                      | some v =>
                          exfalso
                          exact hpd ⟨by rw [hda]; rfl, by rw [hdb]; rfl⟩
                      | none => exact hnls
                  | none => exact hnls
          | none =>
              cases hda : parse_decimal (normalize_text a) with
              | some u =>
                  cases hdb : parse_decimal (normalize_text b) with
                  | some v =>
                      exfalso
                      exact hpd ⟨by rw [hda]; rfl, by rw [hdb]; rfl⟩
                  | none => exact hnls
              | none => exact hnls

/-- C7 witness: the formula at the concrete pair `("abc", "axc")`. -/
theorem c7_witness :
    value_similarity "abc" "axc" =
      max 0 (1 - (levenshtein_distance (normalize_text "abc") (normalize_text "axc") : ℚ) /
        ((max (normalize_text "abc").length (normalize_text "axc").length : Nat) : ℚ)) :=
  c7_value_similarity_is_levenshtein.2 "abc" "axc" (by decide) (by decide)

/-! ### Stable sort (model of Python `list.sort`, which is stable) -/

/-- Insert `x` after every element `y` with `le y x`: the insertion point of a
stable sort. -/
def insertStable {α : Type} (le : α → α → Bool) (x : α) : List α → List α
  | [] => [x]
  | y :: ys => if le y x then y :: insertStable le x ys else x :: y :: ys

/-- Stable sort: insert the elements left to right.  Ties keep input order,
matching Python's `list.sort`. -/
def sortStable {α : Type} (le : α → α → Bool) (l : List α) : List α :=
  l.foldl (fun acc y => insertStable le y acc) []

/-! ### csv_compare.py: data model -/

/-- A loaded CSV table: ordered headers and rows.  A row maps a header name to
its raw cell; absent cells are the empty string, matching the Python
`row.get(h, "")` access pattern (and `None` cells behave as `""` throughout,
see the header comment).  The file path is dropped (I/O only). -/
structure CSVTable where
  headers : List String
  rows : List (String → String)

/-- The row at index `i` (always in range where the engine uses it). -/
def rowAt (t : CSVTable) (i : Nat) : String → String :=
  t.rows.getD i (fun _ => "")

/-- One column profile of `profile_columns`. -/
structure ColumnProfile where
  rowCount : Nat
  nonEmptyCount : Nat
  nullCount : Nat
  uniqueNonEmptyCount : Nat
  isUniqueNonEmpty : Bool
  uniquenessRatioNonEmpty : ℚ
  numericRatio : ℚ
  boolRatio : ℚ
  avgLenSample : ℚ
  maxLenSample : ℚ
  headerTokens : List String

/-! ### Header tokens and similarity kernels over tables -/

def isTokenChar (c : Char) : Bool :=
  ('a' ≤ c && c ≤ 'z') || ('0' ≤ c && c ≤ '9')

/-- Maximal `[a-z0-9]+` runs of an already lowercased character list
(`_TOKEN_RE.findall`); `cur` is the current run, reversed. -/
def tokenizeRuns : List Char → List Char → List String
  | [], cur => if cur.isEmpty then [] else [String.mk cur.reverse]
  | c :: cs, cur =>
      if isTokenChar c then tokenizeRuns cs (c :: cur)
      else if cur.isEmpty then tokenizeRuns cs []
      else String.mk cur.reverse :: tokenizeRuns cs []

/-- `normalization._canon_header_token`. -/
def canonHeaderToken (t : String) : String :=
  if t = "product" then ""
  else if t = "crumb" then "breadcrumb"
  else if t = "crumbs" then "breadcrumbs"
  else if t = "tree" then "path"
  else if t = "details" then "desc"
  else if t = "highlights" then "eyecatchers"
  else if t = "badges" then "pills"
  else if t = "reviews" then "rating"
  else if t = "score" then "value"
  else if t = "qty" then "quantity"
  else if t = "pack" then "unit"
  else if t = "subline" then "subheadline"
  else if t = "amt" then ""
  else if t = "code" then ""
  else if t = "is" then "has"
  else t

/-- `normalization.header_tokens`. -/
def header_tokens (name : String) : List String :=
  ((tokenizeRuns (name.data.map Char.toLower) []).map canonHeaderToken).filter (fun t => t ≠ "")

/-- Length of the common prefix of two character lists. -/
def matchLenAt : List Char → List Char → Nat
  | x :: xs, y :: ys => if x = y then 1 + matchLenAt xs ys else 0
  | _, _ => 0

/-- `difflib.SequenceMatcher.find_longest_match` (without the junk heuristic,
which only affects sequences of length ≥ 200): the longest matching block,
leftmost in `a` and then leftmost in `b` on ties. -/
def findLongestMatch (a b : List Char) : Nat × Nat × Nat :=
  (List.range a.length).foldl
    (fun best i =>
      (List.range b.length).foldl
        (fun best j =>
          let k := matchLenAt (a.drop i) (b.drop j)
          if best.2.2 < k then (i, j, k) else best)
        best)
    (0, 0, 0)

/-- Total matched length of the greedy longest-matching-block decomposition
(`get_matching_blocks`), with fuel `|a| + |b|`, which always suffices because
each recursive call strictly shrinks the combined length. -/
def smTotalF : Nat → List Char → List Char → Nat
  | 0, _, _ => 0
  | fuel + 1, a, b =>
      let m := findLongestMatch a b
      if m.2.2 = 0 then 0
      else
        smTotalF fuel (a.take m.1) (b.take m.2.1) + m.2.2 +
          smTotalF fuel (a.drop (m.1 + m.2.2)) (b.drop (m.2.1 + m.2.2))

/-- `difflib.SequenceMatcher.ratio`: `2M / (|a| + |b|)`, and `1.0` when both
are empty. -/
def seqMatcherRatio (a b : List Char) : ℚ :=
  if a.length + b.length = 0 then 1
  else 2 * (smTotalF (a.length + b.length) a b : ℚ) / ((a.length + b.length : Nat) : ℚ)

/-- `similarity.header_similarity`. -/
def header_similarity (a b : String) : ℚ :=
  if String.join (header_tokens a) = "" && String.join (header_tokens b) = "" then 1
  else
    let seq := seqMatcherRatio (String.join (header_tokens a)).data
      (String.join (header_tokens b)).data
    let aset := (header_tokens a).dedup
    let bset := (header_tokens b).dedup
    let jacc : ℚ :=
      if aset.isEmpty && bset.isEmpty then 1
      else if aset.isEmpty || bset.isEmpty then 0
      else ((aset.filter (fun t => t ∈ bset)).length : ℚ) /
        (((aset ++ bset.filter (fun t => t ∉ aset)).length : Nat) : ℚ)
    max seq jacc

/-- `similarity.exact_set_match` (set equality of canonical value sets). -/
def exact_set_match (values_a values_b : List String) : Bool :=
  values_a.all (· ∈ values_b) && values_b.all (· ∈ values_a)

/-- `similarity.type_compatibility_score`. -/
def type_compatibility_score (ref_profile cand_profile : ColumnProfile) : ℚ :=
  if ref_profile.boolRatio ≥ 0.9 && cand_profile.boolRatio ≥ 0.9 then 1
  else if (decide (ref_profile.boolRatio ≥ 0.9)) != (decide (cand_profile.boolRatio ≥ 0.9)) then 0.1
  else if ref_profile.numericRatio ≥ 0.9 && cand_profile.numericRatio ≥ 0.9 then 1
  else if (decide (ref_profile.numericRatio ≥ 0.9)) != (decide (cand_profile.numericRatio ≥ 0.9))
    then 0.2
  else 0.8

/-! ### Column profiler -/

/-- The profile of column `h` of `t`.  The Python `profile_columns(t)` dict is
exactly this function tabulated over `t.headers`. -/
def colProfile (t : CSVTable) (h : String) : ColumnProfile :=
  let vals := t.rows.map (fun r => r h)
  let non_empty_vals := vals.filter (fun v => !is_empty v)
  let canon_non_empty := non_empty_vals.map canonical_scalar
  let non_empty_count := non_empty_vals.length
  let unique_non_empty_count := canon_non_empty.dedup.length
  let sample := non_empty_vals.take (min 500 non_empty_count)
  { rowCount := t.rows.length
    nonEmptyCount := non_empty_count
    nullCount := t.rows.length - non_empty_count
    uniqueNonEmptyCount := unique_non_empty_count
    isUniqueNonEmpty := decide (0 < non_empty_count) &&
      decide (unique_non_empty_count = non_empty_count)
    uniquenessRatioNonEmpty :=
      if non_empty_count = 0 then 0 else (unique_non_empty_count : ℚ) / non_empty_count
    numericRatio :=
      if sample.isEmpty then 0
      else ((sample.filter (fun v => (parse_decimal v).isSome)).length : ℚ) / sample.length
    boolRatio :=
      if sample.isEmpty then 0
      else ((sample.filter (fun v => (parse_bool v).isSome)).length : ℚ) / sample.length
    avgLenSample :=
      if sample.isEmpty then 0
      else ((sample.map (fun v => ((normalize_text v).length : ℚ))).sum) / sample.length
    maxLenSample :=
      if sample.isEmpty then 0
      else (((sample.map (fun v => (normalize_text v).length)).foldl max 0 : Nat) : ℚ)
    headerTokens := header_tokens h }

/-- `csv_compare.profile_columns` as the association list in header order. -/
def profile_columns (t : CSVTable) : List (String × ColumnProfile) :=
  t.headers.map (fun h => (h, colProfile t h))

/-! ### Key finder -/

/-- `round(x, 6)` (Python's float rounding modelled as exact rounding of the
rational to six decimal places). -/
def round6 (x : ℚ) : ℚ := round (x * 10 ^ 6) / 10 ^ 6

structure KeyCandidate where
  referenceColumn : String
  candidateColumn : String
  completeSetMatch : Bool
  intersectionCount : Nat
  candidateKeyCoverage : ℚ
  referenceKeyCoverage : ℚ
  headerSimilarity : ℚ
  referenceNonEmptyCount : Nat
  candidateNonEmptyCount : Nat
  score : ℚ

structure KeyMatch where
  foundUsableMatch : Bool
  foundCompleteMatch : Bool
  matchMode : Option String
  referenceColumn : Option String
  candidateColumn : Option String
  reason : String
  candidates : List KeyCandidate

/-- The canonical scalars of the non-empty cells of column `h`. -/
def colCanonNonEmpty (t : CSVTable) (h : String) : List String :=
  (t.rows.filter (fun r => !is_empty (r h))).map (fun r => canonical_scalar (r h))

/-- Sort key of `find_key_match`: `(score, reference_non_empty_count)`,
compared lexicographically. -/
def kmKeyLe (x y : KeyCandidate) : Prop :=
  x.score < y.score ∨
    (x.score = y.score ∧ x.referenceNonEmptyCount ≤ y.referenceNonEmptyCount)

instance : DecidablePred (fun p : KeyCandidate × KeyCandidate => kmKeyLe p.1 p.2) :=
  fun p => by unfold kmKeyLe; infer_instance

instance (x y : KeyCandidate) : Decidable (kmKeyLe x y) := by
  unfold kmKeyLe; infer_instance

/-- Descending stable comparator for `candidates.sort(..., reverse=True)`. -/
def kmLe (x y : KeyCandidate) : Bool := decide (kmKeyLe y x)

/-- Intersection size of the two canonical key sets. -/
def keyIntersection (ref cand : CSVTable) (rc cc : String) : Nat :=
  ((colCanonNonEmpty ref rc).dedup.filter
    (fun v => v ∈ (colCanonNonEmpty cand cc).dedup)).length

/-- The `complete` flag of a key candidate: equal row counts, equal non-empty
counts, and equal canonical key sets. -/
def keyComplete (ref cand : CSVTable) (rc cc : String) : Bool :=
  decide (ref.rows.length = cand.rows.length) &&
    decide ((colCanonNonEmpty cand cc).length = (colCanonNonEmpty ref rc).length) &&
    exact_set_match (colCanonNonEmpty ref rc).dedup (colCanonNonEmpty cand cc).dedup

/-- `intersection / len(cand_set)`, `0.0` on an empty set. -/
def candKeyCoverage (ref cand : CSVTable) (rc cc : String) : ℚ :=
  if (colCanonNonEmpty cand cc).dedup.isEmpty then 0
  else (keyIntersection ref cand rc cc : ℚ) / ((colCanonNonEmpty cand cc).dedup.length : ℚ)

/-- `intersection / len(ref_set)`, `0.0` on an empty set. -/
def refKeyCoverage (ref cand : CSVTable) (rc cc : String) : ℚ :=
  if (colCanonNonEmpty ref rc).dedup.isEmpty then 0
  else (keyIntersection ref cand rc cc : ℚ) / ((colCanonNonEmpty ref rc).dedup.length : ℚ)

/-- The per-pair body of `find_key_match`: skip a candidate column with
duplicate canonical values, skip an empty intersection, and otherwise build
the candidate record. -/
def mkKeyCandidate (ref cand : CSVTable) (ref_col cand_col : String) : Option KeyCandidate :=
  if (colCanonNonEmpty cand cand_col).dedup.length ≠ (colCanonNonEmpty cand cand_col).length
    then none
  else if keyIntersection ref cand ref_col cand_col = 0 then none
  else
    some
      { referenceColumn := ref_col
        candidateColumn := cand_col
        completeSetMatch := keyComplete ref cand ref_col cand_col
        intersectionCount := keyIntersection ref cand ref_col cand_col
        candidateKeyCoverage := round6 (candKeyCoverage ref cand ref_col cand_col)
        referenceKeyCoverage := round6 (refKeyCoverage ref cand ref_col cand_col)
        headerSimilarity := round6 (header_similarity ref_col cand_col)
        referenceNonEmptyCount := (colCanonNonEmpty ref ref_col).length
        candidateNonEmptyCount := (colCanonNonEmpty cand cand_col).length
        score := (if keyComplete ref cand ref_col cand_col then (1 : ℚ) else 0) * 10 +
          candKeyCoverage ref cand ref_col cand_col * 2 +
          refKeyCoverage ref cand ref_col cand_col + header_similarity ref_col cand_col }

/-- The enumerated key candidates, in `(ref_col, cand_col)` enumeration
order. -/
def keyCandidates (ref cand : CSVTable) (refP : String → ColumnProfile) : List KeyCandidate :=
  ref.headers.flatMap (fun ref_col =>
    if !(refP ref_col).isUniqueNonEmpty then []
    else if (colCanonNonEmpty ref ref_col).dedup.length ≠ (colCanonNonEmpty ref ref_col).length
      then []
    else cand.headers.filterMap (fun cand_col => mkKeyCandidate ref cand ref_col cand_col))

/-- `csv_compare.find_key_match`.  The candidate profiles are recomputed inside
the loop, as in the source; the sorted list is empty exactly when the
enumeration produced no candidate, so the `[]` branch is the Python
`if not candidates` early return. -/
def find_key_match (ref cand : CSVTable) (refP candP : String → ColumnProfile) : KeyMatch :=
  let candidates := keyCandidates ref cand refP
  match sortStable kmLe candidates with
  | [] =>
      { foundUsableMatch := false
        foundCompleteMatch := false
        matchMode := none
        referenceColumn := none
        candidateColumn := none
        reason := "no_exact_or_partial_unique_key_match"
        candidates := [] }
  | best :: rest =>
      { foundUsableMatch := decide (0 < best.intersectionCount)
        foundCompleteMatch := best.completeSetMatch
        matchMode := some (if best.completeSetMatch then "complete" else "partial")
        referenceColumn := some best.referenceColumn
        candidateColumn := some best.candidateColumn
        reason :=
          if best.completeSetMatch then "exact_unique_key_set_match"
          else "partial_unique_key_overlap_match"
        candidates := (best :: rest).take 10 }

/-! ### Row aligner -/

structure RowAlignment where
  complete : Bool
  referenceKey : String
  candidateKey : String
  matchedRows : Nat
  referenceRows : Nat
  candidateRows : Nat
  coverageReference : ℚ
  coverageCandidate : ℚ
  duplicateReferenceKeys : Nat
  duplicateCandidateMatches : Nat
  missingCandidateKeys : Nat
  pairs : List (Nat × Nat)

/-- One reference row of the first pass of `align_rows_by_key`. -/
def refIndexStep (ref_key : String) (acc : List (String × Nat) × Nat)
    (p : Nat × (String → String)) : List (String × Nat) × Nat :=
  let key := canonical_scalar (p.2 ref_key)
  if key = "" then acc
  else if (acc.1.lookup key).isSome then (acc.1, acc.2 + 1)
  else ((key, p.1) :: acc.1, acc.2)

/-- First pass of `align_rows_by_key`: the key index over the reference rows
(first occurrence wins) and the duplicate counter. -/
def buildRefIndex (ref : CSVTable) (ref_key : String) : List (String × Nat) × Nat :=
  ref.rows.enum.foldl (refIndexStep ref_key) ([], 0)

structure AlignState where
  pairs : List (Nat × Nat)
  seen : List Nat
  missing : Nat
  dup : Nat

/-- One candidate row of the second pass of `align_rows_by_key`. -/
def alignStep (cand_key : String) (refIndex : List (String × Nat))
    (st : AlignState) (p : Nat × (String → String)) : AlignState :=
  let key := canonical_scalar (p.2 cand_key)
  if key = "" then { st with missing := st.missing + 1 }
  else
    match refIndex.lookup key with
    | none => { st with missing := st.missing + 1 }
    | some ref_idx =>
        if ref_idx ∈ st.seen then { st with dup := st.dup + 1 }
        else { st with pairs := st.pairs ++ [(ref_idx, p.1)], seen := ref_idx :: st.seen }

/-- Second pass of `align_rows_by_key` over the candidate rows. -/
def alignCandPass (cand : CSVTable) (cand_key : String)
    (refIndex : List (String × Nat)) : AlignState :=
  cand.rows.enum.foldl (alignStep cand_key refIndex) ⟨[], [], 0, 0⟩

/-- `csv_compare.align_rows_by_key`. -/
def align_rows_by_key (ref cand : CSVTable) (ref_key cand_key : String) : RowAlignment :=
  let ri := buildRefIndex ref ref_key
  let st := alignCandPass cand cand_key ri.1
  let pairs := sortStable (fun p q : Nat × Nat => decide (p.1 ≤ q.1)) st.pairs
  let matched := pairs.length
  { complete := decide (ri.2 = 0) && decide (st.dup = 0) && decide (st.missing = 0) &&
      decide (matched = ref.rows.length) && decide (matched = cand.rows.length)
    referenceKey := ref_key
    candidateKey := cand_key
    matchedRows := matched
    referenceRows := ref.rows.length
    candidateRows := cand.rows.length
    coverageReference := if ref.rows.isEmpty then 0 else (matched : ℚ) / ref.rows.length
    coverageCandidate := if cand.rows.isEmpty then 0 else (matched : ℚ) / cand.rows.length
    duplicateReferenceKeys := ri.2
    duplicateCandidateMatches := st.dup
    missingCandidateKeys := st.missing
    pairs := pairs }

/-! ### Column mapper -/

structure PairScore where
  referenceColumn : String
  candidateColumn : String
  headerSimilarity : ℚ
  typeCompatibility : ℚ
  sampleSimilarity : ℚ
  mappingConfidence : ℚ

structure ColumnMapping where
  mapping : List (String × PairScore)
  referenceUnmatched : List String
  candidateUnmatched : List String
  mappingConfidenceAvg : ℚ
  pairCandidatesTop : List PairScore

/-- One sample pair of `sample_column_similarity_fast`.  The state is
`(exact, both_empty, same_presence)`; `both_empty` is accumulated as in the
source although the result never reads it. -/
def sampleStep (ref cand : CSVTable) (ref_col cand_col : String)
    (st : ℚ × ℚ × ℚ) (p : Nat × Nat) : ℚ × ℚ × ℚ :=
  let rv := rowAt ref p.1 ref_col
  let cv := rowAt cand p.2 cand_col
  if is_empty rv && is_empty cv then (st.1 + 1, st.2.1 + 1, st.2.2 + 1)
  else
    ((if canonical_scalar rv = canonical_scalar cv then st.1 + 1 else st.1),
      st.2.1,
      (if is_empty rv = is_empty cv then st.2.2 + 1 else st.2.2))

/-- `csv_compare.sample_column_similarity_fast`. -/
def sample_column_similarity_fast (ref cand : CSVTable) (sample_pairs : List (Nat × Nat))
    (ref_col cand_col : String) : ℚ :=
  if sample_pairs.isEmpty then 0
  else
    let st := sample_pairs.foldl (sampleStep ref cand ref_col cand_col) (0, 0, 0)
    0.85 * (st.1 / (sample_pairs.length : ℚ)) + 0.15 * (st.2.2 / (sample_pairs.length : ℚ))

/-- Sort key of `map_columns`:
`(mapping_confidence, sample_similarity, header_similarity)`. -/
def psKeyLe (x y : PairScore) : Prop :=
  x.mappingConfidence < y.mappingConfidence ∨
    (x.mappingConfidence = y.mappingConfidence ∧
      (x.sampleSimilarity < y.sampleSimilarity ∨
        (x.sampleSimilarity = y.sampleSimilarity ∧ x.headerSimilarity ≤ y.headerSimilarity)))

instance (x y : PairScore) : Decidable (psKeyLe x y) := by
  unfold psKeyLe; infer_instance

/-- Descending stable comparator for `pair_scores.sort(..., reverse=True)`. -/
def psLe (x y : PairScore) : Bool := decide (psKeyLe y x)

/-- The all-pairs score matrix of `map_columns`, in enumeration order. -/
def pairScores (ref cand : CSVTable) (refP candP : String → ColumnProfile)
    (sample_pairs : List (Nat × Nat)) : List PairScore :=
  ref.headers.flatMap (fun ref_col =>
    cand.headers.map (fun cand_col =>
      let h_score := header_similarity ref_col cand_col
      let t_score := type_compatibility_score (refP ref_col) (candP cand_col)
      let s_score := sample_column_similarity_fast ref cand sample_pairs ref_col cand_col
      { referenceColumn := ref_col
        candidateColumn := cand_col
        headerSimilarity := round6 h_score
        typeCompatibility := round6 t_score
        sampleSimilarity := round6 s_score
        mappingConfidence := round6 (0.35 * h_score + 0.10 * t_score + 0.55 * s_score) }))

structure GreedyState where
  usedRef : List String
  usedCand : List String
  mapping : List (String × PairScore)
  confs : List ℚ

/-- One step of the greedy 1:1 selection of `map_columns`. -/
def greedyStep (st : GreedyState) (p : PairScore) : GreedyState :=
  if p.referenceColumn ∈ st.usedRef || p.candidateColumn ∈ st.usedCand then st
  else if p.mappingConfidence < 0.55 && p.sampleSimilarity < 0.85 then st
  else
    { usedRef := p.referenceColumn :: st.usedRef
      usedCand := p.candidateColumn :: st.usedCand
      mapping := st.mapping ++ [(p.referenceColumn, p)]
      confs := st.confs ++ [p.mappingConfidence] }

/-- `csv_compare.map_columns`. -/
def map_columns (ref cand : CSVTable) (refP candP : String → ColumnProfile)
    (alignment_pairs : List (Nat × Nat)) (sample_size : Nat) : ColumnMapping :=
  let sample_pairs := alignment_pairs.take (min sample_size alignment_pairs.length)
  let sorted := sortStable psLe (pairScores ref cand refP candP sample_pairs)
  let final := sorted.foldl greedyStep ⟨[], [], [], []⟩
  { mapping := final.mapping
    referenceUnmatched := ref.headers.filter (fun h => h ∉ final.usedRef)
    candidateUnmatched := cand.headers.filter (fun h => h ∉ final.usedCand)
    mappingConfidenceAvg :=
      if final.confs.isEmpty then 0 else final.confs.sum / (final.confs.length : ℚ)
    pairCandidatesTop := sorted.take 50 }

/-! ### Scorer and reporter -/

/-- One entry of `scores.per_reference_column`.  The Python dicts have
slightly different key sets on the mapped, unmapped and zero-report paths;
the optional fields model the keys that are present only on some paths. -/
structure PerRefColumnScore where
  referenceColumn : String
  candidateColumn : Option String
  similarity : ℚ
  matched : Bool
  mappingConfidence : ℚ
  rowCountScored : Nat
  headerSimilarity : Option ℚ
  sampleSimilarity : Option ℚ
  reason : Option String

structure ScoreSummary where
  datasetSimilarityEqualWeighted : ℚ
  overallScoreWithCoverage : ℚ
  mappedReferenceColumns : Nat
  referenceColumnsTotal : Nat
  perReferenceColumn : List PerRefColumnScore

/-- `csv_compare.full_column_similarity`. -/
def full_column_similarity (ref cand : CSVTable) (alignment_pairs : List (Nat × Nat))
    (ref_col cand_col : String) : ℚ :=
  if alignment_pairs.isEmpty then 0
  else
    ((alignment_pairs.map
        (fun p => value_similarity (rowAt ref p.1 ref_col) (rowAt cand p.2 cand_col))).sum) /
      (alignment_pairs.length : ℚ)

/-- `csv_compare.score_columns`.  The Python `total` accumulates exactly the
similarities of the mapped columns; unmapped columns contribute `0.0`, so the
sum over all per-column similarities is the same quantity.
`overall_score_with_coverage` is filled in by `compare_csv_files`. -/
def score_columns (ref cand : CSVTable) (alignment_pairs : List (Nat × Nat))
    (mapping : List (String × PairScore)) : ScoreSummary :=
  let per_ref := ref.headers.map (fun ref_col =>
    match mapping.lookup ref_col with
    | none =>
        ({ referenceColumn := ref_col, candidateColumn := none, similarity := 0,
           matched := false, mappingConfidence := 0, rowCountScored := 0,
           headerSimilarity := none, sampleSimilarity := none,
           reason := none } : PerRefColumnScore)
    | some m =>
        { referenceColumn := ref_col
          candidateColumn := some m.candidateColumn
          similarity := full_column_similarity ref cand alignment_pairs ref_col m.candidateColumn
          matched := true
          mappingConfidence := m.mappingConfidence
          rowCountScored := alignment_pairs.length
          headerSimilarity := some m.headerSimilarity
          sampleSimilarity := some m.sampleSimilarity
          reason := none })
  { datasetSimilarityEqualWeighted :=
      if ref.headers.isEmpty then 0
      else ((per_ref.map (fun x => x.similarity)).sum) / (ref.headers.length : ℚ)
    overallScoreWithCoverage := 0
    mappedReferenceColumns := (per_ref.filter (fun x => x.matched)).length
    referenceColumnsTotal := ref.headers.length
    perReferenceColumn := per_ref }

/-- The comparison report.  The `config` echo block and the file paths are
dropped (pure I/O echoes); the two profile blocks are inlined as fields; the
JSON layer strips `pairs` from `row_alignment`, which is kept here. -/
structure Report where
  status : String
  referenceRowCount : Nat
  referenceColumnCount : Nat
  referenceUniqueColumns : List String
  candidateRowCount : Nat
  candidateColumnCount : Nat
  rowAlignment : RowAlignment
  keyMatch : KeyMatch
  columnMapping : ColumnMapping
  scores : ScoreSummary

/-- `csv_compare.zero_result`.  When no alignment override is given the
row-alignment block is the Python literal dict; its keys that the literal
omits (`reference_key`, `candidate_key`, the three counters, `pairs`) are
defaulted. -/
def zero_result (ref cand : CSVTable) (refP candP : String → ColumnProfile)
    (key_match : KeyMatch) (alignment_override : Option RowAlignment) : Report :=
  let per_column : List PerRefColumnScore := ref.headers.map (fun h =>
    { referenceColumn := h, candidateColumn := none, similarity := 0, matched := false,
      mappingConfidence := 0, rowCountScored := 0, headerSimilarity := none,
      sampleSimilarity := none, reason := some "no_complete_key_match" })
  { status := "no_complete_key_match"
    referenceRowCount := ref.rows.length
    referenceColumnCount := ref.headers.length
    referenceUniqueColumns := ref.headers.filter (fun h => (refP h).isUniqueNonEmpty)
    candidateRowCount := cand.rows.length
    candidateColumnCount := cand.headers.length
    rowAlignment := alignment_override.getD
      { complete := false, referenceKey := "", candidateKey := "", matchedRows := 0,
        referenceRows := ref.rows.length, candidateRows := cand.rows.length,
        coverageReference := 0, coverageCandidate := 0, duplicateReferenceKeys := 0,
        duplicateCandidateMatches := 0, missingCandidateKeys := 0, pairs := [] }
    keyMatch := key_match
    columnMapping :=
      { mapping := [], referenceUnmatched := ref.headers, candidateUnmatched := cand.headers,
        mappingConfidenceAvg := 0, pairCandidatesTop := [] }
    scores :=
      { datasetSimilarityEqualWeighted := 0, overallScoreWithCoverage := 0,
        mappedReferenceColumns := 0, referenceColumnsTotal := ref.headers.length,
        perReferenceColumn := per_column } }

/-- `csv_compare.compare_csv_files` on two loaded tables (the CSV parsing of
`load_csv` and the unused `weights` echo are outside the model). -/
def compare_csv_files (ref cand : CSVTable) (sample_size_mapping : Nat := 256) : Report :=
  let refP := colProfile ref
  let candP := colProfile cand
  let key_match := find_key_match ref cand refP candP
  if !key_match.foundUsableMatch then zero_result ref cand refP candP key_match none
  else
    let alignment := align_rows_by_key ref cand (key_match.referenceColumn.getD "")
      (key_match.candidateColumn.getD "")
    if alignment.matchedRows = 0 then zero_result ref cand refP candP key_match (some alignment)
    else
      let column_mapping := map_columns ref cand refP candP alignment.pairs sample_size_mapping
      let scoring := score_columns ref cand alignment.pairs column_mapping.mapping
      { status := if alignment.complete then "ok" else "partial_key_match"
        referenceRowCount := ref.rows.length
        referenceColumnCount := ref.headers.length
        referenceUniqueColumns := ref.headers.filter (fun h => (refP h).isUniqueNonEmpty)
        candidateRowCount := cand.rows.length
        candidateColumnCount := cand.headers.length
        rowAlignment := alignment
        keyMatch := key_match
        columnMapping := column_mapping
        scores := { scoring with overallScoreWithCoverage :=
          scoring.datasetSimilarityEqualWeighted * alignment.coverageReference } }

/-! ### Stable sort lemmas -/

open List in
theorem insertStable_perm {α : Type} (le : α → α → Bool) (x : α) (l : List α) :
    insertStable le x l ~ x :: l := by
  induction l with
  | nil => rfl
  | cons y ys ih =>
      unfold insertStable
      by_cases h : le y x
      · simp only [h, if_true]
        calc y :: insertStable le x ys ~ y :: x :: ys := List.Perm.cons y ih
          _ ~ x :: y :: ys := List.Perm.swap x y ys
      · simp [h]

open List in
theorem sortStable_perm {α : Type} (le : α → α → Bool) (l : List α) :
    sortStable le l ~ l := by
  have key : ∀ (l acc : List α), l.foldl (fun acc y => insertStable le y acc) acc ~ acc ++ l := by
    intro l
    induction l with
    | nil => intro acc; simp
    | cons y ys ih =>
        intro acc
        rw [List.foldl_cons]
        calc ys.foldl (fun acc y => insertStable le y acc) (insertStable le y acc)
            ~ insertStable le y acc ++ ys := ih _
          _ ~ (y :: acc) ++ ys := (insertStable_perm le y acc).append_right ys
          _ ~ acc ++ y :: ys := by
              simp only [List.cons_append]
              exact (List.perm_middle).symm
  simpa using key l []

theorem sortStable_length {α : Type} (le : α → α → Bool) (l : List α) :
    (sortStable le l).length = l.length :=
  (sortStable_perm le l).length_eq

theorem mem_sortStable {α : Type} {le : α → α → Bool} {l : List α} {a : α} :
    a ∈ sortStable le l ↔ a ∈ l :=
  (sortStable_perm le l).mem_iff

theorem insertStable_pairwise {α : Type} {le : α → α → Bool}
    (htrans : ∀ a b c, le a b = true → le b c = true → le a c = true)
    (htotal : ∀ a b, le a b = true ∨ le b a = true)
    {l : List α} (hl : l.Pairwise (fun a b => le a b = true)) (x : α) :
    (insertStable le x l).Pairwise (fun a b => le a b = true) := by
  induction l with
  | nil => simp [insertStable]
  | cons y ys ih =>
      unfold insertStable
      rcases List.pairwise_cons.mp hl with ⟨hy, hys⟩
      by_cases h : le y x
      · simp only [h, if_true]
        refine List.pairwise_cons.mpr ⟨?_, ih hys⟩
        intro z hz
        rcases List.mem_cons.mp ((insertStable_perm le x ys).mem_iff.mp hz) with hz | hz
        · rw [hz]; exact h
        · exact hy z hz
      · simp only [h, if_false, Bool.false_eq_true]
        have hxy : le x y = true := by
          rcases htotal y x with ht | ht
          · exact absurd ht (by simpa using h)
          · exact ht
        refine List.pairwise_cons.mpr ⟨?_, hl⟩
        intro z hz
        rcases List.mem_cons.mp hz with hz | hz
        · rw [hz]; exact hxy
        · exact htrans x y z hxy (hy z hz)

theorem sortStable_pairwise {α : Type} {le : α → α → Bool}
    (htrans : ∀ a b c, le a b = true → le b c = true → le a c = true)
    (htotal : ∀ a b, le a b = true ∨ le b a = true) (l : List α) :
    (sortStable le l).Pairwise (fun a b => le a b = true) := by
  have key : ∀ (l acc : List α), acc.Pairwise (fun a b => le a b = true) →
      (l.foldl (fun acc y => insertStable le y acc) acc).Pairwise
        (fun a b => le a b = true) := by
    intro l
    induction l with
    | nil => intro acc h; simpa
    | cons y ys ih =>
        intro acc h
        rw [List.foldl_cons]
        exact ih _ (insertStable_pairwise htrans htotal h y)
  exact key l [] (by simp)

theorem insertStable_decomp {α : Type} (le : α → α → Bool) (x : α) (l : List α) :
    ∃ u v, l = u ++ v ∧ insertStable le x l = u ++ x :: v ∧
      (∀ y ∈ u, le y x = true) ∧ (v = [] ∨ ∃ z v', v = z :: v' ∧ le z x = false) := by
  induction l with
  | nil => exact ⟨[], [], by simp, by simp [insertStable], by simp, Or.inl rfl⟩
  | cons y ys ih =>
      unfold insertStable
      by_cases h : le y x
      · obtain ⟨u, v, h1, h2, h3, h4⟩ := ih
        refine ⟨y :: u, v, by simp [h1], ?_, ?_, h4⟩
        · simp only [h, if_true, h2, List.cons_append]
        · intro z hz
          rcases List.mem_cons.mp hz with hz | hz
          · rw [hz]; exact h
          · exact h3 z hz
      · refine ⟨[], y :: ys, by simp, by simp [h], by simp, Or.inr ⟨y, ys, rfl, by simpa using h⟩⟩

open List in
theorem sublist_insertStable {α : Type} (le : α → α → Bool) (x : α) {l c : List α}
    (hc : c <+ l) : c <+ insertStable le x l := by
  obtain ⟨u, v, h1, h2, _, _⟩ := insertStable_decomp le x l
  rw [h2]
  rw [h1] at hc
  calc c <+ u ++ v := hc
    _ <+ u ++ x :: v := by
        apply List.Sublist.append_left
        exact List.sublist_cons_self x v

theorem sortStable_append_singleton {α : Type} (le : α → α → Bool) (l : List α) (x : α) :
    sortStable le (l ++ [x]) = insertStable le x (sortStable le l) := by
  unfold sortStable
  rw [List.foldl_append]
  rfl

open List in
theorem pair_sublist_sortStable {α : Type} {le : α → α → Bool}
    (htrans : ∀ a b c, le a b = true → le b c = true → le a c = true)
    (htotal : ∀ a b, le a b = true ∨ le b a = true)
    {a b : α} (hab : le a b = true) :
    ∀ {l : List α}, [a, b] <+ l → [a, b] <+ sortStable le l := by
  intro l
  induction l using List.reverseRecOn with
  | nil => intro h; simpa using h
  | append_singleton l₁ x ih =>
      intro h
      rw [sortStable_append_singleton]
      have h' : [b, a] <+ x :: l₁.reverse := by
        have := (@List.reverse_sublist _ [a, b] (l₁ ++ [x])).mpr h
        simpa using this
      rcases List.sublist_cons_iff.mp h' with hcase | ⟨l', hl', hsub⟩
      · have hab' : [a, b] <+ l₁ := by
          have h2 : ([a, b]).reverse <+ l₁.reverse := by simpa using hcase
          exact (List.reverse_sublist).mp h2
        exact sublist_insertStable le x (ih hab')
      · have hbx : b = x := (List.cons.injEq _ _ _ _ ▸ hl').1
        have hl'2 : l' = [a] := ((List.cons.injEq _ _ _ _ ▸ hl').2).symm
        rw [hl'2] at hsub
        have ha : a ∈ l₁ := by
          have : a ∈ l₁.reverse := by simpa using hsub.subset (by simp)
          simpa using this
        have hamem : a ∈ sortStable le l₁ := mem_sortStable.mpr ha
        obtain ⟨u, v, h1, h2, h3, h4⟩ := insertStable_decomp le x (sortStable le l₁)
        rw [h2]
        have hau : a ∈ u := by
          rcases List.mem_append.mp (h1 ▸ hamem) with h5 | h5
          · exact h5
          · exfalso
            rcases h4 with h4 | ⟨z, v', hv, hz⟩
            · rw [h4] at h5; simp at h5
            · rw [hv] at h5
              have hsorted := sortStable_pairwise htrans htotal l₁
              rw [h1, hv] at hsorted
              rcases List.mem_cons.mp h5 with h6 | h6
              · rw [← h6] at hz
                rw [← hbx] at hz
                rw [hab] at hz
                cases hz
              · have hza : le z a = true := by
                  have := (List.pairwise_append.mp hsorted).2.1
                  exact (List.pairwise_cons.mp this).1 a h6
                have : le z x = true := htrans z a x hza (hbx ▸ hab)
                rw [this] at hz
                cases hz
        calc [a, b] = [a] ++ [b] := rfl
          _ <+ u ++ x :: v := by
              apply List.Sublist.append
              · exact (List.singleton_sublist).mpr hau
              · rw [hbx]
                exact (List.singleton_sublist).mpr (by simp)

theorem sortStable_head_max {α : Type} {le : α → α → Bool}
    (htrans : ∀ a b c, le a b = true → le b c = true → le a c = true)
    (htotal : ∀ a b, le a b = true ∨ le b a = true)
    {l : List α} {x : α} {t : List α} (h : sortStable le l = x :: t) :
    ∀ c ∈ l, le x c = true := by
  intro c hc
  have hm : c ∈ x :: t := h ▸ mem_sortStable.mpr hc
  rcases List.mem_cons.mp hm with hm | hm
  · rw [hm]
    rcases htotal x x with ht | ht <;> exact ht
  · have hs := sortStable_pairwise htrans htotal l
    rw [h] at hs
    exact (List.pairwise_cons.mp hs).1 c hm

/-- A generic preservation principle for `foldl`. -/
theorem foldl_preserve {α β : Type} {f : β → α → β} {P : β → Prop}
    (hstep : ∀ s x, P s → P (f s x)) :
    ∀ (l : List α) (s : β), P s → P (l.foldl f s) := by
  intro l
  induction l with
  | nil => intro s h; simpa
  | cons x xs ih =>
      intro s h
      rw [List.foldl_cons]
      exact ih _ (hstep s x h)

/-! ### Claim C10: every candidate row is counted exactly once -/

theorem alignStep_count (cand_key : String) (refIndex : List (String × Nat))
    (st : AlignState) (p : Nat × (String → String)) :
    (alignStep cand_key refIndex st p).pairs.length +
        (alignStep cand_key refIndex st p).missing + (alignStep cand_key refIndex st p).dup =
      st.pairs.length + st.missing + st.dup + 1 := by
  unfold alignStep
  by_cases hk : canonical_scalar (p.2 cand_key) = ""
  · simp [hk]
    omega
  · simp only [if_neg hk]
    cases hl : refIndex.lookup (canonical_scalar (p.2 cand_key)) with
    | none =>
        simp [hl]
        omega
    | some ref_idx =>
        by_cases hseen : ref_idx ∈ st.seen
        · simp [hl, hseen]
          omega
        · simp [hl, hseen, List.length_append]
          omega

theorem alignCandPass_count (cand : CSVTable) (cand_key : String)
    (refIndex : List (String × Nat)) :
    (alignCandPass cand cand_key refIndex).pairs.length +
        (alignCandPass cand cand_key refIndex).missing +
        (alignCandPass cand cand_key refIndex).dup =
      cand.rows.length := by
  unfold alignCandPass
  have key : ∀ (l : List (Nat × (String → String))) (st : AlignState),
      (l.foldl (alignStep cand_key refIndex) st).pairs.length +
          (l.foldl (alignStep cand_key refIndex) st).missing +
          (l.foldl (alignStep cand_key refIndex) st).dup =
        st.pairs.length + st.missing + st.dup + l.length := by
    intro l
    induction l with
    | nil => intro st; simp
    | cons p ps ih =>
        intro st
        rw [List.foldl_cons, ih, alignStep_count]
        simp only [List.length_cons]
        omega
  have hres := key cand.rows.enum ⟨[], [], 0, 0⟩
  simpa using hres

/-- C10: in the row aligner every candidate row is counted exactly once:
matched pairs, missing-or-unmatched keys and duplicate matches partition the
candidate rows (a candidate row with an empty canonical key increments the
missing counter). -/
theorem c10_candidate_rows_partition (ref cand : CSVTable) (ref_key cand_key : String) :
    (align_rows_by_key ref cand ref_key cand_key).matchedRows +
        (align_rows_by_key ref cand ref_key cand_key).missingCandidateKeys +
        (align_rows_by_key ref cand ref_key cand_key).duplicateCandidateMatches =
      cand.rows.length := by
  unfold align_rows_by_key
  simp only
  rw [sortStable_length]
  exact alignCandPass_count cand cand_key (buildRefIndex ref ref_key).1

/-! ### Key candidate characterization -/

theorem mkKeyCandidate_spec {ref cand : CSVTable} {rc cc : String} {c : KeyCandidate}
    (h : mkKeyCandidate ref cand rc cc = some c) :
    (colCanonNonEmpty cand cc).dedup.length = (colCanonNonEmpty cand cc).length ∧
    keyIntersection ref cand rc cc ≠ 0 ∧
    c.referenceColumn = rc ∧ c.candidateColumn = cc ∧
    c.completeSetMatch = keyComplete ref cand rc cc ∧
    c.intersectionCount = keyIntersection ref cand rc cc ∧
    c.referenceNonEmptyCount = (colCanonNonEmpty ref rc).length ∧
    c.score = (if keyComplete ref cand rc cc then (1 : ℚ) else 0) * 10 +
      candKeyCoverage ref cand rc cc * 2 + refKeyCoverage ref cand rc cc +
      header_similarity rc cc := by
  unfold mkKeyCandidate at h
  by_cases h1 : (colCanonNonEmpty cand cc).dedup.length = (colCanonNonEmpty cand cc).length
  · rw [if_neg (by simpa using h1)] at h
    by_cases h2 : keyIntersection ref cand rc cc = 0
    · rw [if_pos h2] at h
      cases h
    · rw [if_neg h2] at h
      have hc := (Option.some_inj.mp h).symm
      subst hc
      exact ⟨h1, h2, rfl, rfl, rfl, rfl, rfl, rfl⟩
  · rw [if_pos (by simpa using h1)] at h
    cases h

theorem of_mem_keyCandidates {ref cand : CSVTable} {refP : String → ColumnProfile}
    {c : KeyCandidate} (h : c ∈ keyCandidates ref cand refP) :
    ∃ rc ∈ ref.headers, ∃ cc ∈ cand.headers,
      (refP rc).isUniqueNonEmpty = true ∧
      (colCanonNonEmpty ref rc).dedup.length = (colCanonNonEmpty ref rc).length ∧
      mkKeyCandidate ref cand rc cc = some c := by
  unfold keyCandidates at h
  rw [List.mem_flatMap] at h
  obtain ⟨rc, hrc, hmem⟩ := h
  by_cases h1 : (refP rc).isUniqueNonEmpty
  · rw [if_neg (by simp [h1])] at hmem
    by_cases h2 : (colCanonNonEmpty ref rc).dedup.length = (colCanonNonEmpty ref rc).length
    · rw [if_neg (by simpa using h2)] at hmem
      rw [List.mem_filterMap] at hmem
      obtain ⟨cc, hcc, heq⟩ := hmem
      exact ⟨rc, hrc, cc, hcc, h1, h2, heq⟩
    · rw [if_pos (by simpa using h2)] at hmem
      cases hmem
  · rw [if_pos (by simp [h1])] at hmem
    cases hmem

theorem mem_keyCandidates_of {ref cand : CSVTable} {refP : String → ColumnProfile}
    {rc cc : String} {c : KeyCandidate} (hrc : rc ∈ ref.headers) (hcc : cc ∈ cand.headers)
    (h1 : (refP rc).isUniqueNonEmpty = true)
    (h2 : (colCanonNonEmpty ref rc).dedup.length = (colCanonNonEmpty ref rc).length)
    (heq : mkKeyCandidate ref cand rc cc = some c) :
    c ∈ keyCandidates ref cand refP := by
  unfold keyCandidates
  rw [List.mem_flatMap]
  refine ⟨rc, hrc, ?_⟩
  rw [if_neg (by simp [h1]), if_neg (by simpa using h2), List.mem_filterMap]
  exact ⟨cc, hcc, heq⟩

theorem keyCandidate_ref_rows_ne {ref cand : CSVTable} {refP : String → ColumnProfile}
    {c : KeyCandidate} (hc : c ∈ keyCandidates ref cand refP) : ref.rows ≠ [] := by
  obtain ⟨rc, _, cc, _, _, _, heq⟩ := of_mem_keyCandidates hc
  have hspec := mkKeyCandidate_spec heq
  intro hrows
  apply hspec.2.1
  unfold keyIntersection colCanonNonEmpty
  rw [hrows]
  rfl

theorem find_key_match_usable_spec {ref cand : CSVTable} {refP candP : String → ColumnProfile}
    (h : (find_key_match ref cand refP candP).foundUsableMatch = true) :
    ∃ best rest, sortStable kmLe (keyCandidates ref cand refP) = best :: rest ∧
      (find_key_match ref cand refP candP).referenceColumn = some best.referenceColumn ∧
      (find_key_match ref cand refP candP).candidateColumn = some best.candidateColumn ∧
      best ∈ keyCandidates ref cand refP := by
  cases hs : sortStable kmLe (keyCandidates ref cand refP) with
  | nil =>
      simp only [find_key_match, hs] at h
      cases h
  | cons best rest =>
      have hmem : best ∈ keyCandidates ref cand refP :=
        mem_sortStable.mp (hs ▸ List.mem_cons_self best rest)
      refine ⟨best, rest, rfl, ?_, ?_, hmem⟩ <;>
        simp only [find_key_match, hs]

/-! ### Claim C5 -/

theorem align_complete_spec (ref cand : CSVTable) (rk ck : String)
    (h : (align_rows_by_key ref cand rk ck).complete = true) :
    (align_rows_by_key ref cand rk ck).matchedRows = ref.rows.length ∧
      (align_rows_by_key ref cand rk ck).matchedRows = cand.rows.length := by
  unfold align_rows_by_key at h ⊢
  simp only [Bool.and_eq_true, decide_eq_true_eq] at h
  exact ⟨h.1.2, h.2⟩

/-- C5: when the key finder reports a usable key pair and the row alignment on
the chosen pair is `complete`, both coverages are `1.0` and the matched row
count equals the number of reference rows. -/
theorem c5_complete_alignment_coverage (ref cand : CSVTable)
    (hus : (find_key_match ref cand (colProfile ref) (colProfile cand)).foundUsableMatch = true)
    (hcomp : (align_rows_by_key ref cand
        ((find_key_match ref cand (colProfile ref) (colProfile cand)).referenceColumn.getD "")
        ((find_key_match ref cand (colProfile ref)
          (colProfile cand)).candidateColumn.getD "")).complete = true) :
    (align_rows_by_key ref cand
        ((find_key_match ref cand (colProfile ref) (colProfile cand)).referenceColumn.getD "")
        ((find_key_match ref cand (colProfile ref)
          (colProfile cand)).candidateColumn.getD "")).coverageReference = 1 ∧
    (align_rows_by_key ref cand
        ((find_key_match ref cand (colProfile ref) (colProfile cand)).referenceColumn.getD "")
        ((find_key_match ref cand (colProfile ref)
          (colProfile cand)).candidateColumn.getD "")).coverageCandidate = 1 ∧
    (align_rows_by_key ref cand
        ((find_key_match ref cand (colProfile ref) (colProfile cand)).referenceColumn.getD "")
        ((find_key_match ref cand (colProfile ref)
          (colProfile cand)).candidateColumn.getD "")).matchedRows = ref.rows.length := by
  obtain ⟨best, rest, hs, hrc, hcc, hmem⟩ := find_key_match_usable_spec hus
  have hne : ref.rows ≠ [] := keyCandidate_ref_rows_ne hmem
  obtain ⟨hmr, hmc⟩ := align_complete_spec ref cand _ _ hcomp
  have hlen : ref.rows.length = cand.rows.length := by rw [← hmr, hmc]
  have hcne : cand.rows ≠ [] := by
    intro hnil
    have h0 : cand.rows.length = 0 := by rw [hnil]; rfl
    have h1 := List.length_pos.mpr hne
    omega
  refine ⟨?_, ?_, hmr⟩
  · unfold align_rows_by_key at hmr ⊢
    simp only at hmr ⊢
    rw [hmr]
    rw [if_neg (by simpa [List.isEmpty_iff] using hne)]
    rw [div_self (Nat.cast_ne_zero.mpr (Nat.pos_iff_ne_zero.mp (List.length_pos.mpr hne)))]
  · unfold align_rows_by_key at hmc ⊢
    simp only at hmc ⊢
    rw [hmc]
    rw [if_neg (by simpa [List.isEmpty_iff] using hcne)]
    rw [div_self (Nat.cast_ne_zero.mpr (Nat.pos_iff_ne_zero.mp (List.length_pos.mpr hcne)))]

/-- C5 witness: the identity single-row table. -/
def wTable : CSVTable := ⟨["k"], [fun _ => "a"]⟩

theorem c5_witness :
    (align_rows_by_key wTable wTable
        ((find_key_match wTable wTable (colProfile wTable)
          (colProfile wTable)).referenceColumn.getD "")
        ((find_key_match wTable wTable (colProfile wTable)
          (colProfile wTable)).candidateColumn.getD "")).coverageReference = 1 ∧
    (align_rows_by_key wTable wTable
        ((find_key_match wTable wTable (colProfile wTable)
          (colProfile wTable)).referenceColumn.getD "")
        ((find_key_match wTable wTable (colProfile wTable)
          (colProfile wTable)).candidateColumn.getD "")).coverageCandidate = 1 ∧
    (align_rows_by_key wTable wTable
        ((find_key_match wTable wTable (colProfile wTable)
          (colProfile wTable)).referenceColumn.getD "")
        ((find_key_match wTable wTable (colProfile wTable)
          (colProfile wTable)).candidateColumn.getD "")).matchedRows = wTable.rows.length :=
  c5_complete_alignment_coverage wTable wTable (by decide) (by decide)

/-! ### Claim C3 -/

/-- C3: if no usable key pair exists, or the row alignment on the chosen key
pair matches zero rows, the report is the zero report: status
`"no_complete_key_match"`, every per-reference-column similarity `0` with
`matched = false`, empty column mapping with all headers unmatched, and both
dataset scores `0`. -/
theorem c3_zero_report (ref cand : CSVTable)
    (h : (find_key_match ref cand (colProfile ref) (colProfile cand)).foundUsableMatch = false ∨
      (align_rows_by_key ref cand
        ((find_key_match ref cand (colProfile ref) (colProfile cand)).referenceColumn.getD "")
        ((find_key_match ref cand (colProfile ref)
          (colProfile cand)).candidateColumn.getD "")).matchedRows = 0) :
    (compare_csv_files ref cand).status = "no_complete_key_match" ∧
    (∀ p ∈ (compare_csv_files ref cand).scores.perReferenceColumn,
      p.similarity = 0 ∧ p.matched = false) ∧
    (compare_csv_files ref cand).columnMapping.mapping = [] ∧
    (compare_csv_files ref cand).columnMapping.referenceUnmatched = ref.headers ∧
    (compare_csv_files ref cand).columnMapping.candidateUnmatched = cand.headers ∧
    (compare_csv_files ref cand).scores.datasetSimilarityEqualWeighted = 0 ∧
    (compare_csv_files ref cand).scores.overallScoreWithCoverage = 0 := by
  have hper : ∀ (rp cp : String → ColumnProfile) (km : KeyMatch) (ov : Option RowAlignment),
      ∀ p ∈ (zero_result ref cand rp cp km ov).scores.perReferenceColumn,
        p.similarity = 0 ∧ p.matched = false := by
    intro rp cp km ov p hp
    simp only [zero_result, List.mem_map] at hp
    obtain ⟨hname, _, hp2⟩ := hp
    rw [← hp2]
    exact ⟨rfl, rfl⟩
  cases hu : (find_key_match ref cand (colProfile ref) (colProfile cand)).foundUsableMatch with
  | false =>
      have hred : compare_csv_files ref cand =
          zero_result ref cand (colProfile ref) (colProfile cand)
            (find_key_match ref cand (colProfile ref) (colProfile cand)) none := by
        unfold compare_csv_files
        simp only [hu]
        rfl
      rw [hred]
      exact ⟨rfl, hper _ _ _ _, rfl, rfl, rfl, rfl, rfl⟩
  | true =>
      cases h with
      | inl h0 => rw [hu] at h0; cases h0
      | inr hm =>
          have hred : compare_csv_files ref cand =
              zero_result ref cand (colProfile ref) (colProfile cand)
                (find_key_match ref cand (colProfile ref) (colProfile cand))
                (some (align_rows_by_key ref cand
                  ((find_key_match ref cand (colProfile ref)
                    (colProfile cand)).referenceColumn.getD "")
                  ((find_key_match ref cand (colProfile ref)
                    (colProfile cand)).candidateColumn.getD ""))) := by
            unfold compare_csv_files
            simp only [hu, Bool.not_true, if_neg (by simp : ¬false = true)]
            rw [if_pos hm]
          rw [hred]
          exact ⟨rfl, hper _ _ _ _, rfl, rfl, rfl, rfl, rfl⟩

/-- A table with no unique non-empty column: the key finder yields no usable
key pair. -/
def c3Table : CSVTable := ⟨["a"], [fun _ => "x", fun _ => "x"]⟩

theorem c3_witness :
    (compare_csv_files c3Table c3Table).status = "no_complete_key_match" ∧
    (∀ p ∈ (compare_csv_files c3Table c3Table).scores.perReferenceColumn,
      p.similarity = 0 ∧ p.matched = false) ∧
    (compare_csv_files c3Table c3Table).columnMapping.mapping = [] ∧
    (compare_csv_files c3Table c3Table).columnMapping.referenceUnmatched = c3Table.headers ∧
    (compare_csv_files c3Table c3Table).columnMapping.candidateUnmatched = c3Table.headers ∧
    (compare_csv_files c3Table c3Table).scores.datasetSimilarityEqualWeighted = 0 ∧
    (compare_csv_files c3Table c3Table).scores.overallScoreWithCoverage = 0 :=
  c3_zero_report c3Table c3Table (Or.inl (by decide))

/-! ### Claim C4: key candidate scoring -/

theorem foldl_preserve_mem {α β : Type} {P : β → Prop} {f : β → α → β} :
    ∀ {l : List α}, (∀ s x, x ∈ l → P s → P (f s x)) → ∀ s, P s → P (l.foldl f s) := by
  intro l
  induction l with
  | nil => intro _ s h; simpa
  | cons x xs ih =>
      intro hstep s h
      rw [List.foldl_cons]
      exact ih (fun s y hy hp => hstep s y (List.mem_cons_of_mem x hy) hp) _
        (hstep s x (List.mem_cons_self x xs) h)

theorem matchLenAt_le_left (xs ys : List Char) : matchLenAt xs ys ≤ xs.length := by
  induction xs generalizing ys with
  | nil => cases ys <;> simp [matchLenAt]
  | cons x xs ih =>
      cases ys with
      | nil => simp [matchLenAt]
      | cons y ys =>
          unfold matchLenAt
          by_cases h : x = y
          · simp only [h, if_true, List.length_cons]
            have := ih ys
            omega
          · simp [h]

theorem matchLenAt_le_right (xs ys : List Char) : matchLenAt xs ys ≤ ys.length := by
  induction xs generalizing ys with
  | nil => cases ys <;> simp [matchLenAt]
  | cons x xs ih =>
      cases ys with
      | nil => simp [matchLenAt]
      | cons y ys =>
          unfold matchLenAt
          by_cases h : x = y
          · simp only [h, if_true, List.length_cons]
            have := ih ys
            omega
          · simp [h]

theorem findLongestMatch_le (a b : List Char) :
    (findLongestMatch a b).1 + (findLongestMatch a b).2.2 ≤ a.length ∧
      (findLongestMatch a b).2.1 + (findLongestMatch a b).2.2 ≤ b.length := by
  unfold findLongestMatch
  apply foldl_preserve_mem
    (P := fun best : Nat × Nat × Nat => best.1 + best.2.2 ≤ a.length ∧ best.2.1 + best.2.2 ≤ b.length)
  · intro s i hi hs
    apply foldl_preserve_mem
      (P := fun best : Nat × Nat × Nat =>
        best.1 + best.2.2 ≤ a.length ∧ best.2.1 + best.2.2 ≤ b.length)
    · intro t j hj ht
      simp only
      by_cases h : t.2.2 < matchLenAt (a.drop i) (b.drop j)
      · rw [if_pos h]
        have hia : i < a.length := List.mem_range.mp hi
        have hjb : j < b.length := List.mem_range.mp hj
        have h1 := matchLenAt_le_left (a.drop i) (b.drop j)
        have h2 := matchLenAt_le_right (a.drop i) (b.drop j)
        rw [List.length_drop] at h1
        rw [List.length_drop] at h2
        refine ⟨?_, ?_⟩ <;> · dsimp only; omega
      · rw [if_neg h]
        exact ht
    · exact hs
  · refine ⟨?_, ?_⟩ <;> · dsimp only; omega

theorem smTotalF_le (fuel : Nat) : ∀ a b : List Char,
    smTotalF fuel a b ≤ min a.length b.length := by
  induction fuel with
  | zero => intro a b; simp [smTotalF]
  | succ fuel ih =>
      intro a b
      unfold smTotalF
      by_cases h : (findLongestMatch a b).2.2 = 0
      · rw [if_pos h]; omega
      · rw [if_neg h]
        have hb := findLongestMatch_le a b
        have h1 := ih (a.take (findLongestMatch a b).1) (b.take (findLongestMatch a b).2.1)
        have h2 := ih (a.drop ((findLongestMatch a b).1 + (findLongestMatch a b).2.2))
          (b.drop ((findLongestMatch a b).2.1 + (findLongestMatch a b).2.2))
        rw [List.length_take, List.length_take] at h1
        rw [List.length_drop, List.length_drop] at h2
        omega

theorem seqMatcherRatio_mem (a b : List Char) :
    0 ≤ seqMatcherRatio a b ∧ seqMatcherRatio a b ≤ 1 := by
  unfold seqMatcherRatio
  by_cases h : a.length + b.length = 0
  · rw [if_pos h]; norm_num
  · rw [if_neg h]
    have hpos : (0 : ℚ) < ((a.length + b.length : Nat) : ℚ) := by
      exact_mod_cast Nat.pos_of_ne_zero h
    constructor
    · apply div_nonneg _ (le_of_lt hpos)
      positivity
    · rw [div_le_one hpos]
      have := smTotalF_le (a.length + b.length) a b
      have h2 : 2 * smTotalF (a.length + b.length) a b ≤ a.length + b.length := by omega
      exact_mod_cast h2

theorem header_similarity_mem (a b : String) :
    0 ≤ header_similarity a b ∧ header_similarity a b ≤ 1 := by
  unfold header_similarity
  by_cases h : String.join (header_tokens a) = "" && String.join (header_tokens b) = ""
  · rw [if_pos h]; norm_num
  · rw [if_neg h]
    simp only
    have hseq := seqMatcherRatio_mem (String.join (header_tokens a)).data
      (String.join (header_tokens b)).data
    have hjacc : 0 ≤ (if (header_tokens a).dedup.isEmpty && (header_tokens b).dedup.isEmpty
          then (1 : ℚ)
          else if (header_tokens a).dedup.isEmpty || (header_tokens b).dedup.isEmpty then 0
          else (((header_tokens a).dedup.filter (fun t => t ∈ (header_tokens b).dedup)).length : ℚ) /
            ((((header_tokens a).dedup ++
              (header_tokens b).dedup.filter (fun t => t ∉ (header_tokens a).dedup)).length : Nat) : ℚ)) ∧
        (if (header_tokens a).dedup.isEmpty && (header_tokens b).dedup.isEmpty then (1 : ℚ)
          else if (header_tokens a).dedup.isEmpty || (header_tokens b).dedup.isEmpty then 0
          else (((header_tokens a).dedup.filter (fun t => t ∈ (header_tokens b).dedup)).length : ℚ) /
            ((((header_tokens a).dedup ++
              (header_tokens b).dedup.filter (fun t => t ∉ (header_tokens a).dedup)).length : Nat) : ℚ)) ≤ 1 := by
      by_cases h1 : (header_tokens a).dedup.isEmpty && (header_tokens b).dedup.isEmpty
      · rw [if_pos h1]; norm_num
      · rw [if_neg h1]
        by_cases h2 : (header_tokens a).dedup.isEmpty || (header_tokens b).dedup.isEmpty
        · rw [if_pos h2]; norm_num
        · rw [if_neg h2]
          have hane : ¬(header_tokens a).dedup.isEmpty := by
            intro hx
            exact h2 (by simp [hx])
          have halen : 0 < (header_tokens a).dedup.length := by
            cases hl : (header_tokens a).dedup with
            | nil => exact absurd (by simp [hl]) hane
            | cons z zs => simp
          have hden : 0 < ((header_tokens a).dedup ++
              (header_tokens b).dedup.filter (fun t => t ∉ (header_tokens a).dedup)).length := by
            rw [List.length_append]; omega
          have hdenq : (0 : ℚ) < ((((header_tokens a).dedup ++
              (header_tokens b).dedup.filter (fun t => t ∉ (header_tokens a).dedup)).length : Nat) : ℚ) := by
            exact_mod_cast hden
          constructor
          · exact div_nonneg (by positivity) (le_of_lt hdenq)
          · rw [div_le_one hdenq]
            have hnum : ((header_tokens a).dedup.filter
                (fun t => t ∈ (header_tokens b).dedup)).length ≤
                ((header_tokens a).dedup ++
                  (header_tokens b).dedup.filter (fun t => t ∉ (header_tokens a).dedup)).length := by
              rw [List.length_append]
              have := List.length_filter_le (fun t => t ∈ (header_tokens b).dedup)
                (header_tokens a).dedup
              omega
            exact_mod_cast hnum
    constructor
    · exact le_trans hseq.1 (le_max_left _ _)
    · exact max_le hseq.2 hjacc.2

theorem keyIntersection_le_ref (ref cand : CSVTable) (rc cc : String) :
    keyIntersection ref cand rc cc ≤ (colCanonNonEmpty ref rc).dedup.length := by
  unfold keyIntersection
  exact List.length_filter_le _ _

theorem keyIntersection_le_cand (ref cand : CSVTable) (rc cc : String) :
    keyIntersection ref cand rc cc ≤ (colCanonNonEmpty cand cc).dedup.length := by
  unfold keyIntersection
  have hnd : ((colCanonNonEmpty ref rc).dedup.filter
      (fun v => v ∈ (colCanonNonEmpty cand cc).dedup)).Nodup :=
    (List.nodup_dedup _).filter _
  have hcard : ((colCanonNonEmpty ref rc).dedup.filter
      (fun v => v ∈ (colCanonNonEmpty cand cc).dedup)).toFinset.card =
      ((colCanonNonEmpty ref rc).dedup.filter
        (fun v => v ∈ (colCanonNonEmpty cand cc).dedup)).length :=
    List.toFinset_card_of_nodup hnd
  have hsub : ((colCanonNonEmpty ref rc).dedup.filter
      (fun v => v ∈ (colCanonNonEmpty cand cc).dedup)).toFinset ⊆
      (colCanonNonEmpty cand cc).dedup.toFinset := by
    intro x hx
    rw [List.mem_toFinset] at hx
    rw [List.mem_toFinset]
    have := List.of_mem_filter hx
    simpa using this
  calc ((colCanonNonEmpty ref rc).dedup.filter
        (fun v => v ∈ (colCanonNonEmpty cand cc).dedup)).length
      = _ := hcard.symm
    _ ≤ (colCanonNonEmpty cand cc).dedup.toFinset.card := Finset.card_le_card hsub
    _ ≤ (colCanonNonEmpty cand cc).dedup.length := List.toFinset_card_le _

theorem candKeyCoverage_mem (ref cand : CSVTable) (rc cc : String) :
    0 ≤ candKeyCoverage ref cand rc cc ∧ candKeyCoverage ref cand rc cc ≤ 1 := by
  unfold candKeyCoverage
  by_cases h : (colCanonNonEmpty cand cc).dedup.isEmpty
  · rw [if_pos h]; norm_num
  · rw [if_neg h]
    have hlen : 0 < (colCanonNonEmpty cand cc).dedup.length := by
      cases hl : (colCanonNonEmpty cand cc).dedup with
      | nil => exact absurd (by simp [hl]) h
      | cons z zs => simp
    have hq : (0 : ℚ) < ((colCanonNonEmpty cand cc).dedup.length : ℚ) := by exact_mod_cast hlen
    constructor
    · exact div_nonneg (by positivity) (le_of_lt hq)
    · rw [div_le_one hq]
      exact_mod_cast keyIntersection_le_cand ref cand rc cc

theorem refKeyCoverage_mem (ref cand : CSVTable) (rc cc : String) :
    0 ≤ refKeyCoverage ref cand rc cc ∧ refKeyCoverage ref cand rc cc ≤ 1 := by
  unfold refKeyCoverage
  by_cases h : (colCanonNonEmpty ref rc).dedup.isEmpty
  · rw [if_pos h]; norm_num
  · rw [if_neg h]
    have hlen : 0 < (colCanonNonEmpty ref rc).dedup.length := by
      cases hl : (colCanonNonEmpty ref rc).dedup with
      | nil => exact absurd (by simp [hl]) h
      | cons z zs => simp
    have hq : (0 : ℚ) < ((colCanonNonEmpty ref rc).dedup.length : ℚ) := by exact_mod_cast hlen
    constructor
    · exact div_nonneg (by positivity) (le_of_lt hq)
    · rw [div_le_one hq]
      exact_mod_cast keyIntersection_le_ref ref cand rc cc

theorem kmKeyLe_trans {a b c : KeyCandidate} (h1 : kmKeyLe a b) (h2 : kmKeyLe b c) :
    kmKeyLe a c := by
  unfold kmKeyLe at *
  rcases h1 with h1 | ⟨h1e, h1n⟩
  · rcases h2 with h2 | ⟨h2e, _⟩
    · exact Or.inl (h1.trans h2)
    · exact Or.inl (h2e ▸ h1)
  · rcases h2 with h2 | ⟨h2e, h2n⟩
    · exact Or.inl (h1e ▸ h2)
    · exact Or.inr ⟨h1e.trans h2e, h1n.trans h2n⟩

theorem kmKeyLe_total (a b : KeyCandidate) : kmKeyLe a b ∨ kmKeyLe b a := by
  unfold kmKeyLe
  rcases lt_trichotomy a.score b.score with h | h | h
  · exact Or.inl (Or.inl h)
  · rcases Nat.le_total a.referenceNonEmptyCount b.referenceNonEmptyCount with hn | hn
    · exact Or.inl (Or.inr ⟨h, hn⟩)
    · exact Or.inr (Or.inr ⟨h.symm, hn⟩)
  · exact Or.inr (Or.inl h)

theorem kmLe_trans (a b c : KeyCandidate) (h1 : kmLe a b = true) (h2 : kmLe b c = true) :
    kmLe a c = true := by
  unfold kmLe at *
  exact decide_eq_true (kmKeyLe_trans (of_decide_eq_true h2) (of_decide_eq_true h1))

theorem kmLe_total (a b : KeyCandidate) : kmLe a b = true ∨ kmLe b a = true := by
  unfold kmLe
  rcases kmKeyLe_total a b with h | h
  · exact Or.inr (decide_eq_true h)
  · exact Or.inl (decide_eq_true h)

/-- C4: every enumerated key candidate is scored
`10·[complete] + 2·candidate_coverage + reference_coverage + header_similarity`;
any complete candidate scores strictly above any incomplete one; hence the
selected top pair is complete whenever a complete candidate exists. -/
theorem c4_key_scoring (ref cand : CSVTable) (refP candP : String → ColumnProfile) :
    (∀ c ∈ keyCandidates ref cand refP,
      c.score = (if c.completeSetMatch then (10 : ℚ) else 0) +
        2 * candKeyCoverage ref cand c.referenceColumn c.candidateColumn +
        refKeyCoverage ref cand c.referenceColumn c.candidateColumn +
        header_similarity c.referenceColumn c.candidateColumn) ∧
    (∀ c ∈ keyCandidates ref cand refP, ∀ d ∈ keyCandidates ref cand refP,
      c.completeSetMatch = true → d.completeSetMatch = false → d.score < c.score) ∧
    ((∃ c ∈ keyCandidates ref cand refP, c.completeSetMatch = true) →
      (find_key_match ref cand refP candP).foundCompleteMatch = true) := by
  have hscore : ∀ c ∈ keyCandidates ref cand refP,
      c.score = (if c.completeSetMatch then (10 : ℚ) else 0) +
        2 * candKeyCoverage ref cand c.referenceColumn c.candidateColumn +
        refKeyCoverage ref cand c.referenceColumn c.candidateColumn +
        header_similarity c.referenceColumn c.candidateColumn := by
    intro c hc
    obtain ⟨rc, _, cc, _, _, _, heq⟩ := of_mem_keyCandidates hc
    obtain ⟨_, _, hrc, hcc, hcm, _, _, hsc⟩ := mkKeyCandidate_spec heq
    rw [hsc, hcm, hrc, hcc]
    by_cases hk : keyComplete ref cand rc cc
    · rw [if_pos hk, if_pos hk]; ring
    · rw [if_neg hk, if_neg hk]; ring
  have hsep : ∀ c ∈ keyCandidates ref cand refP, ∀ d ∈ keyCandidates ref cand refP,
      c.completeSetMatch = true → d.completeSetMatch = false → d.score < c.score := by
    intro c hc d hd hct hdf
    have h1 := hscore c hc
    have h2 := hscore d hd
    rw [hct] at h1
    rw [hdf] at h2
    rw [if_pos rfl] at h1
    rw [if_neg (by simp)] at h2
    have b1 := candKeyCoverage_mem ref cand c.referenceColumn c.candidateColumn
    have b2 := refKeyCoverage_mem ref cand c.referenceColumn c.candidateColumn
    have b3 := header_similarity_mem c.referenceColumn c.candidateColumn
    have b4 := candKeyCoverage_mem ref cand d.referenceColumn d.candidateColumn
    have b5 := refKeyCoverage_mem ref cand d.referenceColumn d.candidateColumn
    have b6 := header_similarity_mem d.referenceColumn d.candidateColumn
    rw [h1, h2]
    nlinarith [b1.1, b2.1, b3.1, b4.2, b5.2, b6.2, b4.1, b5.1, b6.1]
  refine ⟨hscore, hsep, ?_⟩
  rintro ⟨c, hc, hcomp⟩
  cases hs : sortStable kmLe (keyCandidates ref cand refP) with
  | nil =>
      exfalso
      have : c ∈ sortStable kmLe (keyCandidates ref cand refP) := mem_sortStable.mpr hc
      rw [hs] at this
      cases this
  | cons best rest =>
      have hbmem : best ∈ keyCandidates ref cand refP :=
        mem_sortStable.mp (hs ▸ List.mem_cons_self best rest)
      simp only [find_key_match, hs]
      by_cases hbf : best.completeSetMatch = true
      · exact hbf
      · exfalso
        have hbf' : best.completeSetMatch = false := by
          cases hb : best.completeSetMatch
          · rfl
          · exact absurd hb hbf
        have hlt := hsep c hc best hbmem hcomp hbf'
        have hmax := sortStable_head_max kmLe_trans kmLe_total hs c hc
        unfold kmLe at hmax
        have := of_decide_eq_true hmax
        unfold kmKeyLe at this
        rcases this with h | ⟨he, _⟩
        · exact absurd (h.trans hlt) (lt_irrefl _)
        · rw [he] at hlt
          exact absurd hlt (lt_irrefl _)

theorem c4_witness :
    (find_key_match wTable wTable (colProfile wTable)
      (colProfile wTable)).foundCompleteMatch = true :=
  (c4_key_scoring wTable wTable (colProfile wTable) (colProfile wTable)).2.2 (by decide)

/-! ### Claim C6: the greedy column mapping is one-to-one -/

/-- The invariant of the greedy pass: the mapped reference columns and the
mapped candidate targets are both duplicate-free, and each is recorded in the
corresponding `used` list. -/
def GreedyInv (st : GreedyState) : Prop :=
  (st.mapping.map (fun e => e.1)).Nodup ∧
  (st.mapping.map (fun e => e.2.candidateColumn)).Nodup ∧
  (∀ e ∈ st.mapping, e.1 ∈ st.usedRef ∧ e.2.candidateColumn ∈ st.usedCand)

theorem greedyStep_inv (st : GreedyState) (p : PairScore) (h : GreedyInv st) :
    GreedyInv (greedyStep st p) := by
  unfold greedyStep
  by_cases h1 : p.referenceColumn ∈ st.usedRef || p.candidateColumn ∈ st.usedCand
  · rw [if_pos h1]; exact h
  · rw [if_neg h1]
    by_cases h2 : p.mappingConfidence < 0.55 && p.sampleSimilarity < 0.85
    · rw [if_pos h2]; exact h
    · rw [if_neg h2]
      have hr : p.referenceColumn ∉ st.usedRef := by
        intro hx; exact h1 (by simp [hx])
      have hc : p.candidateColumn ∉ st.usedCand := by
        intro hx; exact h1 (by simp [hx])
      obtain ⟨hn1, hn2, hmem⟩ := h
      refine ⟨?_, ?_, ?_⟩
      · rw [List.map_append]
        rw [List.nodup_append]
        refine ⟨hn1, List.nodup_singleton _, ?_⟩
        intro x hx hy
        have hx1 : x = p.referenceColumn := by simpa using hy
        rw [List.mem_map] at hx
        obtain ⟨e, he, hex⟩ := hx
        exact hr (hx1 ▸ hex ▸ (hmem e he).1)
      · rw [List.map_append]
        rw [List.nodup_append]
        refine ⟨hn2, List.nodup_singleton _, ?_⟩
        intro x hx hy
        have hx1 : x = p.candidateColumn := by simpa using hy
        rw [List.mem_map] at hx
        obtain ⟨e, he, hex⟩ := hx
        exact hc (hx1 ▸ hex ▸ (hmem e he).2)
      · intro e he
        rcases List.mem_append.mp he with he | he
        · exact ⟨List.mem_cons_of_mem _ (hmem e he).1,
            List.mem_cons_of_mem _ (hmem e he).2⟩
        · have : e = (p.referenceColumn, p) := by simpa using he
          rw [this]
          exact ⟨List.mem_cons_self _ _, List.mem_cons_self _ _⟩

/-- C6: the column mapping is injective in both directions: no reference
column appears in two mapping entries, and no candidate column is the target
of two mapping entries. -/
theorem c6_mapping_injective (ref cand : CSVTable) (refP candP : String → ColumnProfile)
    (alignment_pairs : List (Nat × Nat)) (sample_size : Nat) :
    ((map_columns ref cand refP candP alignment_pairs sample_size).mapping.map
      (fun e => e.1)).Nodup ∧
    ((map_columns ref cand refP candP alignment_pairs sample_size).mapping.map
      (fun e => e.2.candidateColumn)).Nodup := by
  have h : GreedyInv ((sortStable psLe (pairScores ref cand refP candP
      (alignment_pairs.take (min sample_size alignment_pairs.length)))).foldl
        greedyStep ⟨[], [], [], []⟩) :=
    foldl_preserve (fun s x hp => greedyStep_inv s x hp) _ _ ⟨by simp, by simp, by simp⟩
  exact ⟨h.1, h.2.1⟩

/-! ### Claim C2: generic helpers -/

open List in
theorem pair_sublist_split {α : Type} {a b : α} :
    ∀ {S : List α}, [a, b] <+ S → ∃ u v, S = u ++ v ∧ a ∈ u ∧ b ∈ v := by
  intro S
  induction S with
  | nil => intro h; simp at h
  | cons s t ih =>
      intro h
      rcases List.sublist_cons_iff.mp h with h' | ⟨l', he, hsub⟩
      · obtain ⟨u, v, h1, h2, h3⟩ := ih h'
        exact ⟨s :: u, v, by simp [h1], List.mem_cons_of_mem s h2, h3⟩
      · have ha : a = s := (List.cons.injEq _ _ _ _ ▸ he).1
        have hl : l' = [b] := ((List.cons.injEq _ _ _ _ ▸ he).2).symm
        rw [hl] at hsub
        exact ⟨[a], t, by simp [ha], by simp, List.singleton_sublist.mp hsub⟩

open List in
theorem flatMap_pair_sublist {α γ : Type} (F : α → List γ) {c r : α} :
    ∀ {hs : List α}, [c, r] <+ hs → ∀ {x y : γ}, x ∈ F c → y ∈ F r →
      [x, y] <+ hs.flatMap F := by
  intro hs
  induction hs with
  | nil => intro h; simp at h
  | cons s t ih =>
      intro h x y hx hy
      rw [List.flatMap_cons]
      rcases List.sublist_cons_iff.mp h with h' | ⟨l', he, hsub⟩
      · exact List.sublist_append_of_sublist_right (ih h' hx hy)
      · have hsc : c = s := (List.cons.injEq _ _ _ _ ▸ he).1
        have hl : l' = [r] := ((List.cons.injEq _ _ _ _ ▸ he).2).symm
        rw [hl] at hsub
        have h1 : [x] <+ F s := List.singleton_sublist.mpr (hsc ▸ hx)
        have h2 : [y] <+ t.flatMap F :=
          List.singleton_sublist.mpr
            (List.mem_flatMap.mpr ⟨r, List.singleton_sublist.mp hsub, hy⟩)
        simpa using List.Sublist.append h1 h2

open List in
theorem flatMap_block_sublist {α γ : Type} (F : α → List γ) {r : α} {hs : List α}
    (hr : r ∈ hs) {x y : γ} (h : [x, y] <+ F r) : [x, y] <+ hs.flatMap F := by
  obtain ⟨u, v, huv⟩ := List.append_of_mem hr
  rw [huv, List.flatMap_append, List.flatMap_cons]
  calc [x, y] <+ F r := h
    _ <+ F r ++ v.flatMap F := List.sublist_append_left _ _
    _ <+ u.flatMap F ++ (F r ++ v.flatMap F) := List.sublist_append_right _ _

open List in
theorem filterMap_pair_sublist {α γ : Type} (f : α → Option γ) {r c : α} :
    ∀ {hs : List α}, [r, c] <+ hs → ∀ {x y : γ}, f r = some x → f c = some y →
      [x, y] <+ hs.filterMap f := by
  intro hs
  induction hs with
  | nil => intro h; simp at h
  | cons s t ih =>
      intro h x y hr hc
      rw [List.filterMap_cons]
      rcases List.sublist_cons_iff.mp h with h' | ⟨l', he, hsub⟩
      · cases hfs : f s with
        | none => exact ih h' hr hc
        | some z => exact (ih h' hr hc).cons z
      · have hrs : r = s := (List.cons.injEq _ _ _ _ ▸ he).1
        have hl : l' = [c] := ((List.cons.injEq _ _ _ _ ▸ he).2).symm
        rw [hl] at hsub
        rw [← hrs, hr]
        exact (List.singleton_sublist.mpr
          (List.mem_filterMap.mpr ⟨c, List.singleton_sublist.mp hsub, hc⟩)).cons₂ x

open List in
theorem pair_sublist_of_mem_ne {α : Type} {a b : α} :
    ∀ {l : List α}, a ∈ l → b ∈ l → a ≠ b → [a, b] <+ l ∨ [b, a] <+ l := by
  intro l
  induction l with
  | nil => intro h; cases h
  | cons s t ih =>
      intro ha hb hne
      by_cases has : a = s
      · subst has
        have hbt : b ∈ t := by
          rcases List.mem_cons.mp hb with h | h
          · exact absurd h.symm hne
          · exact h
        exact Or.inl ((List.singleton_sublist.mpr hbt).cons₂ a)
      · by_cases hbs : b = s
        · subst hbs
          have hat : a ∈ t := by
            rcases List.mem_cons.mp ha with h | h
            · exact absurd h has
            · exact h
          exact Or.inr ((List.singleton_sublist.mpr hat).cons₂ b)
        · have hat : a ∈ t := by
            rcases List.mem_cons.mp ha with h | h
            · exact absurd h has
            · exact h
          have hbt : b ∈ t := by
            rcases List.mem_cons.mp hb with h | h
            · exact absurd h hbs
            · exact h
          rcases ih hat hbt hne with h | h
          · exact Or.inl (h.cons s)
          · exact Or.inr (h.cons s)

theorem nodup_flatMap_of {α γ : Type} {F : α → List γ} :
    ∀ {l : List α}, l.Nodup → (∀ a ∈ l, (F a).Nodup) →
      (∀ a ∈ l, ∀ b ∈ l, a ≠ b → ∀ x ∈ F a, x ∉ F b) → (l.flatMap F).Nodup := by
  intro l
  induction l with
  | nil => intro _ _ _; simp
  | cons s t ih =>
      intro hnd hFnd hdisj
      rw [List.flatMap_cons, List.nodup_append]
      refine ⟨hFnd s (by simp), ih (List.nodup_cons.mp hnd).2
        (fun a ha => hFnd a (List.mem_cons_of_mem s ha))
        (fun a ha b hb => hdisj a (List.mem_cons_of_mem s ha) b (List.mem_cons_of_mem s hb)), ?_⟩
      intro x hx hx'
      rw [List.mem_flatMap] at hx'
      obtain ⟨b, hb, hxb⟩ := hx'
      have hsb : s ≠ b := fun he => (List.nodup_cons.mp hnd).1 (he ▸ hb)
      exact hdisj s (by simp) b (List.mem_cons_of_mem s hb) hsb x hx hxb

theorem insertStable_append_of_all {α : Type} (le : α → α → Bool) (x : α) :
    ∀ {l : List α}, (∀ y ∈ l, le y x = true) → insertStable le x l = l ++ [x] := by
  intro l
  induction l with
  | nil => intro _; rfl
  | cons y t ih =>
      intro h
      unfold insertStable
      rw [if_pos (h y (by simp)), ih (fun z hz => h z (List.mem_cons_of_mem y hz))]
      rfl

/-- The identity alignment pairs `[(0,0), …, (n−1,n−1)]`. -/
def idPairs (n : Nat) : List (Nat × Nat) := (List.range n).map (fun i => (i, i))

theorem sortStable_idPairs (n : Nat) :
    sortStable (fun p q : Nat × Nat => decide (p.1 ≤ q.1)) (idPairs n) = idPairs n := by
  induction n with
  | zero => rfl
  | succ n ih =>
      unfold idPairs
      rw [List.range_succ, List.map_append]
      simp only [List.map_cons, List.map_nil]
      rw [sortStable_append_singleton]
      show insertStable _ (n, n) (sortStable _ (idPairs n)) = idPairs n ++ _
      rw [ih]
      apply insertStable_append_of_all
      intro y hy
      unfold idPairs at hy
      rw [List.mem_map] at hy
      obtain ⟨i, hi, hiy⟩ := hy
      rw [List.mem_range] at hi
      rw [← hiy]
      exact decide_eq_true (by omega)

theorem psKeyLe_trans {a b c : PairScore} (h1 : psKeyLe a b) (h2 : psKeyLe b c) :
    psKeyLe a c := by
  unfold psKeyLe at *
  rcases h1 with h1 | ⟨h1e, h1r⟩
  · rcases h2 with h2 | ⟨h2e, _⟩
    · exact Or.inl (h1.trans h2)
    · exact Or.inl (h2e ▸ h1)
  · rcases h2 with h2 | ⟨h2e, h2r⟩
    · exact Or.inl (h1e ▸ h2)
    · refine Or.inr ⟨h1e.trans h2e, ?_⟩
      rcases h1r with h1r | ⟨h1re, h1rh⟩
      · rcases h2r with h2r | ⟨h2re, _⟩
        · exact Or.inl (h1r.trans h2r)
        · exact Or.inl (h2re ▸ h1r)
      · rcases h2r with h2r | ⟨h2re, h2rh⟩
        · exact Or.inl (h1re ▸ h2r)
        · exact Or.inr ⟨h1re.trans h2re, h1rh.trans h2rh⟩

theorem psKeyLe_total (a b : PairScore) : psKeyLe a b ∨ psKeyLe b a := by
  unfold psKeyLe
  rcases lt_trichotomy a.mappingConfidence b.mappingConfidence with h | h | h
  · exact Or.inl (Or.inl h)
  · rcases lt_trichotomy a.sampleSimilarity b.sampleSimilarity with hs | hs | hs
    · exact Or.inl (Or.inr ⟨h, Or.inl hs⟩)
    · rcases le_total a.headerSimilarity b.headerSimilarity with hh | hh
      · exact Or.inl (Or.inr ⟨h, Or.inr ⟨hs, hh⟩⟩)
      · exact Or.inr (Or.inr ⟨h.symm, Or.inr ⟨hs.symm, hh⟩⟩)
    · exact Or.inr (Or.inr ⟨h.symm, Or.inl hs⟩)
  · exact Or.inr (Or.inl h)

theorem psKeyLe_of_components {a b : PairScore} (h1 : a.mappingConfidence ≤ b.mappingConfidence)
    (h2 : a.sampleSimilarity ≤ b.sampleSimilarity)
    (h3 : a.headerSimilarity ≤ b.headerSimilarity) : psKeyLe a b := by
  unfold psKeyLe
  rcases lt_or_eq_of_le h1 with h | h
  · exact Or.inl h
  · refine Or.inr ⟨h, ?_⟩
    rcases lt_or_eq_of_le h2 with h' | h'
    · exact Or.inl h'
    · exact Or.inr ⟨h', h3⟩

theorem psLe_trans (a b c : PairScore) (h1 : psLe a b = true) (h2 : psLe b c = true) :
    psLe a c = true := by
  unfold psLe at *
  exact decide_eq_true (psKeyLe_trans (of_decide_eq_true h2) (of_decide_eq_true h1))

theorem psLe_total (a b : PairScore) : psLe a b = true ∨ psLe b a = true := by
  unfold psLe
  rcases psKeyLe_total a b with h | h
  · exact Or.inr (decide_eq_true h)
  · exact Or.inl (decide_eq_true h)

theorem round6_mono {x y : ℚ} (h : x ≤ y) : round6 x ≤ round6 y := by
  unfold round6
  have h2 : round (x * 10 ^ 6) ≤ round (y * 10 ^ 6) := by
    rw [round_eq, round_eq]
    exact Int.floor_le_floor (by nlinarith)
  have h3 : ((round (x * 10 ^ 6) : ℤ) : ℚ) ≤ ((round (y * 10 ^ 6) : ℤ) : ℚ) := by
    exact_mod_cast h2
  exact div_le_div_of_nonneg_right h3 (by norm_num) |>.trans_eq rfl

theorem round6_ge (x : ℚ) : x - 1 / 2000000 ≤ round6 x := by
  unfold round6
  have h := abs_sub_round (x * 10 ^ 6)
  have h1 : x * 10 ^ 6 - 1 / 2 ≤ ((round (x * 10 ^ 6) : ℤ) : ℚ) := by
    have := (abs_le.mp h).2
    linarith
  rw [le_div_iff (by norm_num : (0 : ℚ) < 10 ^ 6)]
  linarith

/-! ### Claim C2: self-similarity and bound lemmas -/

theorem canonical_scalar_ne_empty {s : String} (he : is_empty s = false) :
    canonical_scalar s ≠ "" := by
  intro h
  have he' : ¬ is_empty s = true := by simp [he]
  cases hb : parse_bool s with
  | some b =>
      have hs : canonical_scalar s = if b then "true" else "false" := by
        unfold canonical_scalar
        rw [if_neg he', hb]
      rw [hs] at h
      cases b <;> simp at h
  | none =>
      cases hd : parse_decimal s with
      | some d =>
          have hs : canonical_scalar s = String.mk (decFixedString d) := by
            unfold canonical_scalar
            rw [if_neg he', hb, hd]
          rw [hs] at h
          obtain ⟨c₀, r, hcons, _, _⟩ := decFixedString_cons d
          have : decFixedString d = ("" : String).data := congrArg String.data h
          rw [hcons] at this
          simp at this
      | none =>
          have hs : canonical_scalar s = normalize_text s := by
            unfold canonical_scalar
            rw [if_neg he', hb, hd]
          rw [hs] at h
          have hnil : stripList s.data = [] := congrArg String.data h
          apply he'
          unfold is_empty
          rw [hnil]
          rfl

theorem exact_set_match_self (l : List String) : exact_set_match l l = true := by
  unfold exact_set_match
  simp [List.all_eq_true]

theorem header_similarity_self (a : String) : header_similarity a a = 1 := by
  unfold header_similarity
  by_cases h : String.join (header_tokens a) = ""
  · rw [if_pos (by simp [h])]
  · rw [if_neg (by simp [h])]
    simp only
    have hseq := seqMatcherRatio_mem (String.join (header_tokens a)).data
      (String.join (header_tokens a)).data
    by_cases hae : (header_tokens a).dedup.isEmpty
    · rw [if_pos (by simp [hae])]
      exact max_eq_right hseq.2
    · rw [if_neg (by simp [hae]), if_neg (by simp [hae])]
      have hfilter : (header_tokens a).dedup.filter
          (fun t => t ∈ (header_tokens a).dedup) = (header_tokens a).dedup :=
        List.filter_eq_self.mpr (fun x hx => by simpa using hx)
      have hnil : (header_tokens a).dedup.filter
          (fun t => t ∉ (header_tokens a).dedup) = [] := by
        rw [List.filter_eq_nil_iff]
        intro x hx
        simp [hx]
      rw [hfilter, hnil, List.append_nil]
      have hlen : 0 < (header_tokens a).dedup.length := by
        cases hl : (header_tokens a).dedup with
        | nil => exact absurd (by simp [hl]) hae
        | cons z zs => simp
      rw [div_self (by exact_mod_cast Nat.pos_iff_ne_zero.mp hlen)]
      exact max_eq_right hseq.2

theorem value_similarity_self (v : String) : value_similarity v v = 1 := by
  by_cases he : is_empty v <;> simp [value_similarity, he]

theorem type_compatibility_score_self (p : ColumnProfile) :
    0.8 ≤ type_compatibility_score p p ∧ type_compatibility_score p p ≤ 1 := by
  unfold type_compatibility_score
  by_cases h1 : p.boolRatio ≥ 0.9 <;> by_cases h2 : p.numericRatio ≥ 0.9 <;>
    simp [h1, h2] <;> norm_num

theorem type_compatibility_score_le_diag (p q : ColumnProfile) :
    type_compatibility_score p q ≤ type_compatibility_score p p ∧
      type_compatibility_score p q ≤ type_compatibility_score q q := by
  unfold type_compatibility_score
  by_cases hb1 : p.boolRatio ≥ 0.9 <;> by_cases hb2 : q.boolRatio ≥ 0.9 <;>
    by_cases hn1 : p.numericRatio ≥ 0.9 <;> by_cases hn2 : q.numericRatio ≥ 0.9 <;>
    simp [hb1, hb2, hn1, hn2] <;> norm_num

theorem sampleStep_le (ref cand : CSVTable) (rc cc : String) (st : ℚ × ℚ × ℚ) (p : Nat × Nat) :
    st.1 ≤ (sampleStep ref cand rc cc st p).1 ∧
      (sampleStep ref cand rc cc st p).1 ≤ st.1 + 1 ∧
      st.2.2 ≤ (sampleStep ref cand rc cc st p).2.2 ∧
      (sampleStep ref cand rc cc st p).2.2 ≤ st.2.2 + 1 := by
  unfold sampleStep
  by_cases h1 : is_empty (rowAt ref p.1 rc) && is_empty (rowAt cand p.2 cc)
  · rw [if_pos h1]
    refine ⟨?_, ?_, ?_, ?_⟩ <;> · dsimp only; linarith
  · rw [if_neg h1]
    by_cases h2 : canonical_scalar (rowAt ref p.1 rc) = canonical_scalar (rowAt cand p.2 cc) <;>
      by_cases h3 : is_empty (rowAt ref p.1 rc) = is_empty (rowAt cand p.2 cc)
    · rw [if_pos h2, if_pos h3]
      refine ⟨?_, ?_, ?_, ?_⟩ <;> · dsimp only; linarith
    · rw [if_pos h2, if_neg h3]
      refine ⟨?_, ?_, ?_, ?_⟩ <;> · dsimp only; linarith
    · rw [if_neg h2, if_pos h3]
      refine ⟨?_, ?_, ?_, ?_⟩ <;> · dsimp only; linarith
    · rw [if_neg h2, if_neg h3]
      refine ⟨?_, ?_, ?_, ?_⟩ <;> · dsimp only; linarith

theorem sampleFold_le (ref cand : CSVTable) (rc cc : String) :
    ∀ (l : List (Nat × Nat)) (st : ℚ × ℚ × ℚ),
      st.1 ≤ (l.foldl (sampleStep ref cand rc cc) st).1 ∧
      (l.foldl (sampleStep ref cand rc cc) st).1 ≤ st.1 + l.length ∧
      st.2.2 ≤ (l.foldl (sampleStep ref cand rc cc) st).2.2 ∧
      (l.foldl (sampleStep ref cand rc cc) st).2.2 ≤ st.2.2 + l.length := by
  intro l
  induction l with
  | nil => intro st; simp
  | cons p t ih =>
      intro st
      rw [List.foldl_cons]
      obtain ⟨a1, a2, a3, a4⟩ := sampleStep_le ref cand rc cc st p
      obtain ⟨b1, b2, b3, b4⟩ := ih (sampleStep ref cand rc cc st p)
      have hlen : ((p :: t).length : ℚ) = (t.length : ℚ) + 1 := by
        push_cast [List.length_cons]
        ring
      exact ⟨by linarith, by rw [hlen]; linarith, by linarith, by rw [hlen]; linarith⟩

theorem sample_column_similarity_fast_mem (ref cand : CSVTable)
    (sample_pairs : List (Nat × Nat)) (rc cc : String) :
    0 ≤ sample_column_similarity_fast ref cand sample_pairs rc cc ∧
      sample_column_similarity_fast ref cand sample_pairs rc cc ≤ 1 := by
  unfold sample_column_similarity_fast
  by_cases h : sample_pairs.isEmpty
  · rw [if_pos h]; norm_num
  · rw [if_neg h]
    simp only
    obtain ⟨b1, b2, b3, b4⟩ := sampleFold_le ref cand rc cc sample_pairs (0, 0, 0)
    have hlen : 0 < sample_pairs.length := by
      cases hl : sample_pairs with
      | nil => exact absurd (by simp [hl]) h
      | cons z zs => simp
    have hq : (0 : ℚ) < (sample_pairs.length : ℚ) := by exact_mod_cast hlen
    simp only at b1 b2 b3 b4
    constructor
    · have d1 : 0 ≤ (sample_pairs.foldl (sampleStep ref cand rc cc) (0, 0, 0)).1 / (sample_pairs.length : ℚ) :=
        div_nonneg (by linarith) (le_of_lt hq)
      have d2 : 0 ≤ (sample_pairs.foldl (sampleStep ref cand rc cc) (0, 0, 0)).2.2 / (sample_pairs.length : ℚ) :=
        div_nonneg (by linarith) (le_of_lt hq)
      linarith
    · have d1 : (sample_pairs.foldl (sampleStep ref cand rc cc) (0, 0, 0)).1 / (sample_pairs.length : ℚ) ≤ 1 := by
        rw [div_le_one hq]; linarith
      have d2 : (sample_pairs.foldl (sampleStep ref cand rc cc) (0, 0, 0)).2.2 / (sample_pairs.length : ℚ) ≤ 1 := by
        rw [div_le_one hq]; linarith
      linarith

theorem sampleStep_diag (T : CSVTable) (c : String) (st : ℚ × ℚ × ℚ) {p : Nat × Nat}
    (hp : p.1 = p.2) :
    (sampleStep T T c c st p).1 = st.1 + 1 ∧ (sampleStep T T c c st p).2.2 = st.2.2 + 1 := by
  unfold sampleStep
  rw [hp]
  by_cases h1 : is_empty (rowAt T p.2 c) && is_empty (rowAt T p.2 c)
  · rw [if_pos h1]
    exact ⟨rfl, rfl⟩
  · rw [if_neg h1]
    rw [if_pos rfl, if_pos rfl]
    exact ⟨rfl, rfl⟩

theorem sampleFold_diag (T : CSVTable) (c : String) :
    ∀ (l : List (Nat × Nat)), (∀ p ∈ l, p.1 = p.2) → ∀ (st : ℚ × ℚ × ℚ),
      (l.foldl (sampleStep T T c c) st).1 = st.1 + l.length ∧
        (l.foldl (sampleStep T T c c) st).2.2 = st.2.2 + l.length := by
  intro l
  induction l with
  | nil => intro _ st; simp
  | cons p t ih =>
      intro hdiag st
      rw [List.foldl_cons]
      obtain ⟨a1, a2⟩ := sampleStep_diag T c st (hdiag p (by simp))
      obtain ⟨b1, b2⟩ := ih (fun q hq => hdiag q (List.mem_cons_of_mem p hq))
        (sampleStep T T c c st p)
      have hlen : ((p :: t).length : ℚ) = (t.length : ℚ) + 1 := by
        push_cast [List.length_cons]
        ring
      rw [b1, b2, a1, a2, hlen]
      constructor <;> ring

theorem sample_column_similarity_fast_diag (T : CSVTable) (sample_pairs : List (Nat × Nat))
    (c : String) (hne : sample_pairs ≠ []) (hdiag : ∀ p ∈ sample_pairs, p.1 = p.2) :
    sample_column_similarity_fast T T sample_pairs c c = 1 := by
  unfold sample_column_similarity_fast
  rw [if_neg (by simpa [List.isEmpty_iff] using hne)]
  simp only
  obtain ⟨h1, h2⟩ := sampleFold_diag T c sample_pairs hdiag (0, 0, 0)
  simp only at h1 h2
  rw [h1, h2]
  have hq : ((sample_pairs.length : ℚ)) ≠ 0 := by
    have : 0 < sample_pairs.length := List.length_pos.mpr hne
    exact_mod_cast Nat.pos_iff_ne_zero.mp this
  rw [zero_add, div_self hq]
  norm_num

/-! ### Claim C2: column profile bridge -/

theorem colProfile_canon (t : CSVTable) (h : String) :
    ((t.rows.map (fun r => r h)).filter (fun v => !is_empty v)).map canonical_scalar =
      colCanonNonEmpty t h := by
  have hfm : (t.rows.map (fun r => r h)).filter (fun v => !is_empty v) =
      (t.rows.filter (fun r => !is_empty (r h))).map (fun r => r h) := by
    rw [List.filter_map]
    rfl
  rw [hfm, List.map_map]
  rfl

theorem colProfile_isUnique_iff (t : CSVTable) (h : String) :
    (colProfile t h).isUniqueNonEmpty = true ↔
      0 < (colCanonNonEmpty t h).length ∧
        (colCanonNonEmpty t h).dedup.length = (colCanonNonEmpty t h).length := by
  have hlen : ((t.rows.map (fun r => r h)).filter (fun v => !is_empty v)).length =
      (colCanonNonEmpty t h).length := by
    rw [← colProfile_canon t h, List.length_map]
  simp only [colProfile, Bool.and_eq_true, decide_eq_true_eq]
  rw [colProfile_canon t h, hlen]

theorem colCanonNonEmpty_filter_all (t : CSVTable) (g : String)
    (hlen : (colCanonNonEmpty t g).length = t.rows.length) :
    t.rows.filter (fun r => !is_empty (r g)) = t.rows := by
  apply List.Sublist.eq_of_length (List.filter_sublist _)
  unfold colCanonNonEmpty at hlen
  rw [List.length_map] at hlen
  exact hlen

theorem colCanonNonEmpty_map_of_full (t : CSVTable) (g : String)
    (hfull : t.rows.filter (fun r => !is_empty (r g)) = t.rows) :
    colCanonNonEmpty t g = t.rows.map (fun r => canonical_scalar (r g)) := by
  unfold colCanonNonEmpty
  rw [hfull]

/-! ### Claim C2: identity row alignment -/

theorem refIndexAux (d : String) :
    ∀ (l : List (String → String)) (i₀ : Nat) (acc : List (String × Nat)) (dups : Nat),
      (∀ r ∈ l, canonical_scalar (r d) ≠ "") →
      (l.map (fun r => canonical_scalar (r d))).Nodup →
      (∀ r ∈ l, acc.lookup (canonical_scalar (r d)) = none) →
      ((l.enumFrom i₀).foldl (refIndexStep d) (acc, dups)).2 = dups ∧
      (∀ s v, acc.lookup s = some v →
        ((l.enumFrom i₀).foldl (refIndexStep d) (acc, dups)).1.lookup s = some v) ∧
      (∀ j r, l.get? j = some r →
        ((l.enumFrom i₀).foldl (refIndexStep d) (acc, dups)).1.lookup
          (canonical_scalar (r d)) = some (i₀ + j)) := by
  intro l
  induction l with
  | nil =>
      intro i₀ acc dups _ _ _
      refine ⟨rfl, fun s v h => h, fun j r h => ?_⟩
      cases h
  | cons r t ih =>
      intro i₀ acc dups hne hnd hacc
      rw [List.enumFrom_cons, List.foldl_cons]
      have hkey : canonical_scalar (r d) ≠ "" := hne r (by simp)
      have hlook : acc.lookup (canonical_scalar (r d)) = none := hacc r (by simp)
      have hstep : refIndexStep d (acc, dups) (i₀, r) =
          ((canonical_scalar (r d), i₀) :: acc, dups) := by
        unfold refIndexStep
        rw [if_neg hkey]
        rw [if_neg (by simp [hlook])]
      rw [hstep]
      have hhead : canonical_scalar (r d) ∉ t.map (fun r' => canonical_scalar (r' d)) :=
        (List.nodup_cons.mp hnd).1
      have hacc' : ∀ r' ∈ t,
          ((canonical_scalar (r d), i₀) :: acc).lookup (canonical_scalar (r' d)) = none := by
        intro r' hr'
        have hne2 : canonical_scalar (r' d) ≠ canonical_scalar (r d) := by
          intro he
          exact hhead (he ▸ List.mem_map.mpr ⟨r', hr', rfl⟩)
        rw [show (((canonical_scalar (r d), i₀) :: acc).lookup (canonical_scalar (r' d))) =
            acc.lookup (canonical_scalar (r' d)) by
          simp [List.lookup, beq_eq_false_iff_ne.mpr hne2]]
        exact hacc r' (List.mem_cons_of_mem r hr')
      obtain ⟨ih1, ih2, ih3⟩ := ih (i₀ + 1) ((canonical_scalar (r d), i₀) :: acc) dups
        (fun r' hr' => hne r' (List.mem_cons_of_mem r hr'))
        (List.nodup_cons.mp hnd).2 hacc'
      refine ⟨ih1, ?_, ?_⟩
      · intro s v hv
        apply ih2
        have hs : s ≠ canonical_scalar (r d) := by
          intro he
          rw [he, hlook] at hv
          cases hv
        simp [List.lookup, beq_eq_false_iff_ne.mpr hs, hv]
      · intro j r' hj
        cases j with
        | zero =>
            have hr : r' = r := (Option.some_inj.mp (by simpa using hj)).symm
            subst hr
            have := ih2 (canonical_scalar (r' d)) i₀ (by simp [List.lookup])
            simpa using this
        | succ j' =>
            have := ih3 j' r' (by simpa using hj)
            have harith : i₀ + 1 + j' = i₀ + (j' + 1) := by omega
            rw [harith] at this
            exact this

theorem buildRefIndex_spec (T : CSVTable) (d : String)
    (hne : ∀ r ∈ T.rows, canonical_scalar (r d) ≠ "")
    (hnd : (T.rows.map (fun r => canonical_scalar (r d))).Nodup) :
    (buildRefIndex T d).2 = 0 ∧
      ∀ j r, T.rows.get? j = some r →
        (buildRefIndex T d).1.lookup (canonical_scalar (r d)) = some j := by
  obtain ⟨h1, _, h3⟩ := refIndexAux d T.rows 0 [] 0 hne hnd (fun r _ => rfl)
  refine ⟨h1, fun j r hj => ?_⟩
  have := h3 j r hj
  simpa using this

theorem alignPassAux (d : String) (refIndex : List (String × Nat)) :
    ∀ (l : List (String → String)) (j₀ : Nat) (st : AlignState),
      (∀ r ∈ l, canonical_scalar (r d) ≠ "") →
      (∀ i r, l.get? i = some r →
        refIndex.lookup (canonical_scalar (r d)) = some (j₀ + i)) →
      (∀ x ∈ st.seen, x < j₀) →
      (l.enumFrom j₀).foldl (alignStep d refIndex) st =
        ⟨st.pairs ++ (List.range' j₀ l.length).map (fun i => (i, i)),
          (List.range' j₀ l.length).reverse ++ st.seen, st.missing, st.dup⟩ := by
  intro l
  induction l with
  | nil =>
      intro j₀ st _ _ _
      simp [List.enumFrom]
  | cons r t ih =>
      intro j₀ st hne hlook hseen
      rw [List.enumFrom_cons, List.foldl_cons]
      have hkey : canonical_scalar (r d) ≠ "" := hne r (by simp)
      have hl0 : refIndex.lookup (canonical_scalar (r d)) = some j₀ := by
        have := hlook 0 r (by simp)
        simpa using this
      have hnotseen : j₀ ∉ st.seen := fun hx => absurd (hseen j₀ hx) (by omega)
      have hstep : alignStep d refIndex st (j₀, r) =
          { st with pairs := st.pairs ++ [(j₀, j₀)], seen := j₀ :: st.seen } := by
        unfold alignStep
        rw [if_neg hkey]
        rw [hl0]
        simp only
        rw [if_neg hnotseen]
      rw [hstep]
      have ihr := ih (j₀ + 1)
        { st with pairs := st.pairs ++ [(j₀, j₀)], seen := j₀ :: st.seen }
        (fun r' hr' => hne r' (List.mem_cons_of_mem r hr'))
        (fun i r' hi => by
          have := hlook (i + 1) r' (by simpa using hi)
          have harith : j₀ + (i + 1) = j₀ + 1 + i := by omega
          rw [harith] at this
          exact this)
        (by
          intro x hx
          rcases List.mem_cons.mp hx with hx | hx
          · omega
          · have := hseen x hx
            omega)
      rw [ihr]
      simp only [List.length_cons]
      rw [List.range'_succ]
      simp only [List.map_cons, List.reverse_cons]
      simp [AlignState.mk.injEq, List.append_assoc]

theorem align_rows_identity (T : CSVTable) (d : String)
    (hne : ∀ r ∈ T.rows, canonical_scalar (r d) ≠ "")
    (hnd : (T.rows.map (fun r => canonical_scalar (r d))).Nodup) :
    (align_rows_by_key T T d d).complete = true ∧
      (align_rows_by_key T T d d).matchedRows = T.rows.length ∧
      (align_rows_by_key T T d d).pairs = idPairs T.rows.length := by
  obtain ⟨hri2, hril⟩ := buildRefIndex_spec T d hne hnd
  have hpass : alignCandPass T d (buildRefIndex T d).1 =
      ⟨idPairs T.rows.length, (List.range T.rows.length).reverse, 0, 0⟩ := by
    unfold alignCandPass
    have := alignPassAux d (buildRefIndex T d).1 T.rows 0 ⟨[], [], 0, 0⟩ hne
      (fun i r hi => by simpa using hril i r hi) (by intro x hx; cases hx)
    rw [show T.rows.enum = T.rows.enumFrom 0 from rfl, this]
    simp [idPairs, List.range_eq_range']
  have hlen : (idPairs T.rows.length).length = T.rows.length := by
    unfold idPairs
    rw [List.length_map, List.length_range]
  simp only [align_rows_by_key]
  rw [hpass]
  simp only
  rw [sortStable_idPairs]
  refine ⟨?_, hlen, rfl⟩
  simp only [hri2, hlen]
  simp

/-! ### Claim C2: the chosen key pair is a diagonal pair -/

theorem mk_self_candidate (T : CSVTable) (e : String)
    (hd : (colCanonNonEmpty T e).dedup.length = (colCanonNonEmpty T e).length)
    (hpos : 0 < (colCanonNonEmpty T e).length) :
    ∃ c, mkKeyCandidate T T e e = some c ∧ c.referenceColumn = e ∧ c.candidateColumn = e ∧
      c.completeSetMatch = true ∧ c.score = 14 ∧
      c.referenceNonEmptyCount = (colCanonNonEmpty T e).length := by
  have hint : keyIntersection T T e e = (colCanonNonEmpty T e).dedup.length := by
    unfold keyIntersection
    rw [List.filter_eq_self.mpr (fun x hx => by simpa using hx)]
  have hdpos : 0 < (colCanonNonEmpty T e).dedup.length := by omega
  have hmk : ∃ c, mkKeyCandidate T T e e = some c := by
    unfold mkKeyCandidate
    rw [if_neg (by simp [hd]), if_neg (by omega)]
    exact ⟨_, rfl⟩
  obtain ⟨c, hc⟩ := hmk
  obtain ⟨_, _, hrc, hcc, hcm, _, hcount, hscore⟩ := mkKeyCandidate_spec hc
  have hcomp : keyComplete T T e e = true := by
    unfold keyComplete
    rw [exact_set_match_self]
    simp
  have hdne : ¬ (colCanonNonEmpty T e).dedup.isEmpty = true := by
    intro h
    rw [List.isEmpty_iff] at h
    rw [h] at hdpos
    simp at hdpos
  have hcast : ((colCanonNonEmpty T e).dedup.length : ℚ) ≠ 0 := by
    exact_mod_cast Nat.pos_iff_ne_zero.mp hdpos
  have hccov : candKeyCoverage T T e e = 1 := by
    unfold candKeyCoverage
    rw [if_neg hdne, hint, div_self hcast]
  have hrcov : refKeyCoverage T T e e = 1 := by
    unfold refKeyCoverage
    rw [if_neg hdne, hint, div_self hcast]
  refine ⟨c, hc, hrc, hcc, by rw [hcm, hcomp], ?_, hcount⟩
  rw [hscore, if_pos hcomp, hccov, hrcov, header_similarity_self]
  norm_num

theorem keyCandidate_le {ref cand : CSVTable} {refP : String → ColumnProfile}
    {c : KeyCandidate} (hc : c ∈ keyCandidates ref cand refP) :
    c.score ≤ 14 ∧ c.referenceNonEmptyCount ≤ ref.rows.length := by
  obtain ⟨rc, _, cc, _, _, _, heq⟩ := of_mem_keyCandidates hc
  obtain ⟨_, _, _, _, _, _, hcount, hscore⟩ := mkKeyCandidate_spec heq
  constructor
  · rw [hscore]
    have b1 := candKeyCoverage_mem ref cand rc cc
    have b2 := refKeyCoverage_mem ref cand rc cc
    have b3 := header_similarity_mem rc cc
    by_cases hk : keyComplete ref cand rc cc
    · rw [if_pos hk]
      linarith [b1.2, b2.2, b3.2]
    · rw [if_neg hk]
      linarith [b1.2, b2.2, b3.2]
  · rw [hcount]
    unfold colCanonNonEmpty
    rw [List.length_map]
    exact le_trans (List.length_filter_le _ _) (le_refl _)

theorem nodup_filterMap_of {α γ : Type} {f : α → Option γ}
    (hinj : ∀ a a' b, f a = some b → f a' = some b → a = a') :
    ∀ {l : List α}, l.Nodup → (l.filterMap f).Nodup := by
  intro l
  induction l with
  | nil => intro _; simp
  | cons a t ih =>
      intro hnd
      rw [List.filterMap_cons]
      cases hfa : f a with
      | none => exact ih (List.nodup_cons.mp hnd).2
      | some b =>
          rw [List.nodup_cons]
          refine ⟨?_, ih (List.nodup_cons.mp hnd).2⟩
          intro hb
          rw [List.mem_filterMap] at hb
          obtain ⟨a', ha', hfa'⟩ := hb
          exact (List.nodup_cons.mp hnd).1 (hinj a a' b hfa hfa' ▸ ha')

theorem keyCandidates_nodup {ref cand : CSVTable} {refP : String → ColumnProfile}
    (h1 : ref.headers.Nodup) (h2 : cand.headers.Nodup) :
    (keyCandidates ref cand refP).Nodup := by
  unfold keyCandidates
  have hmemF : ∀ (a : String) (x : KeyCandidate),
      x ∈ (if !(refP a).isUniqueNonEmpty then []
        else if (colCanonNonEmpty ref a).dedup.length ≠ (colCanonNonEmpty ref a).length then []
        else cand.headers.filterMap (fun cand_col => mkKeyCandidate ref cand a cand_col)) →
      x.referenceColumn = a := by
    intro a x hx
    by_cases c1 : (refP a).isUniqueNonEmpty
    · rw [if_neg (by simp [c1])] at hx
      by_cases c2 : (colCanonNonEmpty ref a).dedup.length = (colCanonNonEmpty ref a).length
      · rw [if_neg (by simpa using c2)] at hx
        rw [List.mem_filterMap] at hx
        obtain ⟨cc, _, hmk⟩ := hx
        exact (mkKeyCandidate_spec hmk).2.2.1
      · rw [if_pos (by simpa using c2)] at hx
        cases hx
    · rw [if_pos (by simp [c1])] at hx
      cases hx
  apply nodup_flatMap_of h1
  · intro a _
    by_cases c1 : (refP a).isUniqueNonEmpty
    · rw [if_neg (by simp [c1])]
      by_cases c2 : (colCanonNonEmpty ref a).dedup.length = (colCanonNonEmpty ref a).length
      · rw [if_neg (by simpa using c2)]
        apply nodup_filterMap_of _ h2
        intro x x' b hx hx'
        have e1 : b.candidateColumn = x := (mkKeyCandidate_spec hx).2.2.2.1
        have e2 : b.candidateColumn = x' := (mkKeyCandidate_spec hx').2.2.2.1
        rw [← e1, e2]
      · rw [if_pos (by simpa using c2)]
        simp
    · rw [if_pos (by simp [c1])]
      simp
  · intro a _ b _ hab x hxa hxb
    have ea := hmemF a x hxa
    have eb := hmemF b x hxb
    exact hab (ea ▸ eb ▸ rfl)

theorem find_key_match_self_diag (T : CSVTable) (hnd : T.headers.Nodup)
    {g : String} (hg : g ∈ T.headers)
    (hu : (colProfile T g).isUniqueNonEmpty = true)
    (hfullg : (colCanonNonEmpty T g).length = T.rows.length) :
    ∃ d, (find_key_match T T (colProfile T) (colProfile T)).referenceColumn = some d ∧
      (find_key_match T T (colProfile T) (colProfile T)).candidateColumn = some d ∧
      (find_key_match T T (colProfile T) (colProfile T)).foundUsableMatch = true ∧
      d ∈ T.headers ∧
      (colCanonNonEmpty T d).dedup.length = (colCanonNonEmpty T d).length ∧
      (colCanonNonEmpty T d).length = T.rows.length := by
  obtain ⟨hgpos, hgded⟩ := (colProfile_isUnique_iff T g).mp hu
  obtain ⟨cg, hcg, hcgr, hcgc, hcgcm, hcgs, hcgn⟩ := mk_self_candidate T g hgded hgpos
  have hcgmem : cg ∈ keyCandidates T T (colProfile T) :=
    mem_keyCandidates_of hg hg hu hgded hcg
  cases hs : sortStable kmLe (keyCandidates T T (colProfile T)) with
  | nil =>
      exfalso
      have hmem : cg ∈ sortStable kmLe (keyCandidates T T (colProfile T)) :=
        mem_sortStable.mpr hcgmem
      rw [hs] at hmem
      cases hmem
  | cons best rest =>
      have hbmem : best ∈ keyCandidates T T (colProfile T) :=
        mem_sortStable.mp (hs ▸ List.mem_cons_self best rest)
      have hmax := sortStable_head_max kmLe_trans kmLe_total hs cg hcgmem
      have hkey : kmKeyLe cg best := of_decide_eq_true hmax
      have hb := keyCandidate_le hbmem
      have hbs : best.score = 14 ∧ best.referenceNonEmptyCount = T.rows.length := by
        unfold kmKeyLe at hkey
        rw [hcgs, hcgn, hfullg] at hkey
        rcases hkey with h | ⟨he, hn⟩
        · exfalso
          linarith [hb.1]
        · exact ⟨he.symm, le_antisymm hb.2 hn⟩
      obtain ⟨rc, hrcmem, cc, hccmem, hrcu, hrcd, hmk⟩ := of_mem_keyCandidates hbmem
      obtain ⟨hccd, hint0, hbrc, hbcc, hbcm, hbint, hbcount, hbscore⟩ := mkKeyCandidate_spec hmk
      have hn : 0 < T.rows.length := hfullg ▸ hgpos
      have hlenrc : (colCanonNonEmpty T rc).length = T.rows.length := by
        rw [← hbcount]
        exact hbs.2
      have hcomplete : keyComplete T T rc cc = true := by
        by_contra hkc
        have hle4 : best.score ≤ 4 := by
          rw [hbscore, if_neg hkc]
          have b1 := candKeyCoverage_mem T T rc cc
          have b2 := refKeyCoverage_mem T T rc cc
          have b3 := header_similarity_mem rc cc
          linarith [b1.2, b2.2, b3.2]
        rw [hbs.1] at hle4
        norm_num at hle4
      have hlencc : (colCanonNonEmpty T cc).length = (colCanonNonEmpty T rc).length := by
        unfold keyComplete at hcomplete
        simp only [Bool.and_eq_true, decide_eq_true_eq] at hcomplete
        exact hcomplete.1.2
      by_cases hdiag : best.referenceColumn = best.candidateColumn
      · refine ⟨best.referenceColumn, ?_, ?_, ?_, ?_, ?_, ?_⟩
        · simp only [find_key_match, hs]
        · simp only [find_key_match, hs]
          rw [hdiag]
        · simp only [find_key_match, hs]
          exact decide_eq_true (Nat.pos_of_ne_zero (by rw [hbint]; exact hint0))
        · rw [hbrc]
          exact hrcmem
        · rw [hbrc]
          exact hrcd
        · rw [hbrc]
          exact hlenrc
      · exfalso
        have hrneq : rc ≠ cc := by
          intro he
          apply hdiag
          rw [hbrc, hbcc, he]
        have hsortnd : (best :: rest).Nodup := by
          rw [← hs]
          exact ((sortStable_perm kmLe _).nodup_iff).mpr (keyCandidates_nodup hnd hnd)
        have hcontra : ∀ c' : KeyCandidate, c'.score = 14 →
            c'.referenceNonEmptyCount = T.rows.length →
            c'.candidateColumn = c'.referenceColumn →
            (c'.referenceColumn = rc ∨ c'.referenceColumn = cc) →
            [c', best].Sublist (keyCandidates T T (colProfile T)) → False := by
          intro c' h14 hn' hdg hdm hsub
          have hkmle : kmLe c' best = true := by
            unfold kmLe
            apply decide_eq_true
            unfold kmKeyLe
            right
            constructor
            · rw [hbs.1, h14]
            · rw [hbs.2, hn']
          have hS := pair_sublist_sortStable kmLe_trans kmLe_total hkmle hsub
          rw [hs] at hS
          rcases List.sublist_cons_iff.mp hS with hcase | ⟨l', hl', _⟩
          · have hbr : best ∈ rest := hcase.subset (by simp)
            exact (List.nodup_cons.mp hsortnd).1 hbr
          · have hcb : c' = best := (List.cons.injEq _ _ _ _ ▸ hl').1
            rcases hdm with h | h
            · apply hdiag
              rw [hbrc]
              rw [← hcb, hdg, h]
            · apply hrneq
              rw [← hbrc, ← hcb, h]
        have hFrc : (if !((colProfile T) rc).isUniqueNonEmpty then []
            else if (colCanonNonEmpty T rc).dedup.length ≠ (colCanonNonEmpty T rc).length then []
            else T.headers.filterMap (fun cand_col => mkKeyCandidate T T rc cand_col)) =
            T.headers.filterMap (fun cand_col => mkKeyCandidate T T rc cand_col) := by
          rw [if_neg (by simp [hrcu]), if_neg (by simpa using hrcd)]
        rcases pair_sublist_of_mem_ne hrcmem hccmem hrneq with hA | hB
        · obtain ⟨c', hc', hc'r, hc'c, _, hc's, hc'n⟩ :=
            mk_self_candidate T rc hrcd (by rw [hlenrc]; exact hn)
          apply hcontra c' hc's (by rw [hc'n]; exact hlenrc)
            (by rw [hc'r, hc'c]) (Or.inl hc'r)
          unfold keyCandidates
          apply flatMap_block_sublist _ hrcmem
          show [c', best].Sublist (if !((colProfile T) rc).isUniqueNonEmpty then []
            else if (colCanonNonEmpty T rc).dedup.length ≠ (colCanonNonEmpty T rc).length then []
            else T.headers.filterMap (fun cand_col => mkKeyCandidate T T rc cand_col))
          rw [hFrc]
          exact filterMap_pair_sublist _ hA hc' hmk
        · have hccpos : 0 < (colCanonNonEmpty T cc).length := by
            rw [hlencc, hlenrc]
            exact hn
          have hccu : (colProfile T cc).isUniqueNonEmpty = true :=
            (colProfile_isUnique_iff T cc).mpr ⟨hccpos, hccd⟩
          obtain ⟨c', hc', hc'r, hc'c, _, hc's, hc'n⟩ := mk_self_candidate T cc hccd hccpos
          have hFcc : (if !((colProfile T) cc).isUniqueNonEmpty then []
              else if (colCanonNonEmpty T cc).dedup.length ≠ (colCanonNonEmpty T cc).length then []
              else T.headers.filterMap (fun cand_col => mkKeyCandidate T T cc cand_col)) =
              T.headers.filterMap (fun cand_col => mkKeyCandidate T T cc cand_col) := by
            rw [if_neg (by simp [hccu]), if_neg (by simpa using hccd)]
          apply hcontra c' hc's (by rw [hc'n, hlencc]; exact hlenrc)
            (by rw [hc'r, hc'c]) (Or.inr hc'r)
          unfold keyCandidates
          apply flatMap_pair_sublist _ hB
          · show c' ∈ (if !((colProfile T) cc).isUniqueNonEmpty then []
              else if (colCanonNonEmpty T cc).dedup.length ≠ (colCanonNonEmpty T cc).length then []
              else T.headers.filterMap (fun cand_col => mkKeyCandidate T T cc cand_col))
            rw [hFcc]
            exact List.mem_filterMap.mpr ⟨cc, hccmem, hc'⟩
          · show best ∈ (if !((colProfile T) rc).isUniqueNonEmpty then []
              else if (colCanonNonEmpty T rc).dedup.length ≠ (colCanonNonEmpty T rc).length then []
              else T.headers.filterMap (fun cand_col => mkKeyCandidate T T rc cand_col))
            rw [hFrc]
            exact List.mem_filterMap.mpr ⟨cc, hccmem, hmk⟩

/-! ### Claim C2: the greedy mapping maps every column to itself -/

theorem cons_eq_append_cases {α : Type} {q : α} {t l₁ l₂ : List α}
    (h : q :: t = l₁ ++ l₂) :
    (l₁ = [] ∧ l₂ = q :: t) ∨ ∃ t₁, l₁ = q :: t₁ ∧ t = t₁ ++ l₂ := by
  cases l₁ with
  | nil => exact Or.inl ⟨rfl, by simpa using h.symm⟩
  | cons a t₁ =>
      rw [List.cons_append] at h
      have h1 : q = a := (List.cons.injEq _ _ _ _ ▸ h).1
      have h2 : t = t₁ ++ l₂ := (List.cons.injEq _ _ _ _ ▸ h).2
      exact Or.inr ⟨t₁, by rw [← h1], h2⟩

theorem greedy_main :
    ∀ (l : List PairScore) (st : GreedyState),
      st.usedRef = st.usedCand →
      (∀ e ∈ st.mapping, e.2.candidateColumn = e.1) →
      (∀ x ∈ st.usedRef, ∃ e ∈ st.mapping, e.1 = x) →
      l.Nodup →
      (∀ q ∈ l, q.referenceColumn = q.candidateColumn → ¬(q.mappingConfidence < 0.55)) →
      (∀ q ∈ l, q.referenceColumn ≠ q.candidateColumn →
        ∃ d, (d = q.referenceColumn ∨ d = q.candidateColumn) ∧
          (d ∈ st.usedRef ∨ ∃ l₁ l₂, l = l₁ ++ l₂ ∧ q ∈ l₂ ∧
            ∃ q' ∈ l₁, q'.referenceColumn = d ∧ q'.candidateColumn = d)) →
      ((l.foldl greedyStep st).usedRef = (l.foldl greedyStep st).usedCand) ∧
      (∀ e ∈ (l.foldl greedyStep st).mapping, e.2.candidateColumn = e.1) ∧
      (∀ x ∈ (l.foldl greedyStep st).usedRef,
        ∃ e ∈ (l.foldl greedyStep st).mapping, e.1 = x) ∧
      (∀ q ∈ l, q.referenceColumn = q.candidateColumn →
        q.referenceColumn ∈ (l.foldl greedyStep st).usedRef) ∧
      (∀ x ∈ st.usedRef, x ∈ (l.foldl greedyStep st).usedRef) := by
  intro l
  induction l with
  | nil =>
      intro st h1 h2 h3 _ _ _
      refine ⟨h1, h2, h3, ?_, fun x hx => hx⟩
      intro q hq
      cases hq
  | cons q t ih =>
      intro st h1 h2 h3 hnd h4 h6
      rw [List.foldl_cons]
      by_cases hused : (q.referenceColumn ∈ st.usedRef || q.candidateColumn ∈ st.usedCand) = true
      · -- skip: a column is already used
        have hstep : greedyStep st q = st := by
          unfold greedyStep
          rw [if_pos hused]
        rw [hstep]
        have hqdiagmem : q.referenceColumn = q.candidateColumn →
            q.referenceColumn ∈ st.usedRef := by
          intro hqd
          rcases Bool.or_eq_true _ _ |>.mp hused with hx | hx
          · exact of_decide_eq_true hx
          · rw [← h1, ← hqd] at hx
            exact of_decide_eq_true hx
        have h6' : ∀ q₂ ∈ t, q₂.referenceColumn ≠ q₂.candidateColumn →
            ∃ d, (d = q₂.referenceColumn ∨ d = q₂.candidateColumn) ∧
              (d ∈ st.usedRef ∨ ∃ l₁ l₂, t = l₁ ++ l₂ ∧ q₂ ∈ l₂ ∧
                ∃ q' ∈ l₁, q'.referenceColumn = d ∧ q'.candidateColumn = d) := by
          intro q₂ hq₂ hoff
          obtain ⟨d, hd, hcase⟩ := h6 q₂ (List.mem_cons_of_mem q hq₂) hoff
          refine ⟨d, hd, ?_⟩
          rcases hcase with hdm | ⟨l₁, l₂, hsplit, hq₂l, q', hq', hq'r, hq'c⟩
          · exact Or.inl hdm
          · rcases cons_eq_append_cases hsplit with ⟨he1, _⟩ | ⟨t₁, he1, he2⟩
            · rw [he1] at hq'
              cases hq'
            · rw [he1] at hq'
              rcases List.mem_cons.mp hq' with hq'q | hq't
              · left
                rw [← hq'r, hq'q]
                exact hqdiagmem (by rw [← hq'q, hq'r, hq'c])
              · exact Or.inr ⟨t₁, l₂, he2, hq₂l, q', hq't, hq'r, hq'c⟩
        obtain ⟨i1, i2, i3, i4, i5⟩ := ih st h1 h2 h3 (List.nodup_cons.mp hnd).2
          (fun q₂ hq₂ => h4 q₂ (List.mem_cons_of_mem q hq₂)) h6'
        refine ⟨i1, i2, i3, ?_, i5⟩
        intro q₂ hq₂ hq₂d
        rcases List.mem_cons.mp hq₂ with he | hm
        · subst he
          exact i5 _ (hqdiagmem hq₂d)
        · exact i4 q₂ hm hq₂d
      · by_cases hthr : (q.mappingConfidence < 0.55 && q.sampleSimilarity < 0.85) = true
        · -- skip: below both thresholds; impossible for a diagonal pair
          have hstep : greedyStep st q = st := by
            unfold greedyStep
            rw [if_neg hused, if_pos hthr]
          rw [hstep]
          have hqnotdiag : q.referenceColumn ≠ q.candidateColumn := by
            intro hqd
            exact h4 q (by simp) hqd
              (of_decide_eq_true (Bool.and_eq_true _ _ |>.mp hthr).1)
          have h6' : ∀ q₂ ∈ t, q₂.referenceColumn ≠ q₂.candidateColumn →
              ∃ d, (d = q₂.referenceColumn ∨ d = q₂.candidateColumn) ∧
                (d ∈ st.usedRef ∨ ∃ l₁ l₂, t = l₁ ++ l₂ ∧ q₂ ∈ l₂ ∧
                  ∃ q' ∈ l₁, q'.referenceColumn = d ∧ q'.candidateColumn = d) := by
            intro q₂ hq₂ hoff
            obtain ⟨d, hd, hcase⟩ := h6 q₂ (List.mem_cons_of_mem q hq₂) hoff
            refine ⟨d, hd, ?_⟩
            rcases hcase with hdm | ⟨l₁, l₂, hsplit, hq₂l, q', hq', hq'r, hq'c⟩
            · exact Or.inl hdm
            · rcases cons_eq_append_cases hsplit with ⟨he1, _⟩ | ⟨t₁, he1, he2⟩
              · rw [he1] at hq'
                cases hq'
              · rw [he1] at hq'
                rcases List.mem_cons.mp hq' with hq'q | hq't
                · exact absurd (by rw [← hq'q, hq'r, hq'c]) hqnotdiag
                · exact Or.inr ⟨t₁, l₂, he2, hq₂l, q', hq't, hq'r, hq'c⟩
          obtain ⟨i1, i2, i3, i4, i5⟩ := ih st h1 h2 h3 (List.nodup_cons.mp hnd).2
            (fun q₂ hq₂ => h4 q₂ (List.mem_cons_of_mem q hq₂)) h6'
          refine ⟨i1, i2, i3, ?_, i5⟩
          intro q₂ hq₂ hq₂d
          rcases List.mem_cons.mp hq₂ with he | hm
          · exact absurd (he ▸ hq₂d) hqnotdiag
          · exact i4 q₂ hm hq₂d
        · -- select the pair; it must be diagonal
          have hstep : greedyStep st q =
              { usedRef := q.referenceColumn :: st.usedRef
                usedCand := q.candidateColumn :: st.usedCand
                mapping := st.mapping ++ [(q.referenceColumn, q)]
                confs := st.confs ++ [q.mappingConfidence] } := by
            unfold greedyStep
            rw [if_neg hused, if_neg hthr]
          have hqdiag : q.referenceColumn = q.candidateColumn := by
            by_contra hoff
            obtain ⟨d, hd, hcase⟩ := h6 q (by simp) hoff
            rcases hcase with hdm | ⟨l₁, l₂, hsplit, hql, q', hq', _, _⟩
            · apply hused
              rcases hd with hdr | hdc
              · exact Bool.or_eq_true _ _ |>.mpr (Or.inl (decide_eq_true (hdr ▸ hdm)))
              · rw [h1] at hdm
                exact Bool.or_eq_true _ _ |>.mpr (Or.inr (decide_eq_true (hdc ▸ hdm)))
            · rcases cons_eq_append_cases hsplit with ⟨he1, _⟩ | ⟨t₁, he1, he2⟩
              · rw [he1] at hq'
                cases hq'
              · have hqt : q ∈ t := by
                  rw [he2]
                  exact List.mem_append.mpr (Or.inr hql)
                exact (List.nodup_cons.mp hnd).1 hqt
          rw [hstep]
          have h1' : (q.referenceColumn :: st.usedRef) = (q.candidateColumn :: st.usedCand) := by
            rw [← hqdiag, h1]
          have h2' : ∀ e ∈ st.mapping ++ [(q.referenceColumn, q)],
              e.2.candidateColumn = e.1 := by
            intro e he
            rcases List.mem_append.mp he with he | he
            · exact h2 e he
            · have : e = (q.referenceColumn, q) := by simpa using he
              rw [this, ← hqdiag]
          have h3' : ∀ x ∈ q.referenceColumn :: st.usedRef,
              ∃ e ∈ st.mapping ++ [(q.referenceColumn, q)], e.1 = x := by
            intro x hx
            rcases List.mem_cons.mp hx with he | hm
            · exact ⟨(q.referenceColumn, q),
                List.mem_append.mpr (Or.inr (by simp)), he.symm⟩
            · obtain ⟨e, hem, he1⟩ := h3 x hm
              exact ⟨e, List.mem_append.mpr (Or.inl hem), he1⟩
          have h6' : ∀ q₂ ∈ t, q₂.referenceColumn ≠ q₂.candidateColumn →
              ∃ d, (d = q₂.referenceColumn ∨ d = q₂.candidateColumn) ∧
                (d ∈ q.referenceColumn :: st.usedRef ∨ ∃ l₁ l₂, t = l₁ ++ l₂ ∧ q₂ ∈ l₂ ∧
                  ∃ q' ∈ l₁, q'.referenceColumn = d ∧ q'.candidateColumn = d) := by
            intro q₂ hq₂ hoff
            obtain ⟨d, hd, hcase⟩ := h6 q₂ (List.mem_cons_of_mem q hq₂) hoff
            refine ⟨d, hd, ?_⟩
            rcases hcase with hdm | ⟨l₁, l₂, hsplit, hq₂l, q', hq', hq'r, hq'c⟩
            · exact Or.inl (List.mem_cons_of_mem _ hdm)
            · rcases cons_eq_append_cases hsplit with ⟨he1, _⟩ | ⟨t₁, he1, he2⟩
              · rw [he1] at hq'
                cases hq'
              · rw [he1] at hq'
                rcases List.mem_cons.mp hq' with hq'q | hq't
                · left
                  rw [← hq'r, hq'q]
                  exact List.mem_cons_self _ _
                · exact Or.inr ⟨t₁, l₂, he2, hq₂l, q', hq't, hq'r, hq'c⟩
          obtain ⟨i1, i2, i3, i4, i5⟩ := ih
            { usedRef := q.referenceColumn :: st.usedRef
              usedCand := q.candidateColumn :: st.usedCand
              mapping := st.mapping ++ [(q.referenceColumn, q)]
              confs := st.confs ++ [q.mappingConfidence] }
            h1' h2' h3' (List.nodup_cons.mp hnd).2
            (fun q₂ hq₂ => h4 q₂ (List.mem_cons_of_mem q hq₂)) h6'
          refine ⟨i1, i2, i3, ?_, ?_⟩
          · intro q₂ hq₂ hq₂d
            rcases List.mem_cons.mp hq₂ with he | hm
            · subst he
              exact i5 _ (List.mem_cons_self _ _)
            · exact i4 q₂ hm hq₂d
          · intro x hx
            exact i5 x (List.mem_cons_of_mem _ hx)

/-- The pair-score record of `map_columns` for one `(ref_col, cand_col)` pair. -/
def psRec (ref cand : CSVTable) (refP candP : String → ColumnProfile)
    (sample_pairs : List (Nat × Nat)) (ref_col cand_col : String) : PairScore :=
  { referenceColumn := ref_col
    candidateColumn := cand_col
    headerSimilarity := round6 (header_similarity ref_col cand_col)
    typeCompatibility := round6 (type_compatibility_score (refP ref_col) (candP cand_col))
    sampleSimilarity :=
      round6 (sample_column_similarity_fast ref cand sample_pairs ref_col cand_col)
    mappingConfidence := round6 (0.35 * header_similarity ref_col cand_col +
      0.10 * type_compatibility_score (refP ref_col) (candP cand_col) +
      0.55 * sample_column_similarity_fast ref cand sample_pairs ref_col cand_col) }

theorem pairScores_eq (ref cand : CSVTable) (refP candP : String → ColumnProfile)
    (sample_pairs : List (Nat × Nat)) :
    pairScores ref cand refP candP sample_pairs =
      ref.headers.flatMap (fun r => cand.headers.map (psRec ref cand refP candP sample_pairs r)) :=
  rfl

theorem pairScores_nodup (ref cand : CSVTable) (refP candP : String → ColumnProfile)
    (sample_pairs : List (Nat × Nat)) (h1 : ref.headers.Nodup) (h2 : cand.headers.Nodup) :
    (pairScores ref cand refP candP sample_pairs).Nodup := by
  rw [pairScores_eq]
  apply nodup_flatMap_of h1
  · intro a _
    apply List.Nodup.map_on _ h2
    intro x _ y _ hxy
    have := congrArg PairScore.candidateColumn hxy
    simpa [psRec] using this
  · intro a _ b _ hab x hxa hxb
    rw [List.mem_map] at hxa hxb
    obtain ⟨c1, _, he1⟩ := hxa
    obtain ⟨c2, _, he2⟩ := hxb
    apply hab
    have ha : x.referenceColumn = a := by rw [← he1]; rfl
    have hb : x.referenceColumn = b := by rw [← he2]; rfl
    rw [← ha, hb]

theorem map_columns_identity (T : CSVTable) (hnd : T.headers.Nodup)
    (sp : List (Nat × Nat)) (sample_size : Nat)
    (hSne : sp.take (min sample_size sp.length) ≠ [])
    (hdiag : ∀ p ∈ sp, p.1 = p.2) :
    (∀ e ∈ (map_columns T T (colProfile T) (colProfile T) sp sample_size).mapping,
      e.2.candidateColumn = e.1) ∧
    (∀ h ∈ T.headers, ∃ p,
      (h, p) ∈ (map_columns T T (colProfile T) (colProfile T) sp sample_size).mapping ∧
      p.candidateColumn = h) := by
  have hSdiag : ∀ p ∈ sp.take (min sample_size sp.length), p.1 = p.2 :=
    fun p hp => hdiag p (List.take_subset _ _ hp)
  have hsample : ∀ c : String,
      sample_column_similarity_fast T T (sp.take (min sample_size sp.length)) c c = 1 :=
    fun c => sample_column_similarity_fast_diag T _ c hSne hSdiag
  have hthresh : ∀ q ∈ pairScores T T (colProfile T) (colProfile T)
      (sp.take (min sample_size sp.length)),
      q.referenceColumn = q.candidateColumn → ¬(q.mappingConfidence < 0.55) := by
    intro q hq hqd
    rw [pairScores_eq, List.mem_flatMap] at hq
    obtain ⟨r, hr, hq2⟩ := hq
    rw [List.mem_map] at hq2
    obtain ⟨c, hc, hqe⟩ := hq2
    have hrc : r = c := by
      have e1 : q.referenceColumn = r := by rw [← hqe]; rfl
      have e2 : q.candidateColumn = c := by rw [← hqe]; rfl
      rw [← e1, ← e2, hqd]
    subst hrc
    have hconf : q.mappingConfidence = round6 (0.35 * header_similarity r r +
        0.10 * type_compatibility_score (colProfile T r) (colProfile T r) +
        0.55 * sample_column_similarity_fast T T
          (sp.take (min sample_size sp.length)) r r) := by
      rw [← hqe]
      rfl
    rw [hconf, header_similarity_self, hsample]
    have ht := (type_compatibility_score_self (colProfile T r)).1
    have hge := round6_ge (0.35 * 1 +
      0.10 * type_compatibility_score (colProfile T r) (colProfile T r) + 0.55 * 1)
    intro hlt
    have : (0.55 : ℚ) ≤ round6 (0.35 * 1 +
        0.10 * type_compatibility_score (colProfile T r) (colProfile T r) + 0.55 * 1) := by
      have hv : (0.98 : ℚ) ≤ 0.35 * 1 +
          0.10 * type_compatibility_score (colProfile T r) (colProfile T r) + 0.55 * 1 := by
        linarith
      linarith
    linarith
  have hbound : ∀ (r c : String),
      psKeyLe (psRec T T (colProfile T) (colProfile T)
          (sp.take (min sample_size sp.length)) r c)
        (psRec T T (colProfile T) (colProfile T)
          (sp.take (min sample_size sp.length)) r r) ∧
      psKeyLe (psRec T T (colProfile T) (colProfile T)
          (sp.take (min sample_size sp.length)) r c)
        (psRec T T (colProfile T) (colProfile T)
          (sp.take (min sample_size sp.length)) c c) := by
    intro r c
    have hhs := header_similarity_mem r c
    have hss := sample_column_similarity_fast_mem T T
      (sp.take (min sample_size sp.length)) r c
    have htc := type_compatibility_score_le_diag (colProfile T r) (colProfile T c)
    constructor
    · apply psKeyLe_of_components
      · show round6 _ ≤ round6 _
        apply round6_mono
        rw [header_similarity_self, hsample]
        have := (type_compatibility_score_self (colProfile T r)).1
        linarith [htc.1]
      · show round6 _ ≤ round6 _
        apply round6_mono
        rw [hsample]
        exact hss.2
      · show round6 _ ≤ round6 _
        apply round6_mono
        rw [header_similarity_self]
        exact hhs.2
    · apply psKeyLe_of_components
      · show round6 _ ≤ round6 _
        apply round6_mono
        rw [header_similarity_self, hsample]
        have := (type_compatibility_score_self (colProfile T c)).1
        linarith [htc.2]
      · show round6 _ ≤ round6 _
        apply round6_mono
        rw [hsample]
        exact hss.2
      · show round6 _ ≤ round6 _
        apply round6_mono
        rw [header_similarity_self]
        exact hhs.2
  have hsorted_nodup : (sortStable psLe (pairScores T T (colProfile T) (colProfile T)
      (sp.take (min sample_size sp.length)))).Nodup :=
    ((sortStable_perm psLe _).nodup_iff).mpr
      (pairScores_nodup T T (colProfile T) (colProfile T) _ hnd hnd)
  have h6init : ∀ q ∈ sortStable psLe (pairScores T T (colProfile T) (colProfile T)
      (sp.take (min sample_size sp.length))),
      q.referenceColumn ≠ q.candidateColumn →
      ∃ d, (d = q.referenceColumn ∨ d = q.candidateColumn) ∧
        (d ∈ (⟨[], [], [], []⟩ : GreedyState).usedRef ∨
          ∃ l₁ l₂, sortStable psLe (pairScores T T (colProfile T) (colProfile T)
            (sp.take (min sample_size sp.length))) = l₁ ++ l₂ ∧ q ∈ l₂ ∧
            ∃ q' ∈ l₁, q'.referenceColumn = d ∧ q'.candidateColumn = d) := by
    intro q hq hoff
    have hqm : q ∈ pairScores T T (colProfile T) (colProfile T)
        (sp.take (min sample_size sp.length)) := mem_sortStable.mp hq
    rw [pairScores_eq, List.mem_flatMap] at hqm
    obtain ⟨r, hr, hq2⟩ := hqm
    rw [List.mem_map] at hq2
    obtain ⟨c, hc, hqe⟩ := hq2
    have e1 : q.referenceColumn = r := by rw [← hqe]; rfl
    have e2 : q.candidateColumn = c := by rw [← hqe]; rfl
    have hrc : r ≠ c := by
      intro he
      exact hoff (by rw [e1, e2, he])
    rcases pair_sublist_of_mem_ne hr hc hrc with hA | hB
    · -- r precedes c: the diagonal (r, r) precedes q in the same block
      refine ⟨r, Or.inl e1.symm, Or.inr ?_⟩
      have henum : [psRec T T (colProfile T) (colProfile T)
          (sp.take (min sample_size sp.length)) r r, q].Sublist
          (pairScores T T (colProfile T) (colProfile T)
            (sp.take (min sample_size sp.length))) := by
        rw [pairScores_eq]
        apply flatMap_block_sublist _ hr
        have := hA.map (psRec T T (colProfile T) (colProfile T)
          (sp.take (min sample_size sp.length)) r)
        simp only [List.map_cons, List.map_nil] at this
        rw [hqe] at this
        exact this
      have hkle : psLe (psRec T T (colProfile T) (colProfile T)
          (sp.take (min sample_size sp.length)) r r) q = true := by
        unfold psLe
        apply decide_eq_true
        rw [← hqe]
        exact (hbound r c).1
      have hS := pair_sublist_sortStable psLe_trans psLe_total hkle henum
      obtain ⟨u, v, hsplit, hmu, hmv⟩ := pair_sublist_split hS
      exact ⟨u, v, hsplit, hmv, _, hmu, rfl, rfl⟩
    · -- c precedes r: the diagonal (c, c) lies in an earlier block
      refine ⟨c, Or.inr e2.symm, Or.inr ?_⟩
      have henum : [psRec T T (colProfile T) (colProfile T)
          (sp.take (min sample_size sp.length)) c c, q].Sublist
          (pairScores T T (colProfile T) (colProfile T)
            (sp.take (min sample_size sp.length))) := by
        rw [pairScores_eq]
        apply flatMap_pair_sublist _ hB
        · exact List.mem_map.mpr ⟨c, hc, rfl⟩
        · exact List.mem_map.mpr ⟨c, hc, hqe⟩
      have hkle : psLe (psRec T T (colProfile T) (colProfile T)
          (sp.take (min sample_size sp.length)) c c) q = true := by
        unfold psLe
        apply decide_eq_true
        rw [← hqe]
        exact (hbound r c).2
      have hS := pair_sublist_sortStable psLe_trans psLe_total hkle henum
      obtain ⟨u, v, hsplit, hmu, hmv⟩ := pair_sublist_split hS
      exact ⟨u, v, hsplit, hmv, _, hmu, rfl, rfl⟩
  obtain ⟨g1, g2, g3, g4, g5⟩ := greedy_main
    (sortStable psLe (pairScores T T (colProfile T) (colProfile T)
      (sp.take (min sample_size sp.length)))) ⟨[], [], [], []⟩
    rfl (by intro e he; cases he) (by intro x hx; cases hx) hsorted_nodup
    (fun q hq => hthresh q (mem_sortStable.mp hq)) h6init
  have hmapping : (map_columns T T (colProfile T) (colProfile T) sp sample_size).mapping =
      ((sortStable psLe (pairScores T T (colProfile T) (colProfile T)
        (sp.take (min sample_size sp.length)))).foldl greedyStep ⟨[], [], [], []⟩).mapping := by
    simp only [map_columns]
  constructor
  · intro e he
    rw [hmapping] at he
    exact g2 e he
  · intro h hh
    have hrec : psRec T T (colProfile T) (colProfile T)
        (sp.take (min sample_size sp.length)) h h ∈
        pairScores T T (colProfile T) (colProfile T)
          (sp.take (min sample_size sp.length)) := by
      rw [pairScores_eq]
      exact List.mem_flatMap.mpr ⟨h, hh, List.mem_map.mpr ⟨h, hh, rfl⟩⟩
    have hused : h ∈ ((sortStable psLe (pairScores T T (colProfile T) (colProfile T)
        (sp.take (min sample_size sp.length)))).foldl greedyStep
          ⟨[], [], [], []⟩).usedRef :=
      g4 _ (mem_sortStable.mpr hrec) rfl
    obtain ⟨⟨ek, ev⟩, hem, he1⟩ := g3 h hused
    have hek : ek = h := he1
    subst hek
    refine ⟨ev, ?_, ?_⟩
    · rw [hmapping]
      exact hem
    · exact g2 (ek, ev) hem

/-! ### Claim C2: the identity mapping scores 1.0 -/

theorem lookup_some_of_mem {β : Type} :
    ∀ {l : List (String × β)} {k : String} {p : β}, (k, p) ∈ l →
      ∃ v, l.lookup k = some v ∧ (k, v) ∈ l := by
  intro l
  induction l with
  | nil => intro k p hm; cases hm
  | cons a t ih =>
      intro k p hm
      obtain ⟨a1, a2⟩ := a
      by_cases hk : k = a1
      · refine ⟨a2, ?_, ?_⟩
        · simp [List.lookup, hk]
        · rw [hk]
          exact List.mem_cons_self _ _
      · have hmt : (k, p) ∈ t := by
          rcases List.mem_cons.mp hm with he | hm'
          · exact absurd (congrArg Prod.fst he) hk
          · exact hm'
        obtain ⟨v, hv, hvm⟩ := ih hmt
        refine ⟨v, ?_, List.mem_cons_of_mem _ hvm⟩
        simp [List.lookup, beq_eq_false_iff_ne.mpr hk, hv]

theorem sum_eq_length_of_all_one : ∀ {l : List ℚ}, (∀ x ∈ l, x = 1) → l.sum = l.length := by
  intro l
  induction l with
  | nil => intro _; simp
  | cons x t ih =>
      intro h
      rw [List.sum_cons, h x (by simp), ih (fun y hy => h y (List.mem_cons_of_mem x hy))]
      simp
      ring

theorem full_column_similarity_identity (T : CSVTable) (pairs : List (Nat × Nat)) (rc : String)
    (hne : pairs ≠ []) (hdiag : ∀ p ∈ pairs, p.1 = p.2) :
    full_column_similarity T T pairs rc rc = 1 := by
  unfold full_column_similarity
  rw [if_neg (by simpa [List.isEmpty_iff] using hne)]
  have hall : ∀ x ∈ pairs.map
      (fun p => value_similarity (rowAt T p.1 rc) (rowAt T p.2 rc)), x = 1 := by
    intro x hx
    rw [List.mem_map] at hx
    obtain ⟨p, hp, he⟩ := hx
    rw [← he, hdiag p hp]
    exact value_similarity_self _
  rw [sum_eq_length_of_all_one hall, List.length_map]
  have hq : ((pairs.length : ℚ)) ≠ 0 := by
    have : 0 < pairs.length := List.length_pos.mpr hne
    exact_mod_cast Nat.pos_iff_ne_zero.mp this
  exact div_self hq

theorem score_columns_identity (T : CSVTable) (pairs : List (Nat × Nat))
    (mapping : List (String × PairScore))
    (hpne : pairs ≠ []) (hpdiag : ∀ p ∈ pairs, p.1 = p.2)
    (hhne : T.headers ≠ [])
    (hlookup : ∀ h ∈ T.headers, ∃ p, mapping.lookup h = some p ∧ p.candidateColumn = h) :
    (score_columns T T pairs mapping).datasetSimilarityEqualWeighted = 1 := by
  unfold score_columns
  simp only
  rw [if_neg (by simpa [List.isEmpty_iff] using hhne)]
  have hall : ∀ x ∈ (T.headers.map (fun ref_col =>
      match mapping.lookup ref_col with
      | none =>
          ({ referenceColumn := ref_col, candidateColumn := none, similarity := 0,
             matched := false, mappingConfidence := 0, rowCountScored := 0,
             headerSimilarity := none, sampleSimilarity := none,
             reason := none } : PerRefColumnScore)
      | some m =>
          { referenceColumn := ref_col
            candidateColumn := some m.candidateColumn
            similarity := full_column_similarity T T pairs ref_col m.candidateColumn
            matched := true
            mappingConfidence := m.mappingConfidence
            rowCountScored := pairs.length
            headerSimilarity := some m.headerSimilarity
            sampleSimilarity := some m.sampleSimilarity
            reason := none })).map (fun x => x.similarity), x = 1 := by
    intro x hx
    rw [List.map_map, List.mem_map] at hx
    obtain ⟨rc, hrc, he⟩ := hx
    obtain ⟨m, hm, hmc⟩ := hlookup rc hrc
    rw [← he]
    show ((match mapping.lookup rc with
      | none =>
          ({ referenceColumn := rc, candidateColumn := none, similarity := 0,
             matched := false, mappingConfidence := 0, rowCountScored := 0,
             headerSimilarity := none, sampleSimilarity := none,
             reason := none } : PerRefColumnScore)
      | some m =>
          { referenceColumn := rc
            candidateColumn := some m.candidateColumn
            similarity := full_column_similarity T T pairs rc m.candidateColumn
            matched := true
            mappingConfidence := m.mappingConfidence
            rowCountScored := pairs.length
            headerSimilarity := some m.headerSimilarity
            sampleSimilarity := some m.sampleSimilarity
            reason := none }) : PerRefColumnScore).similarity = 1
    rw [hm]
    simp only
    rw [hmc]
    exact full_column_similarity_identity T pairs rc hpne hpdiag
  rw [sum_eq_length_of_all_one hall, List.length_map, List.length_map]
  have hq : ((T.headers.length : ℚ)) ≠ 0 := by
    have : 0 < T.headers.length := List.length_pos.mpr hhne
    exact_mod_cast Nat.pos_iff_ne_zero.mp this
  exact div_self hq

/-! ### Claim C2: corrected statement, counterexample, witness -/

/-- C2 (amended): for byte-identical tables with duplicate-free headers and at
least one column that is unique and non-empty on every row, the report has
status `"ok"`, the equal-weighted dataset similarity is `1`, and every
reference column is mapped to the candidate column of the same name. -/
theorem c2_identical_tables (T : CSVTable) (hnd : T.headers.Nodup)
    (g : String) (hg : g ∈ T.headers)
    (hu : (colProfile T g).isUniqueNonEmpty = true)
    (hfull : ∀ r ∈ T.rows, is_empty (r g) = false) :
    (compare_csv_files T T).status = "ok" ∧
    (compare_csv_files T T).scores.datasetSimilarityEqualWeighted = 1 ∧
    (∀ h ∈ T.headers, ∃ p, (h, p) ∈ (compare_csv_files T T).columnMapping.mapping ∧
      p.candidateColumn = h) := by
  have hfilter : T.rows.filter (fun r => !is_empty (r g)) = T.rows :=
    List.filter_eq_self.mpr (fun r hr => by simp [hfull r hr])
  have hglen : (colCanonNonEmpty T g).length = T.rows.length := by
    unfold colCanonNonEmpty
    rw [hfilter, List.length_map]
  obtain ⟨D, hDr, hDc, hDu, hDmem, hDded, hDlen⟩ :=
    find_key_match_self_diag T hnd hg hu hglen
  have hDfilter : T.rows.filter (fun r => !is_empty (r D)) = T.rows :=
    colCanonNonEmpty_filter_all T D hDlen
  have hDmap : colCanonNonEmpty T D = T.rows.map (fun r => canonical_scalar (r D)) :=
    colCanonNonEmpty_map_of_full T D hDfilter
  have hDne : ∀ r ∈ T.rows, canonical_scalar (r D) ≠ "" := by
    intro r hr
    have hb := List.filter_eq_self.mp hDfilter r hr
    exact canonical_scalar_ne_empty (by simpa using hb)
  have hDnodup : (T.rows.map (fun r => canonical_scalar (r D))).Nodup := by
    rw [← hDmap]
    have hsub := List.dedup_sublist (colCanonNonEmpty T D)
    have heq := hsub.eq_of_length hDded
    rw [← heq]
    exact List.nodup_dedup _
  obtain ⟨halignc, halignm, halignp⟩ := align_rows_identity T D hDne hDnodup
  have hn : 0 < T.rows.length := hglen ▸ ((colProfile_isUnique_iff T g).mp hu).1
  have hgetr : (find_key_match T T (colProfile T) (colProfile T)).referenceColumn.getD "" = D := by
    rw [hDr]
    rfl
  have hgetc : (find_key_match T T (colProfile T) (colProfile T)).candidateColumn.getD "" = D := by
    rw [hDc]
    rfl
  have hm0 : ¬ (align_rows_by_key T T D D).matchedRows = 0 := by
    rw [halignm]
    omega
  have hred : compare_csv_files T T =
      { status := "ok"
        referenceRowCount := T.rows.length
        referenceColumnCount := T.headers.length
        referenceUniqueColumns :=
          T.headers.filter (fun h => ((colProfile T) h).isUniqueNonEmpty)
        candidateRowCount := T.rows.length
        candidateColumnCount := T.headers.length
        rowAlignment := align_rows_by_key T T D D
        keyMatch := find_key_match T T (colProfile T) (colProfile T)
        columnMapping := map_columns T T (colProfile T) (colProfile T)
          (align_rows_by_key T T D D).pairs 256
        scores := { score_columns T T (align_rows_by_key T T D D).pairs
            (map_columns T T (colProfile T) (colProfile T)
              (align_rows_by_key T T D D).pairs 256).mapping with
          overallScoreWithCoverage :=
            (score_columns T T (align_rows_by_key T T D D).pairs
              (map_columns T T (colProfile T) (colProfile T)
                (align_rows_by_key T T D D).pairs 256).mapping).datasetSimilarityEqualWeighted *
              (align_rows_by_key T T D D).coverageReference } } := by
    unfold compare_csv_files
    rw [if_neg (by rw [hDu]; simp)]
    simp only [hgetr, hgetc]
    rw [if_neg hm0]
    rw [if_pos halignc]
  have hpairs_ne : (align_rows_by_key T T D D).pairs ≠ [] := by
    rw [halignp]
    unfold idPairs
    intro he
    have hlen := congrArg List.length he
    rw [List.length_map, List.length_range] at hlen
    simp only [List.length_nil] at hlen
    omega
  have hpairs_diag : ∀ p ∈ (align_rows_by_key T T D D).pairs, p.1 = p.2 := by
    intro p hp
    rw [halignp] at hp
    unfold idPairs at hp
    rw [List.mem_map] at hp
    obtain ⟨i, _, he⟩ := hp
    rw [← he]
  have hSne : (align_rows_by_key T T D D).pairs.take
      (min 256 (align_rows_by_key T T D D).pairs.length) ≠ [] := by
    intro he
    rcases List.take_eq_nil_iff.mp he with h0 | h0
    · have hp : 0 < (align_rows_by_key T T D D).pairs.length :=
        List.length_pos.mpr hpairs_ne
      omega
    · exact hpairs_ne h0
  obtain ⟨hmapdiag, hmapall⟩ := map_columns_identity T hnd
    (align_rows_by_key T T D D).pairs 256 hSne hpairs_diag
  refine ⟨?_, ?_, ?_⟩
  · rw [hred]
  · rw [hred]
    show (score_columns T T (align_rows_by_key T T D D).pairs
        (map_columns T T (colProfile T) (colProfile T)
          (align_rows_by_key T T D D).pairs 256).mapping).datasetSimilarityEqualWeighted = 1
    apply score_columns_identity T _ _ hpairs_ne hpairs_diag (List.ne_nil_of_mem hg)
    intro h hh
    obtain ⟨p, hpm, _⟩ := hmapall h hh
    obtain ⟨v, hlk, hvm⟩ := lookup_some_of_mem hpm
    exact ⟨v, hlk, hmapdiag (h, v) hvm⟩
  · intro h hh
    obtain ⟨p, hpm, hpc⟩ := hmapall h hh
    refine ⟨p, ?_, hpc⟩
    rw [hred]
    exact hpm

/-- A byte-identical table pair for which the report is not `"ok"`: the single
column is unique on its non-empty values, but one cell is empty, so the key
only covers half the rows. -/
def c2Table : CSVTable := ⟨["a"], [fun _ => "1", fun _ => ""]⟩

/-- C2 counterexample: byte-identical inputs alone do not give status `"ok"`;
with an empty key cell the comparison reports `"partial_key_match"`. -/
theorem c2_identical_tables_not_ok :
    (compare_csv_files c2Table c2Table).status = "partial_key_match" := by decide

theorem c2_witness :
    (compare_csv_files wTable wTable).status = "ok" ∧
    (compare_csv_files wTable wTable).scores.datasetSimilarityEqualWeighted = 1 ∧
    (∀ h ∈ wTable.headers, ∃ p,
      (h, p) ∈ (compare_csv_files wTable wTable).columnMapping.mapping ∧
      p.candidateColumn = h) :=
  c2_identical_tables wTable (by decide) "k" (by decide) (by decide) (by decide)
